import Mathlib

/-!
Verification development for the CSS selector parser and selector matcher
of `src/index.js` (classes `CssSelector`, `SelectorMatcher`,
`SelectorListContext`, `SelectorContext`).

The JavaScript source is embedded shallowly:

* The single regular expression `_SELECTOR_REGEXP` that drives the scanner is
  modelled by `matchAt`, which at a given position tries the five alternatives
  of the regexp in their alternation order; `tokenize` repeats this scan,
  skipping one character when no alternative matches, exactly as a global
  `exec` loop does.
* Mutable objects (`CssSelector` under construction, the matcher's maps, the
  shared `SelectorListContext.alreadyMatched` flags) become explicit values:
  maps are association lists (only `get`/`set` are used by the source, never
  iteration), and the shared mutable flags become an explicit state
  `GroupFlags` threaded through `matchF`, with `SelectorListContext` objects
  identified by numeric ids.
* The recursion `match` → `finalize` → `createNotMatcher` → `match` is made
  total with an explicit fuel parameter (fuel `0` never occurs on the inputs
  of interest; the universally quantified theorems hold for every fuel).
* JavaScript `String.prototype.toLowerCase` is modelled on ASCII by
  `jsLower` (every character class produced by the scanner is ASCII).
-/

set_option maxHeartbeats 1000000

/-! ## Character classes of `_SELECTOR_REGEXP` -/

/-- `\w` of JavaScript: ASCII letters, digits and underscore. -/
def wordChar (c : Char) : Bool :=
  c.isAlpha || c.isDigit || c = '_'

/-- The class `[-\w]` used for tags, classes and ids (group 2). -/
def tagChar (c : Char) : Bool :=
  wordChar c || c = '-'

/-- The class `[-.\w*\\$]` of raw attribute names (group 4). -/
def nameChar (c : Char) : Bool :=
  tagChar c || c = '.' || c = '*' || c = '\\' || c = '$'

/-- The class `[^\]"']` of attribute values (group 6). -/
def valueChar (c : Char) : Bool :=
  !(c = ']' || c = '"' || c = '\'')

/-- `\s` of JavaScript, restricted to ASCII whitespace. -/
def spaceChar (c : Char) : Bool :=
  c = ' ' || c = '\t' || c = '\n' || c = '\r' || c = '\x0b' || c = '\x0c'

/-- ASCII model of `String.prototype.toLowerCase`, one character. -/
def jsLowerChar (c : Char) : Char :=
  if 'A' ≤ c ∧ c ≤ 'Z' then Char.ofNat (c.toNat + 32) else c

/-- ASCII model of `String.prototype.toLowerCase`. -/
def jsLower (s : String) : String :=
  String.mk (s.data.map jsLowerChar)

/-! ## Tokens

One token per successful `exec` of `_SELECTOR_REGEXP`.  A `fragment` keeps
the optional `.`/`#` marker (capture group 3) separately from the word run,
mirroring `match[2].slice(1)` in the source.  An `attrTok` keeps the raw
(still escaped) name (group 4) and the optional value (group 6: `none` when
there was no `=` part, `some v`, possibly empty, when there was one). -/

inductive SelToken where
  | notOpen : SelToken
  | fragment (mark : Option Char) (run : List Char) : SelToken
  | attrTok (rawName : List Char) (value : Option (List Char)) : SelToken
  | notClose : SelToken
  | separator : SelToken
deriving DecidableEq, Repr

/-- Alternative 1 of the regexp: the literal `:not(`. -/
def notOpenAt : List Char → Option (SelToken × List Char)
  | ':' :: 'n' :: 'o' :: 't' :: '(' :: rest => some (.notOpen, rest)
  | _ => none

/-- Alternative 2: `([\.\#]?)[-\w]+`.  The optional marker is greedy; when it
is taken, the following word run must still be nonempty (otherwise the
alternative fails, because a `.`/`#` is itself not a word character). -/
def fragAt : List Char → Option (SelToken × List Char)
  | [] => none
  | c :: cs =>
    if c = '.' || c = '#' then
      if (cs.takeWhile tagChar).isEmpty then none
      else some (.fragment (some c) (cs.takeWhile tagChar), cs.dropWhile tagChar)
    else
      if ((c :: cs).takeWhile tagChar).isEmpty then none
      else some (.fragment none ((c :: cs).takeWhile tagChar), (c :: cs).dropWhile tagChar)

/-- Alternative 3: `\[([-.\w*\\$]+)(?:=(["']?)([^\]"']*)\5)?\]`.

Backtracking analysis (the name class contains neither `=` nor `]`, and the
value class contains no quote): shrinking the greedy name run can never expose
an `=` or `]`, and shrinking the greedy value run can never expose the closing
quote, so the alternative succeeds in exactly the cases below. -/
def attrAt : List Char → Option (SelToken × List Char)
  | '[' :: cs =>
    if (cs.takeWhile nameChar).isEmpty then none
    else
      match cs.dropWhile nameChar with
      | ']' :: rest => some (.attrTok (cs.takeWhile nameChar) none, rest)
      | '=' :: rest =>
        match rest with
        | [] => none
        | q :: rest2 =>
          if q = '"' || q = '\'' then
            match rest2.dropWhile valueChar with
            | q2 :: ']' :: rest3 =>
              if q2 = q then
                some (.attrTok (cs.takeWhile nameChar) (some (rest2.takeWhile valueChar)), rest3)
              else none
            | _ => none
          else
            match rest.dropWhile valueChar with
            | ']' :: rest3 =>
              some (.attrTok (cs.takeWhile nameChar) (some (rest.takeWhile valueChar)), rest3)
            | _ => none
      | _ => none
  | _ => none

/-- Alternative 7 (numbering of the source comment): the literal `)`. -/
def notCloseAt : List Char → Option (SelToken × List Char)
  | ')' :: rest => some (.notClose, rest)
  | _ => none

/-- Alternative 8: `\s*,\s*`.  Whitespace is never a comma, so the greedy
leading `\s*` matches exactly the maximal whitespace run. -/
def sepAt (cs : List Char) : Option (SelToken × List Char) :=
  match cs.dropWhile spaceChar with
  | ',' :: rest => some (.separator, rest.dropWhile spaceChar)
  | _ => none

/-- One attempt of `_SELECTOR_REGEXP` at the current position: the five
alternatives in alternation order. -/
def matchAt (cs : List Char) : Option (SelToken × List Char) :=
  match notOpenAt cs with
  | some r => some r
  | none =>
    match fragAt cs with
    | some r => some r
    | none =>
      match attrAt cs with
      | some r => some r
      | none =>
        match notCloseAt cs with
        | some r => some r
        | none => sepAt cs

theorem dropWhile_length_le (p : Char → Bool) (cs : List Char) :
    (cs.dropWhile p).length ≤ cs.length :=
  (List.dropWhile_suffix p).length_le

theorem notOpenAt_length {cs rest : List Char} {t : SelToken}
    (h : notOpenAt cs = some (t, rest)) : rest.length < cs.length := by
  rw [notOpenAt.eq_def] at h
  split at h
  · simp only [Option.some.injEq, Prod.mk.injEq] at h
    rw [← h.2]
    simp
    omega
  · exact absurd h (by simp)

theorem fragAt_length {cs rest : List Char} {t : SelToken}
    (h : fragAt cs = some (t, rest)) : rest.length < cs.length := by
  rw [fragAt.eq_def] at h
  split at h
  · exact absurd h (by simp)
  · rename_i c cs'
    split at h
    · split at h
      · exact absurd h (by simp)
      · simp only [Option.some.injEq, Prod.mk.injEq] at h
        rw [← h.2]
        have := dropWhile_length_le tagChar cs'
        simp
        omega
    · split at h
      · exact absurd h (by simp)
      · rename_i hne
        simp only [Option.some.injEq, Prod.mk.injEq] at h
        rw [← h.2]
        have hsum : ((c :: cs').takeWhile tagChar).length +
            ((c :: cs').dropWhile tagChar).length = (c :: cs').length := by
          rw [← List.length_append, List.takeWhile_append_dropWhile]
        have htk : ((c :: cs').takeWhile tagChar).length ≠ 0 := by
          simpa [List.isEmpty_iff, List.length_eq_zero] using hne
        omega

theorem attrAt_length {cs rest : List Char} {t : SelToken}
    (h : attrAt cs = some (t, rest)) : rest.length < cs.length := by
  rw [attrAt.eq_def] at h
  split at h
  case _ cs' =>
    split at h
    · exact absurd h (by simp)
    · split at h
      case _ rest' heq =>
        have hle : (']' :: rest').length ≤ cs'.length :=
          heq ▸ dropWhile_length_le nameChar cs'
        simp only [Option.some.injEq, Prod.mk.injEq] at h
        rw [← h.2]
        simp at hle ⊢
        omega
      case _ rest' heq =>
        have hle : ('=' :: rest').length ≤ cs'.length :=
          heq ▸ dropWhile_length_le nameChar cs'
        simp only [List.length_cons] at hle
        split at h
        · exact absurd h (by simp)
        · rename_i q rest2
          split at h
          · split at h
            case _ q2 rest3 heq2 =>
              have hle2 : (q2 :: ']' :: rest3).length ≤ rest2.length :=
                heq2 ▸ dropWhile_length_le valueChar rest2
              have hq : (q :: rest2).length = rest2.length + 1 := by simp
              split at h
              · simp only [Option.some.injEq, Prod.mk.injEq] at h
                rw [← h.2]
                simp at hle2 ⊢
                omega
              · exact absurd h (by simp)
            all_goals exact absurd h (by simp)
          · split at h
            case _ rest3 heq2 =>
              have hle2 : (']' :: rest3).length ≤ (q :: rest2).length :=
                heq2 ▸ dropWhile_length_le valueChar (q :: rest2)
              have hq : (q :: rest2).length = rest2.length + 1 := by simp
              simp only [Option.some.injEq, Prod.mk.injEq] at h
              rw [← h.2]
              simp at hle2 ⊢
              omega
            all_goals exact absurd h (by simp)
      · exact absurd h (by simp)
  · exact absurd h (by simp)

theorem notCloseAt_length {cs rest : List Char} {t : SelToken}
    (h : notCloseAt cs = some (t, rest)) : rest.length < cs.length := by
  rw [notCloseAt.eq_def] at h
  split at h
  · simp only [Option.some.injEq, Prod.mk.injEq] at h
    rw [← h.2]
    simp
  · exact absurd h (by simp)

theorem sepAt_length {cs rest : List Char} {t : SelToken}
    (h : sepAt cs = some (t, rest)) : rest.length < cs.length := by
  rw [sepAt.eq_def] at h
  split at h
  case _ rest' heq =>
    have h1 : (',' :: rest').length ≤ cs.length :=
      heq ▸ dropWhile_length_le spaceChar cs
    have hle2 := dropWhile_length_le spaceChar rest'
    simp only [Option.some.injEq, Prod.mk.injEq] at h
    rw [← h.2]
    simp at h1
    omega
  · exact absurd h (by simp)

theorem matchAt_length {cs rest : List Char} {t : SelToken}
    (h : matchAt cs = some (t, rest)) : rest.length < cs.length := by
  rw [matchAt] at h
  split at h
  case _ r heq =>
    cases h
    exact notOpenAt_length heq
  split at h
  case _ r heq =>
    cases h
    exact fragAt_length heq
  split at h
  case _ r heq =>
    cases h
    exact attrAt_length heq
  split at h
  case _ r heq =>
    cases h
    exact notCloseAt_length heq
  exact sepAt_length h

/-- The scan loop, with explicit fuel (one unit per position tried).  With
fuel at least the length of the input this is exactly the repeated `exec` of
`_SELECTOR_REGEXP` with the `g` flag, which advances past one character when
no alternative matches; every successful match consumes at least one
character (`matchAt_length`), so `tokenize` below never exhausts its fuel. -/
def tokenizeF : Nat → List Char → List SelToken
  | 0, _ => []
  | _, [] => []
  | fuel + 1, c :: cs' =>
    match matchAt (c :: cs') with
    | some (t, rest) => t :: tokenizeF fuel rest
    | none => tokenizeF fuel cs'

/-- The token stream of an input. -/
def tokenize (cs : List Char) : List SelToken :=
  tokenizeF cs.length cs

theorem tokenizeF_congr (f1 : Nat) : ∀ (f2 : Nat) (cs : List Char),
    cs.length ≤ f1 → cs.length ≤ f2 → tokenizeF f1 cs = tokenizeF f2 cs := by
  induction f1 with
  | zero =>
    intro f2 cs h1 _
    have : cs = [] := List.length_eq_zero.mp (Nat.le_zero.mp h1)
    subst this
    cases f2 <;> rfl
  | succ n ih =>
    intro f2 cs h1 h2
    match cs with
    | [] => cases f2 <;> rfl
    | c :: cs' =>
      match f2, h2 with
      | m + 1, h2 =>
        rw [tokenizeF, tokenizeF]
        cases hm : matchAt (c :: cs') with
        | some tr =>
          obtain ⟨t, rest⟩ := tr
          have hr := matchAt_length hm
          simp only [List.length_cons] at h1 h2 hr
          dsimp only
          rw [ih m rest (by omega) (by omega)]
        | none =>
          simp only [List.length_cons] at h1 h2
          dsimp only
          rw [ih m cs' (by omega) (by omega)]

theorem tokenize_nil : tokenize [] = [] := rfl

theorem tokenize_cons_some {c : Char} {cs rest : List Char} {t : SelToken}
    (h : matchAt (c :: cs) = some (t, rest)) :
    tokenize (c :: cs) = t :: tokenize rest := by
  have hr := matchAt_length h
  simp only [List.length_cons] at hr
  have h1 : tokenize (c :: cs) = tokenizeF (cs.length + 1) (c :: cs) := by
    rw [tokenize, List.length_cons]
  rw [h1, tokenizeF, h]
  dsimp only
  rw [tokenizeF_congr cs.length rest.length rest (by omega) (by omega)]
  rfl

theorem tokenize_cons_none {c : Char} {cs : List Char}
    (h : matchAt (c :: cs) = none) :
    tokenize (c :: cs) = tokenize cs := by
  rw [tokenize, tokenize]
  simp only [List.length_cons]
  rw [tokenizeF, h]

/-! ## `CssSelector`

The record built by the parser: `element` (`none` for JavaScript `null`),
`classNames`, the attribute name/value pairs (the source stores them as a
flat even-length array with `addAttribute` pushing two slots; here each push
is one pair), and the `notSelectors`. -/

inductive CssSelector where
  | mk (element : Option String) (classNames : List String)
       (attrs : List (String × String)) (notSelectors : List CssSelector)
deriving Repr

def CssSelector.element : CssSelector → Option String
  | .mk e _ _ _ => e

def CssSelector.classNames : CssSelector → List String
  | .mk _ c _ _ => c

def CssSelector.attrs : CssSelector → List (String × String)
  | .mk _ _ a _ => a

def CssSelector.notSelectors : CssSelector → List CssSelector
  | .mk _ _ _ n => n

/-- `new CssSelector()`. -/
def CssSelector.empty : CssSelector := .mk none [] [] []

/-- `setElement(element)`. -/
def CssSelector.setElement : CssSelector → String → CssSelector
  | .mk _ c a n, e => .mk (some e) c a n

/-- `addClassName(name)`: pushed lowercased. -/
def CssSelector.addClassName : CssSelector → String → CssSelector
  | .mk e c a n, name => .mk e (c ++ [jsLower name]) a n

/-- `addAttribute(name, value)`: `value && value.toLowerCase() || ''`, with
`none` for a missing (`undefined`) value. -/
def CssSelector.addAttribute : CssSelector → String → Option String → CssSelector
  | .mk e c a n, name, value => .mk e c (a ++ [(name, jsLower (value.getD ""))]) n

/-- Push a fresh sub-selector onto `notSelectors` (the `:not(` case). -/
def CssSelector.pushNot : CssSelector → CssSelector → CssSelector
  | .mk e c a n, sub => .mk e c a (n ++ [sub])

/-- Apply `f` to the last element of a list (the "current" selector while
inside `:not(`, which the source holds as a reference to the sub-selector it
just pushed). -/
def updateLast (f : CssSelector → CssSelector) : List CssSelector → List CssSelector
  | [] => []
  | [x] => [f x]
  | x :: y :: xs => x :: updateLast f (y :: xs)

/-- Apply `f` to the selector the source calls `current`: the enclosing
selector when outside `:not(`, the just-pushed sub-selector when inside. -/
def applyCurrent (inNot : Bool) (f : CssSelector → CssSelector)
    (top : CssSelector) : CssSelector :=
  if inNot then
    match top with
    | .mk e c a n => .mk e c a (updateLast f n)
  else f top

/-- `unescapeAttribute`, on character lists; `none` models the thrown
`Unescaped "$" is not supported` error.  A backslash sets the escaping flag
and is dropped; any other character is appended and clears the flag; an
unescaped `$` is the error. -/
def unescapeChars : List Char → Bool → Option (List Char)
  | [], _ => some []
  | c :: cs, escaping =>
    if c = '\\' then unescapeChars cs true
    else if c = '$' ∧ escaping = false then none
    else (unescapeChars cs false).map (fun r => c :: r)

/-- `escapeAttribute`: `attr.replace(/\\/g, '\\\\').replace(/\$/g, '\\$')`.
The first replacement introduces no `$` and the second no backslash, so the
two global replacements compose to this per-character map. -/
def escapeChar (c : Char) : List Char :=
  if c = '\\' then ['\\', '\\'] else if c = '$' then ['\\', '$'] else [c]

def escapeChars (l : List Char) : List Char :=
  (l.map escapeChar).flatten

/-! ## The parser -/

inductive ParseErr where
  | nestedNot : ParseErr
  | multipleInNot : ParseErr
  | unescapedDollar : ParseErr
deriving DecidableEq, Repr

/-- JavaScript truthiness of `cssSel.element` (falsy for `null` and `""`). -/
def elementFalsy : Option String → Bool
  | none => true
  | some s => s == ""

/-- The normalization inside `_addResult`: a selector with only negations
gets the explicit universal element `*` when it is sealed. -/
def sealSelector (s : CssSelector) : CssSelector :=
  if (!s.notSelectors.isEmpty && elementFalsy s.element &&
      s.classNames.isEmpty && s.attrs.isEmpty) = true then
    s.setElement "*"
  else s

/-- `_addResult(results, cssSel)`. -/
def addResult (res : List CssSelector) (s : CssSelector) : List CssSelector :=
  res ++ [sealSelector s]

structure ParseState where
  results : List CssSelector
  top : CssSelector
  inNot : Bool
deriving Repr

/-- One iteration of the `while (match = _SELECTOR_REGEXP.exec(selector))`
loop of `CssSelector.parse`, for one token. -/
def applyTok (st : ParseState) (t : SelToken) : Except ParseErr ParseState :=
  match t with
  | .notOpen =>
    if st.inNot then .error .nestedNot
    else .ok ⟨st.results, st.top.pushNot CssSelector.empty, true⟩
  | .fragment mark run =>
    let txt := String.mk run
    let f : CssSelector → CssSelector :=
      if mark = some '#' then fun s => s.addAttribute "id" (some txt)
      else if mark = some '.' then fun s => s.addClassName txt
      else fun s => s.setElement txt
    .ok ⟨st.results, applyCurrent st.inNot f st.top, st.inNot⟩
  | .attrTok rawName value =>
    match unescapeChars rawName false with
    | none => .error .unescapedDollar
    | some n =>
      .ok ⟨st.results,
        applyCurrent st.inNot
          (fun s => s.addAttribute (String.mk n) (value.map String.mk)) st.top,
        st.inNot⟩
  | .notClose => .ok ⟨st.results, st.top, false⟩
  | .separator =>
    if st.inNot then .error .multipleInNot
    else .ok ⟨addResult st.results st.top, CssSelector.empty, false⟩

def initState : ParseState := ⟨[], CssSelector.empty, false⟩

/-- The loop of `CssSelector.parse` over a token stream, followed by the
final `_addResult` on the last selector. -/
def parseTokens (ts : List SelToken) : Except ParseErr (List CssSelector) :=
  match ts.foldlM applyTok initState with
  | .error e => .error e
  | .ok st => .ok (addResult st.results st.top)

/-- `CssSelector.parse`. -/
def parse (s : String) : Except ParseErr (List CssSelector) :=
  parseTokens (tokenize s.data)

/-! ## Serialization (`toString`) -/

/-- `CssSelector.prototype.toString`: element (or nothing), `.class` parts,
`[name]`/`[name=value]` parts with the name re-escaped, then each negation
group as `:not(...)`. -/
def serializeSel : CssSelector → List Char
  | .mk e cls attrs nots =>
    (e.getD "").data ++
    (cls.map (fun k => '.' :: k.data)).flatten ++
    (attrs.map (fun p =>
      '[' :: (escapeChars p.1.data ++
        (if p.2 = "" then [] else '=' :: p.2.data) ++ [']']))).flatten ++
    (nots.attach.map (fun x =>
      ':' :: 'n' :: 'o' :: 't' :: '(' :: (serializeSel x.1 ++ [')']))).flatten
termination_by s => sizeOf s
decreasing_by
  have hm := List.sizeOf_lt_of_mem x.2
  simp only [CssSelector.mk.sizeOf_spec]
  omega

/-- The serialization of a parse result, joined as a comma-separated list. -/
def serializeList (l : List CssSelector) : List Char :=
  List.intercalate [','] (l.map serializeSel)

/-! ## The matcher

`SelectorMatcher` with its six maps and its `_listContexts` array.  JS `Map`s
are association lists (`alGet` is `get`, `alSet` is `set`; the source never
iterates a map).  A `SelectorListContext` object is identified by a numeric
id; its mutable `alreadyMatched` flag lives in an explicit `GroupFlags`
state.  A fresh id is the number of list contexts already owned by the
matcher the batch is added to (ids of a top-level matcher built by repeated
`addSelectables` calls are therefore `0, 1, 2, ...` in creation order). -/

def GroupFlags : Type := Nat → Bool

def setFlag (g : Nat) (b : Bool) (gs : GroupFlags) : GroupFlags :=
  fun n => if n = g then b else gs n

/-- The loop `for (...) this._listContexts[i].alreadyMatched = false`. -/
def resetFlags (ids : List Nat) (gs : GroupFlags) : GroupFlags :=
  ids.foldl (fun acc i => setFlag i false acc) gs

/-- All `alreadyMatched` flags false: the state of freshly created
`SelectorListContext` objects. -/
def noFlags : GroupFlags := fun _ => false

/-- `SelectorContext` (selector, callback context, optional shared list
context).  The source also stores `selector.notSelectors` in a separate
field; it is recovered here from `selector`. -/
structure SelectorContext where
  selector : CssSelector
  cbContext : Option Nat
  listContext : Option Nat
deriving Repr

inductive SelectorMatcher where
  | mk (elementMap : List (String × List SelectorContext))
       (elementPartialMap : List (String × SelectorMatcher))
       (classMap : List (String × List SelectorContext))
       (classPartialMap : List (String × SelectorMatcher))
       (attrValueMap : List (String × List (String × List SelectorContext)))
       (attrValuePartialMap : List (String × List (String × SelectorMatcher)))
       (listContexts : List Nat)

def SelectorMatcher.elementMap : SelectorMatcher → List (String × List SelectorContext)
  | .mk x _ _ _ _ _ _ => x

def SelectorMatcher.elementPartialMap : SelectorMatcher → List (String × SelectorMatcher)
  | .mk _ x _ _ _ _ _ => x

def SelectorMatcher.classMap : SelectorMatcher → List (String × List SelectorContext)
  | .mk _ _ x _ _ _ _ => x

def SelectorMatcher.classPartialMap : SelectorMatcher → List (String × SelectorMatcher)
  | .mk _ _ _ x _ _ _ => x

def SelectorMatcher.attrValueMap :
    SelectorMatcher → List (String × List (String × List SelectorContext))
  | .mk _ _ _ _ x _ _ => x

def SelectorMatcher.attrValuePartialMap :
    SelectorMatcher → List (String × List (String × SelectorMatcher))
  | .mk _ _ _ _ _ x _ => x

def SelectorMatcher.listContexts : SelectorMatcher → List Nat
  | .mk _ _ _ _ _ _ x => x

/-- `new SelectorMatcher()`. -/
def SelectorMatcher.emptyM : SelectorMatcher := .mk [] [] [] [] [] [] []

/-- `map.get(key)`. -/
def alGet {α : Type} (m : List (String × α)) (k : String) : Option α :=
  (m.find? (fun p => p.1 == k)).map (fun p => p.2)

/-- `map.set(key, v)`. -/
def alSet {α : Type} (m : List (String × α)) (k : String) (v : α) : List (String × α) :=
  match m with
  | [] => [(k, v)]
  | p :: rest => if p.1 == k then (k, v) :: rest else p :: alSet rest k v

/-- The sequence of constraints of one selector in the fixed insertion order
element → classes → attribute pairs of `_addSelectable`; the last entry of
the sequence is the terminal one, every earlier entry is partial (this is
exactly the source's three `isTerminal` conditions). -/
inductive SelConstraint where
  | elemC (s : String)
  | classC (s : String)
  | attrC (n v : String)
deriving DecidableEq, Repr

def constraintsOf (sel : CssSelector) : List SelConstraint :=
  (match sel.element with
   | some e => if e = "" then [] else [SelConstraint.elemC e]
   | none => []) ++
  sel.classNames.map SelConstraint.classC ++
  sel.attrs.map (fun p => SelConstraint.attrC p.1 p.2)

/-- `_addTerminal` on the map of the axis the constraint belongs to. -/
def addTerminalC (m : SelectorMatcher) (c : SelConstraint)
    (sc : SelectorContext) : SelectorMatcher :=
  match m, c with
  | .mk em ep cm cp am avp lcs, .elemC e =>
    .mk (alSet em e ((alGet em e).getD [] ++ [sc])) ep cm cp am avp lcs
  | .mk em ep cm cp am avp lcs, .classC s =>
    .mk em ep (alSet cm s ((alGet cm s).getD [] ++ [sc])) cp am avp lcs
  | .mk em ep cm cp am avp lcs, .attrC n v =>
    let vm := (alGet am n).getD []
    .mk em ep cm cp (alSet am n (alSet vm v ((alGet vm v).getD [] ++ [sc]))) avp lcs

/-- The loop body of `_addSelectable`: every constraint before the last goes
through `_addPartial` (creating the nested matcher when absent), the last
through `_addTerminal`.  A selector with no constraints at all is inserted
nowhere. -/
def insertSelectable : SelectorMatcher → List SelConstraint → SelectorContext → SelectorMatcher
  | m, [], _ => m
  | m, [c], sc => addTerminalC m c sc
  | .mk em ep cm cp am avp lcs, .elemC e :: c2 :: cs, sc =>
    let nested := (alGet ep e).getD SelectorMatcher.emptyM
    .mk em (alSet ep e (insertSelectable nested (c2 :: cs) sc)) cm cp am avp lcs
  | .mk em ep cm cp am avp lcs, .classC s :: c2 :: cs, sc =>
    let nested := (alGet cp s).getD SelectorMatcher.emptyM
    .mk em ep cm (alSet cp s (insertSelectable nested (c2 :: cs) sc)) am avp lcs
  | .mk em ep cm cp am avp lcs, .attrC n v :: c2 :: cs, sc =>
    let vm := (alGet avp n).getD []
    let nested := (alGet vm v).getD SelectorMatcher.emptyM
    .mk em ep cm cp am (alSet avp n (alSet vm v (insertSelectable nested (c2 :: cs) sc))) lcs

/-- `_addSelectable(cssSelector, callbackCtxt, listContext)`. -/
def addSelectable (m : SelectorMatcher) (sel : CssSelector)
    (cbCtx : Option Nat) (lc : Option Nat) : SelectorMatcher :=
  insertSelectable m (constraintsOf sel) ⟨sel, cbCtx, lc⟩

def SelectorMatcher.pushListContext : SelectorMatcher → Nat → SelectorMatcher
  | .mk em ep cm cp am avp lcs, g => .mk em ep cm cp am avp (lcs ++ [g])

/-- `addSelectables(cssSelectors, callbackCtxt)`. -/
def addSelectables (m : SelectorMatcher) (sels : List CssSelector)
    (cbCtx : Option Nat) : SelectorMatcher :=
  if sels.length > 1 then
    let gid := m.listContexts.length
    sels.foldl (fun acc s => addSelectable acc s cbCtx (some gid))
      (m.pushListContext gid)
  else
    sels.foldl (fun acc s => addSelectable acc s cbCtx none) m

/-- `SelectorMatcher.createNotMatcher(notSelectors)`. -/
def createNotMatcher (ns : List CssSelector) : SelectorMatcher :=
  addSelectables SelectorMatcher.emptyM ns none

/-! ## Matching

`matchF fuel m q cb gs` returns the boolean result, the ordered list of
callback invocations (one `SelectorContext` per invocation of
`matchedCallback`; `cb = false` models passing `null`), and the updated
`alreadyMatched` state.  `finalizeF` and the terminal/partial walks are
parameterized by the recursive occurrences of `match` so that the whole
recursion is driven by the fuel of `matchF` alone. -/

/-- `SelectorContext.prototype.finalize`, with `notMatch ns` standing for
`!SelectorMatcher.createNotMatcher(ns).match(cssSelector, null)`'s inner
match result (a pure value: that inner match starts from the fresh flags of
the ephemeral matcher and cannot call any callback). -/
def finalizeF (notMatch : List CssSelector → Bool) (cb : Bool)
    (sc : SelectorContext) (gs : GroupFlags) :
    Bool × List SelectorContext × GroupFlags :=
  let flagged : Bool :=
    match sc.listContext with
    | none => false
    | some g => gs g
  let result : Bool :=
    if sc.selector.notSelectors.isEmpty = false ∧ flagged = false then
      !(notMatch sc.selector.notSelectors)
    else true
  if result = true ∧ cb = true ∧ flagged = false then
    let gs' :=
      match sc.listContext with
      | none => gs
      | some g => setFlag g true gs
    (result, [sc], gs')
  else (result, [], gs)

/-- `_matchTerminal(map, name, ...)`: entries under the exact key, then the
entries under the wildcard key `*`, each finalized in order. -/
def matchTerminalG
    (final : SelectorContext → GroupFlags → Bool × List SelectorContext × GroupFlags)
    (mapO : Option (List (String × List SelectorContext))) (nameO : Option String)
    (gs : GroupFlags) : Bool × List SelectorContext × GroupFlags :=
  match mapO, nameO with
  | none, _ => (false, [], gs)
  | some _, none => (false, [], gs)
  | some map, some name =>
    let selectables := (alGet map name).getD [] ++ (alGet map "*").getD []
    selectables.foldl (fun acc sc =>
      let r := final sc acc.2.2
      (r.1 || acc.1, acc.2.1 ++ r.2.1, r.2.2)) (false, [], gs)

/-- `_matchPartial(map, name, ...)`: recurse with the full query into the
nested matcher stored under the key, if any. -/
def matchPartialG
    (recMatch : SelectorMatcher → GroupFlags → Bool × List SelectorContext × GroupFlags)
    (mapO : Option (List (String × SelectorMatcher))) (nameO : Option String)
    (gs : GroupFlags) : Bool × List SelectorContext × GroupFlags :=
  match mapO, nameO with
  | none, _ => (false, [], gs)
  | some _, none => (false, [], gs)
  | some map, some name =>
    match alGet map name with
    | none => (false, [], gs)
    | some nested => recMatch nested gs

/-- The body of the class-name loop of `match` for one query class name:
a terminal walk on `_classMap` and a partial walk on `_classPartialMap`. -/
def classStep
    (final : SelectorContext → GroupFlags → Bool × List SelectorContext × GroupFlags)
    (recMatch : SelectorMatcher → GroupFlags → Bool × List SelectorContext × GroupFlags)
    (cm : List (String × List SelectorContext)) (cp : List (String × SelectorMatcher))
    (acc : Bool × List SelectorContext × GroupFlags) (cn : String) :
    Bool × List SelectorContext × GroupFlags :=
  let t1 := matchTerminalG final (some cm) (some cn) acc.2.2
  let t2 := matchPartialG recMatch (some cp) (some cn) t1.2.2
  (acc.1 || t1.1 || t2.1, acc.2.1 ++ t1.2.1 ++ t2.2.1, t2.2.2)

/-- The body of the attribute loop of `match` for one query (name, value)
pair: when the value is nonempty, terminal and partial walks keyed by the
empty value first, then the walks keyed by the value itself. -/
def attrStep
    (final : SelectorContext → GroupFlags → Bool × List SelectorContext × GroupFlags)
    (recMatch : SelectorMatcher → GroupFlags → Bool × List SelectorContext × GroupFlags)
    (am : List (String × List (String × List SelectorContext)))
    (avp : List (String × List (String × SelectorMatcher)))
    (acc : Bool × List SelectorContext × GroupFlags) (p : String × String) :
    Bool × List SelectorContext × GroupFlags :=
  let tvm := alGet am p.1
  let u1 := if p.2 ≠ "" then matchTerminalG final tvm (some "") acc.2.2
            else (false, [], acc.2.2)
  let u2 := matchTerminalG final tvm (some p.2) u1.2.2
  let pvm := alGet avp p.1
  let u3 := if p.2 ≠ "" then matchPartialG recMatch pvm (some "") u2.2.2
            else (false, [], u2.2.2)
  let u4 := matchPartialG recMatch pvm (some p.2) u3.2.2
  (acc.1 || u1.1 || u2.1 || u3.1 || u4.1,
   acc.2.1 ++ u1.2.1 ++ u2.2.1 ++ u3.2.1 ++ u4.2.1, u4.2.2)

/-- `SelectorMatcher.prototype.match`, with fuel. -/
def matchF : Nat → SelectorMatcher → CssSelector → Bool → GroupFlags →
    Bool × List SelectorContext × GroupFlags
  | 0, _, _, _, gs => (false, [], gs)
  | fuel + 1, m, q, cb, gs =>
    let notMatch : List CssSelector → Bool := fun ns =>
      (matchF fuel (createNotMatcher ns) q false noFlags).1
    let recMatch : SelectorMatcher → GroupFlags →
        Bool × List SelectorContext × GroupFlags := fun n g => matchF fuel n q cb g
    let final := finalizeF notMatch cb
    let gs0 := resetFlags m.listContexts gs
    let s1 := matchTerminalG final (some m.elementMap) q.element gs0
    let s2 := matchPartialG recMatch (some m.elementPartialMap) q.element s1.2.2
    let s3 := q.classNames.foldl (classStep final recMatch m.classMap m.classPartialMap)
      (s1.1 || s2.1, s1.2.1 ++ s2.2.1, s2.2.2)
    q.attrs.foldl (attrStep final recMatch m.attrValueMap m.attrValuePartialMap) s3

/-- `match` with a fixed generous fuel: one unit of fuel is consumed per
nesting level (partial-map descent or `:not` evaluation), and every matcher
this development evaluates `run` on nests fewer than three levels deep.  The
universally quantified theorems below are stated for every fuel, so they
apply to `run` without any adequacy argument. -/
def SelectorMatcher.run (m : SelectorMatcher) (q : CssSelector) (cb : Bool)
    (gs : GroupFlags) : Bool × List SelectorContext × GroupFlags :=
  matchF 1000 m q cb gs

/-- Unfolding equation of `serializeSel` with the `attach` scaffolding of the
termination argument removed. -/
theorem serializeSel_eq (e : Option String) (cls : List String)
    (attrs : List (String × String)) (nots : List CssSelector) :
    serializeSel (.mk e cls attrs nots) =
      (e.getD "").data ++
      (cls.map (fun k => '.' :: k.data)).flatten ++
      (attrs.map (fun p =>
        '[' :: (escapeChars p.1.data ++
          (if p.2 = "" then [] else '=' :: p.2.data) ++ [']']))).flatten ++
      (nots.map (fun s =>
        ':' :: 'n' :: 'o' :: 't' :: '(' :: (serializeSel s ++ [')']))).flatten := by
  rw [serializeSel]
  congr 1
  rw [List.map_attach]
  simp

/-! ## Parser facts -/

/-- Generic invariant preservation along `foldlM` over `Except`. -/
theorem foldlM_except_inv {σ α ε : Type} (f : σ → α → Except ε σ) (P : σ → Prop)
    (hstep : ∀ s a s', f s a = .ok s' → P s → P s') :
    ∀ (ts : List α) (s s' : σ), ts.foldlM f s = .ok s' → P s → P s' := by
  intro ts
  induction ts with
  | nil =>
    intro s s' h hp
    exact Except.ok.inj h ▸ hp
  | cons a ts ih =>
    intro s s' h hp
    rw [List.foldlM_cons] at h
    cases hf : f s a with
    | error e =>
      rw [hf] at h
      exact Except.noConfusion h
    | ok s1 =>
      rw [hf] at h
      exact ih s1 s' h (hstep s a s1 hf hp)

/-- Every selector in a parse result was pushed through `addResult`, i.e. is
`sealSelector` of something. -/
theorem parse_mem_sealed {s : String} {l : List CssSelector} {sel : CssSelector}
    (h : parse s = .ok l) (hm : sel ∈ l) : ∃ x, sel = sealSelector x := by
  rw [parse, parseTokens] at h
  split at h
  · exact absurd h (by simp)
  case _ st hfold =>
    simp only [Except.ok.injEq] at h
    have hres : ∀ y ∈ st.results, ∃ x, y = sealSelector x := by
      refine foldlM_except_inv applyTok (fun st => ∀ y ∈ st.results, ∃ x, y = sealSelector x)
        ?_ (tokenize s.data) initState st hfold ?_
      · intro st1 t st2 hstep hp
        cases t with
        | notOpen =>
          rw [applyTok] at hstep
          split at hstep
          · exact absurd hstep (by simp)
          · simp only [Except.ok.injEq] at hstep
            rw [← hstep]
            exact hp
        | fragment mark run =>
          rw [applyTok] at hstep
          simp only [Except.ok.injEq] at hstep
          rw [← hstep]
          exact hp
        | attrTok raw v =>
          rw [applyTok] at hstep
          split at hstep
          · exact absurd hstep (by simp)
          · simp only [Except.ok.injEq] at hstep
            rw [← hstep]
            exact hp
        | notClose =>
          rw [applyTok] at hstep
          simp only [Except.ok.injEq] at hstep
          rw [← hstep]
          exact hp
        | separator =>
          rw [applyTok] at hstep
          split at hstep
          · exact absurd hstep (by simp)
          · simp only [Except.ok.injEq] at hstep
            rw [← hstep]
            intro y hy
            rw [addResult] at hy
            rcases List.mem_append.mp hy with hy | hy
            · exact hp y hy
            · simp at hy
              exact ⟨st1.top, hy⟩
      · intro y hy
        simp [initState] at hy
    rw [← h] at hm
    rw [addResult] at hm
    rcases List.mem_append.mp hm with hm | hm
    · exact hres sel hm
    · simp at hm
      exact ⟨st.top, hm⟩

theorem sealSelector_classNames (x : CssSelector) :
    (sealSelector x).classNames = x.classNames := by
  rw [sealSelector]
  split
  · cases x; rfl
  · rfl

theorem sealSelector_attrs (x : CssSelector) :
    (sealSelector x).attrs = x.attrs := by
  rw [sealSelector]
  split
  · cases x; rfl
  · rfl

theorem sealSelector_nots (x : CssSelector) :
    (sealSelector x).notSelectors = x.notSelectors := by
  rw [sealSelector]
  split
  · cases x; rfl
  · rfl

/-- A sealed selector that has no class or attribute constraint but a
nonempty negation list always carries an element (the normalization put `*`
there if nothing was set). -/
theorem sealSelector_element_ne_none (x : CssSelector)
    (hc : (sealSelector x).classNames = []) (ha : (sealSelector x).attrs = [])
    (hn : (sealSelector x).notSelectors ≠ []) :
    (sealSelector x).element ≠ none := by
  rw [sealSelector_classNames] at hc
  rw [sealSelector_attrs] at ha
  rw [sealSelector_nots] at hn
  rw [sealSelector]
  split
  · cases x with
    | mk e c a n => simp [CssSelector.setElement, CssSelector.element]
  case _ hcond =>
    simp only [Bool.and_eq_true, Bool.not_eq_true', List.isEmpty_iff] at hcond
    cases he : x.element with
    | none =>
      exfalso
      apply hcond
      refine ⟨⟨⟨?_, ?_⟩, hc⟩, ha⟩
      · simpa [List.isEmpty_iff] using hn
      · rw [he]; rfl
    | some t => simp [he]

/-! ## Claim C10 -/

/-- C10: on an input with no recognizable token (for example the empty
string) `parse` returns exactly one selector record with `element` unset and
all lists empty; and every successful `parse` returns at least one record. -/
theorem parse_token_free_and_nonempty (s : String) :
    (tokenize s.data = [] → parse s = .ok [CssSelector.mk none [] [] []]) ∧
    ∀ l, parse s = .ok l → l ≠ [] := by
  constructor
  · intro h
    rw [parse, h]
    rfl
  · intro l h
    rw [parse, parseTokens] at h
    split at h
    · exact absurd h (by simp)
    · simp only [Except.ok.injEq] at h
      rw [← h, addResult]
      simp

theorem parse_token_free_and_nonempty_witness :
    parse "" = .ok [CssSelector.mk none [] [] []] ∧ ¬([] : List CssSelector) = [CssSelector.mk none [] [] []] ∧
    (parse "a" = .ok [CssSelector.mk (some "a") [] [] []] → [CssSelector.mk (some "a") [] [] []] ≠ []) := by
  refine ⟨(parse_token_free_and_nonempty "").1 rfl, by simp, ?_⟩
  intro h
  exact (parse_token_free_and_nonempty "a").2 _ h

/-! ## Claim C7 -/

/-- C7: a selector whose `element`, `classNames` and `attributes` are all
empty but whose `notSelectors` is nonempty gets `element = "*"` when it is
sealed into the result by `_addResult`; consequently no parse output ever has
an unset element together with empty classes/attributes and a nonempty
negation list, and `parse ":not(.x)"` is the universal selector restricted by
one negation group on class `x`. -/
theorem universal_star_normalization :
    (∀ (res : List CssSelector) (s : CssSelector),
      s.element = none → s.classNames = [] → s.attrs = [] → s.notSelectors ≠ [] →
      addResult res s = res ++ [CssSelector.mk (some "*") [] [] s.notSelectors]) ∧
    parse ":not(.x)" =
      .ok [CssSelector.mk (some "*") [] [] [CssSelector.mk none ["x"] [] []]] ∧
    (∀ (s : String) (l : List CssSelector) (sel : CssSelector),
      parse s = .ok l → sel ∈ l → sel.classNames = [] → sel.attrs = [] →
      sel.notSelectors ≠ [] → sel.element ≠ none) := by
  refine ⟨?_, rfl, ?_⟩
  · intro res s he hc ha hn
    cases s with
    | mk e c a n =>
      simp only [CssSelector.element] at he
      simp only [CssSelector.classNames] at hc
      simp only [CssSelector.attrs] at ha
      simp only [CssSelector.notSelectors] at hn ⊢
      subst he
      subst hc
      subst ha
      rw [addResult, sealSelector]
      rw [if_pos (by
        simp only [CssSelector.notSelectors, CssSelector.element, CssSelector.classNames,
          CssSelector.attrs, elementFalsy]
        simp [List.isEmpty_iff, hn])]
      rfl
  · intro s l sel hp hm hc ha hn
    obtain ⟨x, hx⟩ := parse_mem_sealed hp hm
    rw [hx] at hc ha hn ⊢
    exact sealSelector_element_ne_none x hc ha hn

theorem universal_star_normalization_witness :
    addResult [] (CssSelector.mk none [] [] [CssSelector.mk none ["x"] [] []]) =
      [CssSelector.mk (some "*") [] [] [CssSelector.mk none ["x"] [] []]] ∧
    (CssSelector.mk (some "*") [] [] [CssSelector.mk none ["x"] [] []]).element ≠ none := by
  constructor
  · exact universal_star_normalization.1 []
      (CssSelector.mk none [] [] [CssSelector.mk none ["x"] [] []])
      rfl rfl rfl (by simp [CssSelector.notSelectors])
  · exact universal_star_normalization.2.2 ":not(.x)"
      [CssSelector.mk (some "*") [] [] [CssSelector.mk none ["x"] [] []]]
      (CssSelector.mk (some "*") [] [] [CssSelector.mk none ["x"] [] []])
      universal_star_normalization.2.1 (by simp) rfl rfl
      (by simp [CssSelector.notSelectors])

/-! ## Claim C5 -/

/-- The condition under which `unescapeAttribute` throws: a `$` whose
escaping flag is not set, i.e. an unescaped `$` in the raw attribute name. -/
def hasUnescapedDollar : List Char → Bool → Bool
  | [], _ => false
  | c :: cs, escaping =>
    if c = '\\' then hasUnescapedDollar cs true
    else if c = '$' ∧ escaping = false then true
    else hasUnescapedDollar cs false

/-- The first parse error a token stream produces, tracking only the
`inNot` flag: a `:not(` while one is open, a separator while one is open, or
an attribute token whose raw name has an unescaped `$`. -/
def hazardScan : List SelToken → Bool → Option ParseErr
  | [], _ => none
  | t :: ts, inNot =>
    match t with
    | .notOpen => if inNot then some .nestedNot else hazardScan ts true
    | .fragment _ _ => hazardScan ts inNot
    | .attrTok raw _ =>
      if hasUnescapedDollar raw false then some .unescapedDollar
      else hazardScan ts inNot
    | .notClose => hazardScan ts false
    | .separator => if inNot then some .multipleInNot else hazardScan ts false

theorem unescapeChars_none_iff (l : List Char) :
    ∀ esc : Bool, unescapeChars l esc = none ↔ hasUnescapedDollar l esc = true := by
  induction l with
  | nil => intro esc; simp [unescapeChars, hasUnescapedDollar]
  | cons c cs ih =>
    intro esc
    rw [unescapeChars, hasUnescapedDollar]
    split
    · exact ih true
    · split
      · simp
      · constructor
        · intro h
          apply (ih false).mp
          cases hcs : unescapeChars cs false with
          | none => rfl
          | some r =>
            rw [hcs] at h
            exact Option.noConfusion h
        · intro h
          rw [(ih false).mpr h]
          rfl

theorem foldlM_applyTok_error (ts : List SelToken) :
    ∀ (st : ParseState) (e : ParseErr),
      ts.foldlM applyTok st = .error e ↔ hazardScan ts st.inNot = some e := by
  induction ts with
  | nil =>
    intro st e
    rw [hazardScan]
    constructor
    · intro h; exact Except.noConfusion h
    · intro h; exact Option.noConfusion h
  | cons t ts ih =>
    intro st e
    rw [List.foldlM_cons]
    cases t with
    | notOpen =>
      rw [applyTok, hazardScan]
      by_cases hin : st.inNot
      · rw [if_pos hin, if_pos hin]
        constructor
        · intro h
          have h' : (Except.error ParseErr.nestedNot : Except ParseErr ParseState) =
              .error e := h
          cases Except.error.inj h'
          rfl
        · intro h
          cases Option.some.inj h
          rfl
      · rw [if_neg hin, if_neg hin]
        exact ih _ e
    | fragment mark run =>
      rw [applyTok, hazardScan]
      exact ih _ e
    | attrTok raw v =>
      rw [applyTok, hazardScan]
      cases hu : unescapeChars raw false with
      | none =>
        rw [if_pos ((unescapeChars_none_iff raw false).mp hu)]
        constructor
        · intro h
          have h' : (Except.error ParseErr.unescapedDollar : Except ParseErr ParseState) =
              .error e := h
          cases Except.error.inj h'
          rfl
        · intro h
          cases Option.some.inj h
          rfl
      | some n =>
        rw [if_neg (by
          intro hcontra
          rw [(unescapeChars_none_iff raw false).mpr hcontra] at hu
          exact Option.noConfusion hu)]
        exact ih _ e
    | notClose =>
      rw [applyTok, hazardScan]
      exact ih _ e
    | separator =>
      rw [applyTok, hazardScan]
      by_cases hin : st.inNot
      · rw [if_pos hin, if_pos hin]
        constructor
        · intro h
          have h' : (Except.error ParseErr.multipleInNot : Except ParseErr ParseState) =
              .error e := h
          cases Except.error.inj h'
          rfl
        · intro h
          cases Option.some.inj h
          rfl
      · rw [if_neg hin, if_neg hin]
        exact ih _ e

/-- C5: `parse` raises an error exactly when the token stream contains a
`:not(` inside an open `:not(` group, a separator inside an open `:not(`
group, or an attribute token whose name has an unescaped `$` (first such
hazard wins, `hazardScan`); in particular the two negation examples fail
with the stated errors, and the error kind determines the condition. -/
theorem parse_error_characterization :
    (∀ (s : String) (e : ParseErr),
      parse s = .error e ↔ hazardScan (tokenize s.data) false = some e) ∧
    parse "a:not(b:not(c))" = .error .nestedNot ∧
    parse "a:not(b, c)" = .error .multipleInNot ∧
    parse "[na$me]" = .error .unescapedDollar := by
  refine ⟨?_, rfl, rfl, rfl⟩
  intro s e
  rw [parse, parseTokens]
  have hin : (initState).inNot = false := rfl
  constructor
  · intro h
    split at h
    case _ e' heq =>
      rw [Except.error.inj h] at heq
      exact (foldlM_applyTok_error (tokenize s.data) initState e).mp heq
    case _ => exact Except.noConfusion h
  · intro h
    have := (foldlM_applyTok_error (tokenize s.data) initState e).mpr h
    rw [this]

theorem parse_error_characterization_witness :
    hazardScan (tokenize "a:not(b:not(c))".data) false = some .nestedNot ∧
    parse ".ok" = .ok [CssSelector.mk none ["ok"] [] []] := by
  refine ⟨(parse_error_characterization.1 "a:not(b:not(c))" .nestedNot).mp
    parse_error_characterization.2.1, rfl⟩

/-! ## Claim C4 (the code silently skips a zero-constraint selector) -/

theorem foldl_fixed {α β : Type} (f : α → β → α) (a : α) (h : ∀ b, f a b = a) :
    ∀ l : List β, l.foldl f a = a := by
  intro l
  induction l with
  | nil => rfl
  | cons x xs ih => rw [List.foldl_cons, h x]; exact ih

theorem foldl_classStep_empty
    (F : SelectorContext → GroupFlags → Bool × List SelectorContext × GroupFlags)
    (R : SelectorMatcher → GroupFlags → Bool × List SelectorContext × GroupFlags)
    (gs : GroupFlags) (cls : List String) :
    cls.foldl (classStep F R [] []) (false, [], gs) = (false, [], gs) :=
  foldl_fixed _ _ (fun _ => rfl) cls

theorem foldl_attrStep_empty
    (F : SelectorContext → GroupFlags → Bool × List SelectorContext × GroupFlags)
    (R : SelectorMatcher → GroupFlags → Bool × List SelectorContext × GroupFlags)
    (gs : GroupFlags) (attrs : List (String × String)) :
    attrs.foldl (attrStep F R [] []) (false, [], gs) = (false, [], gs) := by
  refine foldl_fixed _ _ (fun p => ?_) attrs
  by_cases hp : p.2 = "" <;> simp [attrStep, hp, matchTerminalG, matchPartialG, alGet]

/-- The empty matcher matches nothing, touches no flag and calls nothing,
whatever the query, the callback and the fuel. -/
theorem matchF_emptyM (fuel : Nat) (q : CssSelector) (cb : Bool) (gs : GroupFlags) :
    matchF fuel SelectorMatcher.emptyM q cb gs = (false, [], gs) := by
  cases fuel with
  | zero => rfl
  | succ n =>
    cases q with
    | mk e cls attrs nots =>
      cases e with
      | none =>
        exact Eq.trans
          (congrArg (fun a => attrs.foldl (attrStep _ _ [] []) a)
            (foldl_classStep_empty _ _ gs cls))
          (foldl_attrStep_empty _ _ gs attrs)
      | some el =>
        exact Eq.trans
          (congrArg (fun a => attrs.foldl (attrStep _ _ [] []) a)
            (foldl_classStep_empty _ _ gs cls))
          (foldl_attrStep_empty _ _ gs attrs)

/-- The matcher obtained by registering (in one `addSelectables` batch) the
single selector with no constraints at all — the parse of the empty
string. -/
def emptySelMatcher : SelectorMatcher :=
  addSelectables SelectorMatcher.emptyM [CssSelector.mk none [] [] []] (some 1)

/-- C4 counterexample: registering the zero-constraint selector and querying
with `div.a` returns `false` and invokes no callback, contradicting the
claim that such a registration matches every query. -/
theorem zero_constraint_registration_cex :
    (emptySelMatcher.run (CssSelector.mk (some "div") ["a"] [] []) true noFlags).1 = false ∧
    (emptySelMatcher.run (CssSelector.mk (some "div") ["a"] [] []) true noFlags).2.1 = [] :=
  ⟨rfl, rfl⟩

/-- C4 amended: a selector with zero constraints is inserted on no axis by
`_addSelectable`, so registering it leaves the matcher empty: `match` then
returns `false` and never invokes the callback, for every query. -/
theorem zero_constraint_registration_skipped (fuel : Nat) (q : CssSelector)
    (cb : Bool) (gs : GroupFlags) :
    addSelectable SelectorMatcher.emptyM (CssSelector.mk none [] [] []) (some 1) none =
      SelectorMatcher.emptyM ∧
    matchF fuel emptySelMatcher q cb gs = (false, [], gs) := by
  refine ⟨rfl, ?_⟩
  have : emptySelMatcher = SelectorMatcher.emptyM := rfl
  rw [this]
  exact matchF_emptyM fuel q cb gs

/-! ## Claim C2 -/

/-- A fold whose step keeps a true boolean keeps it to the end. -/
theorem foldl_true {β : Type}
    (f : (Bool × List SelectorContext × GroupFlags) → β →
      (Bool × List SelectorContext × GroupFlags))
    (hmono : ∀ acc b, acc.1 = true → (f acc b).1 = true) :
    ∀ (l : List β) (acc : Bool × List SelectorContext × GroupFlags),
      acc.1 = true → (l.foldl f acc).1 = true := by
  intro l
  induction l with
  | nil => intro acc h; exact h
  | cons x xs ih =>
    intro acc h
    rw [List.foldl_cons]
    exact ih _ (hmono acc x h)

theorem classStep_mono
    (F : SelectorContext → GroupFlags → Bool × List SelectorContext × GroupFlags)
    (R : SelectorMatcher → GroupFlags → Bool × List SelectorContext × GroupFlags)
    (cm : List (String × List SelectorContext)) (cp : List (String × SelectorMatcher))
    (acc : Bool × List SelectorContext × GroupFlags) (cn : String)
    (h : acc.1 = true) : (classStep F R cm cp acc cn).1 = true := by
  simp [classStep, h]

theorem attrStep_mono
    (F : SelectorContext → GroupFlags → Bool × List SelectorContext × GroupFlags)
    (R : SelectorMatcher → GroupFlags → Bool × List SelectorContext × GroupFlags)
    (am : List (String × List (String × List SelectorContext)))
    (avp : List (String × List (String × SelectorMatcher)))
    (acc : Bool × List SelectorContext × GroupFlags) (p : String × String)
    (h : acc.1 = true) : (attrStep F R am avp acc p).1 = true := by
  simp [attrStep, h]

/-- A fold of `classStep` over a list containing a key whose step always
reports true is true. -/
theorem foldl_classStep_mem
    (F : SelectorContext → GroupFlags → Bool × List SelectorContext × GroupFlags)
    (R : SelectorMatcher → GroupFlags → Bool × List SelectorContext × GroupFlags)
    (cm : List (String × List SelectorContext)) (cp : List (String × SelectorMatcher))
    (k : String)
    (hk : ∀ acc : Bool × List SelectorContext × GroupFlags,
      (classStep F R cm cp acc k).1 = true) :
    ∀ (cls : List String) (acc : Bool × List SelectorContext × GroupFlags),
      k ∈ cls → (cls.foldl (classStep F R cm cp) acc).1 = true := by
  intro cls
  induction cls with
  | nil => intro acc h; cases h
  | cons c cs ih =>
    intro acc h
    rw [List.foldl_cons]
    rcases List.mem_cons.mp h with h | h
    · subst h
      exact foldl_true _ (fun a b => classStep_mono F R cm cp a b) cs _ (hk acc)
    · exact ih _ h

/-- The selector parsed from `input:not(.disabled)`. -/
def inputNotDisabledSel : CssSelector :=
  CssSelector.mk (some "input") [] [] [CssSelector.mk none ["disabled"] [] []]

/-- The matcher with `input:not(.disabled)` registered. -/
def inputNotDisabledM : SelectorMatcher :=
  addSelectables SelectorMatcher.emptyM [inputNotDisabledSel] (some 0)

/-- The ephemeral negation matcher built by `finalize` for that entry
matches every query whose class list contains `disabled`. -/
theorem disabledNotM_true (n : Nat) (e : Option String) (cls : List String)
    (attrs : List (String × String)) (nots : List CssSelector)
    (hd : "disabled" ∈ cls) :
    (matchF (n + 1) (createNotMatcher [CssSelector.mk none ["disabled"] [] []])
      (CssSelector.mk e cls attrs nots) false noFlags).1 = true := by
  have hk : ∀ acc : Bool × List SelectorContext × GroupFlags,
      (classStep
        (finalizeF (fun ns =>
          (matchF n (createNotMatcher ns) (CssSelector.mk e cls attrs nots) false noFlags).1)
          false)
        (fun nm g => matchF n nm (CssSelector.mk e cls attrs nots) false g)
        [("disabled", [⟨CssSelector.mk none ["disabled"] [] [], none, none⟩])] []
        acc "disabled").1 = true := by
    intro acc
    simp [classStep, matchTerminalG, matchPartialG, alGet, finalizeF,
      CssSelector.notSelectors]
  have h3 := foldl_classStep_mem _ _ _ _ "disabled" hk cls
  cases e with
  | none =>
    exact foldl_true _
      (fun a b => attrStep_mono _ _ [] [] a b) attrs _ (h3 _ hd)
  | some el =>
    exact foldl_true _
      (fun a b => attrStep_mono _ _ [] [] a b) attrs _ (h3 _ hd)

/-- The fold of `classStep` over empty maps leaves any accumulator alone. -/
theorem foldl_classStep_empty_acc
    (F : SelectorContext → GroupFlags → Bool × List SelectorContext × GroupFlags)
    (R : SelectorMatcher → GroupFlags → Bool × List SelectorContext × GroupFlags)
    (acc : Bool × List SelectorContext × GroupFlags) (cls : List String) :
    cls.foldl (classStep F R [] []) acc = acc := by
  induction cls generalizing acc with
  | nil => rfl
  | cons c cs ih =>
    rw [List.foldl_cons]
    rw [show classStep F R [] [] acc c = acc by
      simp [classStep, matchTerminalG, matchPartialG, alGet]]
    exact ih acc

/-- The fold of `attrStep` over empty maps leaves any accumulator alone. -/
theorem foldl_attrStep_empty_acc
    (F : SelectorContext → GroupFlags → Bool × List SelectorContext × GroupFlags)
    (R : SelectorMatcher → GroupFlags → Bool × List SelectorContext × GroupFlags)
    (acc : Bool × List SelectorContext × GroupFlags) (attrs : List (String × String)) :
    attrs.foldl (attrStep F R [] []) acc = acc := by
  induction attrs generalizing acc with
  | nil => rfl
  | cons p ps ih =>
    rw [List.foldl_cons]
    rw [show attrStep F R [] [] acc p = acc by
      by_cases hp : p.2 = "" <;> simp [attrStep, hp, matchTerminalG, matchPartialG, alGet]]
    exact ih acc

/-- C2: with `input:not(.disabled)` registered, `match` returns `false` and
invokes no callback on every query whose element is `input` and whose class
list contains `disabled` (fuel at least 2 lets the negation matcher run),
and it returns `true` on the query `element=input, classNames=[enabled]`. -/
theorem input_not_disabled_exclusion :
    parse "input:not(.disabled)" = .ok [inputNotDisabledSel] ∧
    (∀ (fuel : Nat) (q : CssSelector) (cb : Bool) (gs : GroupFlags),
      2 ≤ fuel → q.element = some "input" → "disabled" ∈ q.classNames →
      matchF fuel inputNotDisabledM q cb gs = (false, [], gs)) ∧
    ∀ (cb : Bool) (gs : GroupFlags),
      (inputNotDisabledM.run (CssSelector.mk (some "input") ["enabled"] [] []) cb gs).1 =
        true := by
  refine ⟨rfl, ?_, ?_⟩
  · intro fuel q cb gs hfuel he hd
    obtain ⟨n, rfl⟩ : ∃ n, fuel = n + 2 := ⟨fuel - 2, by omega⟩
    cases q with
    | mk e cls attrs nots =>
      simp only [CssSelector.element] at he
      subst he
      simp only [CssSelector.classNames] at hd
      have hfin : ∀ gs' : GroupFlags,
          finalizeF (fun ns =>
            (matchF (n + 1) (createNotMatcher ns)
              (CssSelector.mk (some "input") cls attrs nots) false noFlags).1) cb
            ⟨inputNotDisabledSel, some 0, none⟩ gs' = (false, [], gs') := by
        intro gs'
        rw [finalizeF]
        simp only [inputNotDisabledSel, CssSelector.notSelectors]
        rw [disabledNotM_true n (some "input") cls attrs nots hd]
        simp
      have hs1 : matchTerminalG
          (finalizeF (fun ns =>
            (matchF (n + 1) (createNotMatcher ns)
              (CssSelector.mk (some "input") cls attrs nots) false noFlags).1) cb)
          (some inputNotDisabledM.elementMap) (some "input") gs = (false, [], gs) := by
        rw [show inputNotDisabledM.elementMap =
          [("input", [⟨inputNotDisabledSel, some 0, none⟩])] from rfl]
        rw [matchTerminalG]
        rw [show ((alGet [("input", [(⟨inputNotDisabledSel, some 0, none⟩ : SelectorContext)])]
            "input").getD [] ++
          (alGet [("input", [(⟨inputNotDisabledSel, some 0, none⟩ : SelectorContext)])]
            "*").getD []) =
          [(⟨inputNotDisabledSel, some 0, none⟩ : SelectorContext)] from rfl]
        rw [List.foldl_cons, List.foldl_nil]
        rw [hfin gs]
        simp
      show (attrs.foldl
          (attrStep (finalizeF (fun ns =>
            (matchF (n + 1) (createNotMatcher ns)
              (CssSelector.mk (some "input") cls attrs nots) false noFlags).1) cb)
            (fun nm g => matchF (n + 1) nm
              (CssSelector.mk (some "input") cls attrs nots) cb g) [] [])
          (cls.foldl
            (classStep (finalizeF (fun ns =>
              (matchF (n + 1) (createNotMatcher ns)
                (CssSelector.mk (some "input") cls attrs nots) false noFlags).1) cb)
              (fun nm g => matchF (n + 1) nm
                (CssSelector.mk (some "input") cls attrs nots) cb g) [] [])
            (let s1 := matchTerminalG
                (finalizeF (fun ns =>
                  (matchF (n + 1) (createNotMatcher ns)
                    (CssSelector.mk (some "input") cls attrs nots) false noFlags).1) cb)
                (some inputNotDisabledM.elementMap) (some "input") gs;
              (s1.1 || false, s1.2.1 ++ [], s1.2.2))) = (false, [], gs))
      rw [hs1]
      have hacc : ((((false, [], gs) :
            Bool × List SelectorContext × GroupFlags).1 || false),
          ((false, [], gs) : Bool × List SelectorContext × GroupFlags).2.1 ++ [],
          ((false, [], gs) : Bool × List SelectorContext × GroupFlags).2.2) =
          ((false : Bool), ([] : List SelectorContext), gs) := by simp
      rw [hacc, foldl_classStep_empty_acc, foldl_attrStep_empty_acc]
  · intro cb gs
    cases cb <;> rfl

theorem input_not_disabled_exclusion_witness :
    matchF 10 inputNotDisabledM (CssSelector.mk (some "input") ["disabled"] [] [])
      true noFlags = (false, [], noFlags) ∧
    (inputNotDisabledM.run (CssSelector.mk (some "input") ["enabled"] [] [])
      true noFlags).1 = true := by
  refine ⟨input_not_disabled_exclusion.2.1 10
    (CssSelector.mk (some "input") ["disabled"] [] []) true noFlags
    (by omega) rfl ?_, input_not_disabled_exclusion.2.2 true noFlags⟩
  show "disabled" ∈ ["disabled"]
  simp

/-! ## Claim C6 -/

/-- Both branches of `finalize`'s callback conditional return the same
boolean, so the result of `finalize` is determined before the callback. -/
theorem finalizeF_fst (nm : List CssSelector → Bool) (cb : Bool)
    (sc : SelectorContext) (gs : GroupFlags) :
    (finalizeF nm cb sc gs).1 =
      (if sc.selector.notSelectors.isEmpty = false ∧
          (match sc.listContext with | none => false | some g => gs g) = false then
        !(nm sc.selector.notSelectors) else true) := by
  rw [finalizeF]
  split <;> (split <;> rfl)

theorem foldl_attrStep_mem
    (F : SelectorContext → GroupFlags → Bool × List SelectorContext × GroupFlags)
    (R : SelectorMatcher → GroupFlags → Bool × List SelectorContext × GroupFlags)
    (am : List (String × List (String × List SelectorContext)))
    (avp : List (String × List (String × SelectorMatcher)))
    (p0 : String × String)
    (hk : ∀ acc : Bool × List SelectorContext × GroupFlags,
      (attrStep F R am avp acc p0).1 = true) :
    ∀ (attrs : List (String × String)) (acc : Bool × List SelectorContext × GroupFlags),
      p0 ∈ attrs → (attrs.foldl (attrStep F R am avp) acc).1 = true := by
  intro attrs
  induction attrs with
  | nil => intro acc h; cases h
  | cons p ps ih =>
    intro acc h
    rw [List.foldl_cons]
    rcases List.mem_cons.mp h with h | h
    · subst h
      exact foldl_true _ (fun a b => attrStep_mono F R am avp a b) ps _ (hk acc)
    · exact ih _ h

theorem foldl_attrStep_miss
    (F : SelectorContext → GroupFlags → Bool × List SelectorContext × GroupFlags)
    (R : SelectorMatcher → GroupFlags → Bool × List SelectorContext × GroupFlags)
    (am : List (String × List (String × List SelectorContext)))
    (avp : List (String × List (String × SelectorMatcher)))
    (attrs : List (String × String))
    (h : ∀ p ∈ attrs, ∀ acc : Bool × List SelectorContext × GroupFlags,
      (attrStep F R am avp acc p).1 = acc.1) :
    ∀ acc : Bool × List SelectorContext × GroupFlags,
      (attrs.foldl (attrStep F R am avp) acc).1 = acc.1 := by
  induction attrs with
  | nil => intro acc; rfl
  | cons p ps ih =>
    intro acc
    rw [List.foldl_cons]
    rw [ih (fun p' hp => h p' (List.mem_cons_of_mem _ hp))]
    exact h p (List.mem_cons_self p ps) acc

theorem alGet_nil {α : Type} (k : String) : alGet ([] : List (String × α)) k = none := rfl

theorem alGet_cons {α : Type} (k k' : String) (v : α) (rest : List (String × α)) :
    alGet ((k, v) :: rest) k' = if k = k' then some v else alGet rest k' := by
  rw [alGet, alGet, List.find?]
  by_cases h : k = k'
  · subst h
    simp
  · rw [if_neg h]
    have : ((k, v).1 == k') = false := by
      simp [h]
    rw [this]

/-- `[required]` as parsed (presence-only registration). -/
def requiredSel : CssSelector := CssSelector.mk none [] [("required", "")] []

/-- `[required=yes]` as parsed. -/
def requiredYesSel : CssSelector := CssSelector.mk none [] [("required", "yes")] []

def requiredM : SelectorMatcher :=
  addSelectables SelectorMatcher.emptyM [requiredSel] (some 5)

def requiredYesM : SelectorMatcher :=
  addSelectables SelectorMatcher.emptyM [requiredYesSel] (some 6)

/-- The attribute step on the `[required]` index reports a match for every
query pair named `required`, whatever its value. -/
theorem requiredM_step_hit (nm : List CssSelector → Bool) (cb : Bool)
    (R : SelectorMatcher → GroupFlags → Bool × List SelectorContext × GroupFlags)
    (acc : Bool × List SelectorContext × GroupFlags) (v : String) :
    (attrStep (finalizeF nm cb) R
      [("required", [("", [⟨requiredSel, some 5, none⟩])])] [] acc ("required", v)).1 =
      true := by
  by_cases hv : v = ""
  · subst hv
    simp [attrStep, matchTerminalG, matchPartialG, alGet_cons, alGet_nil,
      finalizeF_fst, requiredSel, CssSelector.notSelectors]
  · simp [attrStep, matchTerminalG, matchPartialG, alGet_cons, alGet_nil, hv,
      finalizeF_fst, requiredSel, CssSelector.notSelectors]

/-- The attribute step on the `[required=yes]` index ignores every query
pair other than `("required", "yes")`. -/
theorem requiredYesM_step_miss (nm : List CssSelector → Bool) (cb : Bool)
    (R : SelectorMatcher → GroupFlags → Bool × List SelectorContext × GroupFlags)
    (acc : Bool × List SelectorContext × GroupFlags) (p : String × String)
    (hne : p ≠ ("required", "yes")) :
    (attrStep (finalizeF nm cb) R
      [("required", [("yes", [⟨requiredYesSel, some 6, none⟩])])] [] acc p).1 = acc.1 := by
  obtain ⟨pn, pv⟩ := p
  by_cases hn : pn = "required"
  · subst hn
    have hv : pv ≠ "yes" := fun h => hne (by rw [h])
    have hv' : ¬("yes" = pv) := fun h => hv h.symm
    by_cases hv0 : pv = ""
    · subst hv0
      simp [attrStep, matchTerminalG, matchPartialG, alGet_cons, alGet_nil]
    · simp [attrStep, matchTerminalG, matchPartialG, alGet_cons, alGet_nil, hv0, hv']
  · have hn' : ¬("required" = pn) := fun h => hn h.symm
    by_cases hv0 : pv = "" <;>
      simp [attrStep, matchTerminalG, matchPartialG, alGet_cons, alGet_nil, hv0, hn']

/-- The attribute step on the `[required=yes]` index reports a match on the
pair `("required", "yes")`. -/
theorem requiredYesM_step_hit (nm : List CssSelector → Bool) (cb : Bool)
    (R : SelectorMatcher → GroupFlags → Bool × List SelectorContext × GroupFlags)
    (acc : Bool × List SelectorContext × GroupFlags) :
    (attrStep (finalizeF nm cb) R
      [("required", [("yes", [⟨requiredYesSel, some 6, none⟩])])] [] acc
      ("required", "yes")).1 = true := by
  simp [attrStep, matchTerminalG, matchPartialG, alGet_cons, alGet_nil,
    finalizeF_fst, requiredYesSel, CssSelector.notSelectors]

/-- Unfolding of one `match` step on a matcher whose only populated map is
the attribute terminal map: only the attribute loop can contribute. -/
theorem matchF_attrOnly (n : Nat)
    (AM : List (String × List (String × List SelectorContext)))
    (e : Option String) (cls : List String) (attrs : List (String × String))
    (nots : List CssSelector) (cb : Bool) (gs : GroupFlags) :
    matchF (n + 1) (SelectorMatcher.mk [] [] [] [] AM [] [])
      (CssSelector.mk e cls attrs nots) cb gs =
      attrs.foldl
        (attrStep
          (finalizeF (fun ns =>
            (matchF n (createNotMatcher ns)
              (CssSelector.mk e cls attrs nots) false noFlags).1) cb)
          (fun nm g => matchF n nm (CssSelector.mk e cls attrs nots) cb g) AM [])
        ((false : Bool), ([] : List SelectorContext), gs) := by
  cases e with
  | none =>
    exact congrArg
      (fun a => attrs.foldl
        (attrStep
          (finalizeF (fun ns =>
            (matchF n (createNotMatcher ns)
              (CssSelector.mk none cls attrs nots) false noFlags).1) cb)
          (fun nm g => matchF n nm (CssSelector.mk none cls attrs nots) cb g) AM []) a)
      (foldl_classStep_empty_acc _ _ _ cls)
  | some el =>
    exact congrArg
      (fun a => attrs.foldl
        (attrStep
          (finalizeF (fun ns =>
            (matchF n (createNotMatcher ns)
              (CssSelector.mk (some el) cls attrs nots) false noFlags).1) cb)
          (fun nm g => matchF n nm (CssSelector.mk (some el) cls attrs nots) cb g) AM []) a)
      (foldl_classStep_empty_acc _ _ _ cls)

theorem requiredM_step_miss (nm : List CssSelector → Bool) (cb : Bool)
    (R : SelectorMatcher → GroupFlags → Bool × List SelectorContext × GroupFlags)
    (acc : Bool × List SelectorContext × GroupFlags) (p : String × String)
    (hn : p.1 ≠ "required") :
    (attrStep (finalizeF nm cb) R
      [("required", [("", [⟨requiredSel, some 5, none⟩])])] [] acc p).1 = acc.1 := by
  obtain ⟨pn, pv⟩ := p
  simp only [] at hn
  have hn' : ¬("required" = pn) := fun h => hn h.symm
  by_cases hv0 : pv = "" <;>
    simp [attrStep, matchTerminalG, matchPartialG, alGet_cons, alGet_nil, hv0, hn']

/-- C6: with `[required]` registered, `match` is satisfied exactly by the
queries carrying an attribute named `required` (any value, including the
empty one); with `[required=yes]` registered, exactly by the queries whose
attribute list contains the pair `("required", "yes")` — a presence-only
query pair satisfies only the presence-only registration, a valued query
pair is probed under the empty key and its own value; values are lowercased
at parse time. -/
theorem attribute_presence_vs_value :
    parse "[required]" = .ok [requiredSel] ∧
    parse "[required=YES]" = .ok [requiredYesSel] ∧
    (∀ (fuel : Nat) (q : CssSelector) (cb : Bool) (gs : GroupFlags), 1 ≤ fuel →
      ((matchF fuel requiredM q cb gs).1 = true ↔ ∃ v, ("required", v) ∈ q.attrs)) ∧
    (∀ (fuel : Nat) (q : CssSelector) (cb : Bool) (gs : GroupFlags), 1 ≤ fuel →
      ((matchF fuel requiredYesM q cb gs).1 = true ↔ ("required", "yes") ∈ q.attrs)) := by
  refine ⟨rfl, rfl, ?_, ?_⟩
  · intro fuel q cb gs hf
    obtain ⟨n, rfl⟩ : ∃ n, fuel = n + 1 := ⟨fuel - 1, by omega⟩
    cases q with
    | mk e cls attrs nots =>
      rw [show requiredM = SelectorMatcher.mk [] [] [] []
        [("required", [("", [⟨requiredSel, some 5, none⟩])])] [] [] from rfl]
      rw [matchF_attrOnly]
      simp only [CssSelector.attrs]
      constructor
      · intro hb
        by_contra hno
        push_neg at hno
        rw [foldl_attrStep_miss _ _ _ _ attrs
          (fun p hp acc => requiredM_step_miss _ cb _ acc p (by
            intro hp1
            exact hno p.2 (by
              have : p = ("required", p.2) := by
                rw [← hp1]
              rw [← this]
              exact hp)))] at hb
        exact Bool.noConfusion hb
      · rintro ⟨v, hv⟩
        exact foldl_attrStep_mem _ _ _ _ ("required", v)
          (fun acc => requiredM_step_hit _ cb _ acc v) attrs _ hv
  · intro fuel q cb gs hf
    obtain ⟨n, rfl⟩ : ∃ n, fuel = n + 1 := ⟨fuel - 1, by omega⟩
    cases q with
    | mk e cls attrs nots =>
      rw [show requiredYesM = SelectorMatcher.mk [] [] [] []
        [("required", [("yes", [⟨requiredYesSel, some 6, none⟩])])] [] [] from rfl]
      rw [matchF_attrOnly]
      simp only [CssSelector.attrs]
      constructor
      · intro hb
        by_contra hno
        rw [foldl_attrStep_miss _ _ _ _ attrs
          (fun p hp acc => requiredYesM_step_miss _ cb _ acc p (by
            intro heq
            rw [heq] at hp
            exact hno hp))] at hb
        exact Bool.noConfusion hb
      · intro hv
        exact foldl_attrStep_mem _ _ _ _ ("required", "yes")
          (fun acc => requiredYesM_step_hit _ cb _ acc) attrs _ hv

theorem attribute_presence_vs_value_witness :
    (matchF 5 requiredM (CssSelector.mk none [] [("required", "maybe")] []) true noFlags).1 =
      true ∧
    (matchF 5 requiredYesM (CssSelector.mk none [] [("required", "yes")] []) true
      noFlags).1 = true ∧
    ¬(matchF 5 requiredYesM (CssSelector.mk none [] [("required", "")] []) true
      noFlags).1 = true ∧
    (matchF 5 requiredM (CssSelector.mk none [] [("required", "")] []) true noFlags).1 =
      true := by
  refine ⟨?_, ?_, ?_, ?_⟩
  · exact (attribute_presence_vs_value.2.2.1 5
      (CssSelector.mk none [] [("required", "maybe")] []) true noFlags (by omega)).mpr
      ⟨"maybe", by show ("required", "maybe") ∈ [("required", "maybe")]; simp⟩
  · exact (attribute_presence_vs_value.2.2.2 5
      (CssSelector.mk none [] [("required", "yes")] []) true noFlags (by omega)).mpr
      (by show ("required", "yes") ∈ [("required", "yes")]; simp)
  · intro hb
    have := (attribute_presence_vs_value.2.2.2 5
      (CssSelector.mk none [] [("required", "")] []) true noFlags (by omega)).mp hb
    simp [CssSelector.attrs] at this
  · exact (attribute_presence_vs_value.2.2.1 5
      (CssSelector.mk none [] [("required", "")] []) true noFlags (by omega)).mpr
      ⟨"", by show ("required", "") ∈ [("required", "")]; simp⟩

/-! ## The probe trace of a `match` call

`match` visits a sequence of flag resets and `finalize` calls that depends
only on the matcher and the query, never on the flag state or on whether a
callback was supplied: `_matchTerminal` always finalizes every selectable it
finds and `_matchPartial` always recurses.  `itemsF` computes that sequence
(each probe carries the — pure — result of the negation matcher for its
entry), `runItems` replays it, and `matchF_eq_runItems` proves that `matchF`
is exactly this replay.  The group-flag theorems below are then plain list
inductions over the trace. -/

inductive MatchItem where
  | resetI (ids : List Nat) : MatchItem
  | probe (sc : SelectorContext) (nr : Bool) : MatchItem

/-- Replay one item: a reset clears the listed flags; a probe performs the
`finalize` logic, with `nr` in place of the negation-matcher result. -/
def stepItem (cb : Bool) (acc : Bool × List SelectorContext × GroupFlags) :
    MatchItem → Bool × List SelectorContext × GroupFlags
  | .resetI ids => (acc.1, acc.2.1, resetFlags ids acc.2.2)
  | .probe sc nr =>
    let flagged : Bool :=
      match sc.listContext with
      | none => false
      | some g => acc.2.2 g
    let result : Bool :=
      if sc.selector.notSelectors.isEmpty = false ∧ flagged = false then !nr else true
    if result = true ∧ cb = true ∧ flagged = false then
      (acc.1 || result, acc.2.1 ++ [sc],
        match sc.listContext with
        | none => acc.2.2
        | some g => setFlag g true acc.2.2)
    else (acc.1 || result, acc.2.1, acc.2.2)

def runItems (cb : Bool) (its : List MatchItem)
    (acc : Bool × List SelectorContext × GroupFlags) :
    Bool × List SelectorContext × GroupFlags :=
  its.foldl (stepItem cb) acc

/-- The items of one `_matchTerminal` walk. -/
def itemsTerminal (notRes : List CssSelector → Bool)
    (mapO : Option (List (String × List SelectorContext))) (nameO : Option String) :
    List MatchItem :=
  match mapO, nameO with
  | none, _ => []
  | some _, none => []
  | some map, some name =>
    ((alGet map name).getD [] ++ (alGet map "*").getD []).map
      (fun sc => .probe sc (notRes sc.selector.notSelectors))

/-- The probe trace of `matchF fuel m q`. -/
def itemsF : Nat → SelectorMatcher → CssSelector → List MatchItem
  | 0, _, _ => []
  | n + 1, m, q =>
    let notRes : List CssSelector → Bool := fun ns =>
      (matchF n (createNotMatcher ns) q false noFlags).1
    let itemsPartialN : Option (List (String × SelectorMatcher)) → Option String →
        List MatchItem := fun mapO nameO =>
      match mapO, nameO with
      | none, _ => []
      | some _, none => []
      | some map, some name =>
        match alGet map name with
        | none => []
        | some nested => itemsF n nested q
    .resetI m.listContexts ::
    (itemsTerminal notRes (some m.elementMap) q.element ++
     itemsPartialN (some m.elementPartialMap) q.element ++
     (q.classNames.map (fun cn =>
        itemsTerminal notRes (some m.classMap) (some cn) ++
        itemsPartialN (some m.classPartialMap) (some cn))).flatten ++
     (q.attrs.map (fun p =>
        (if p.2 ≠ "" then itemsTerminal notRes (alGet m.attrValueMap p.1) (some "")
         else []) ++
        itemsTerminal notRes (alGet m.attrValueMap p.1) (some p.2) ++
        (if p.2 ≠ "" then itemsPartialN (alGet m.attrValuePartialMap p.1) (some "")
         else []) ++
        itemsPartialN (alGet m.attrValuePartialMap p.1) (some p.2))).flatten)

theorem runItems_nil (cb : Bool) (acc : Bool × List SelectorContext × GroupFlags) :
    runItems cb [] acc = acc := rfl

theorem runItems_cons (cb : Bool) (it : MatchItem) (its : List MatchItem)
    (acc : Bool × List SelectorContext × GroupFlags) :
    runItems cb (it :: its) acc = runItems cb its (stepItem cb acc it) := rfl

theorem runItems_append (cb : Bool) (a b : List MatchItem)
    (acc : Bool × List SelectorContext × GroupFlags) :
    runItems cb (a ++ b) acc = runItems cb b (runItems cb a acc) :=
  List.foldl_append (stepItem cb) acc a b

/-- A probe item replays exactly as `finalize` merged by `_matchTerminal`. -/
theorem stepItem_probe_eq (nm : List CssSelector → Bool) (cb : Bool)
    (sc : SelectorContext) (acc : Bool × List SelectorContext × GroupFlags) :
    stepItem cb acc (.probe sc (nm sc.selector.notSelectors)) =
      ((finalizeF nm cb sc acc.2.2).1 || acc.1,
       acc.2.1 ++ (finalizeF nm cb sc acc.2.2).2.1,
       (finalizeF nm cb sc acc.2.2).2.2) := by
  rw [stepItem, finalizeF]
  split
  case isTrue h1 =>
    split
    case isTrue h2 => simp [h2, Bool.or_comm]
    case isFalse h2 => simp [h2, Bool.or_comm]
  case isFalse h1 =>
    split
    case isTrue h2 => simp [h2, Bool.or_comm]
    case isFalse h2 => simp [h2, Bool.or_comm]

/-- One step only reads the flag component of the accumulator; its boolean
and log contributions are appended to the accumulated ones. -/
theorem stepItem_frame (cb : Bool) (it : MatchItem)
    (acc : Bool × List SelectorContext × GroupFlags) :
    stepItem cb acc it =
      (acc.1 || (stepItem cb (false, [], acc.2.2) it).1,
       acc.2.1 ++ (stepItem cb (false, [], acc.2.2) it).2.1,
       (stepItem cb (false, [], acc.2.2) it).2.2) := by
  cases it with
  | resetI ids => simp [stepItem]
  | probe sc nr =>
    rw [stepItem, stepItem]
    dsimp only
    split_ifs <;> simp_all

/-- The accumulated boolean and log factor out of a replay: only the flag
state influences the items' behaviour. -/
theorem runItems_frame (cb : Bool) (its : List MatchItem) :
    ∀ acc : Bool × List SelectorContext × GroupFlags,
      runItems cb its acc =
        (acc.1 || (runItems cb its (false, [], acc.2.2)).1,
         acc.2.1 ++ (runItems cb its (false, [], acc.2.2)).2.1,
         (runItems cb its (false, [], acc.2.2)).2.2) := by
  induction its with
  | nil => intro acc; simp [runItems_nil]
  | cons it rest ih =>
    intro acc
    rw [runItems_cons, runItems_cons, stepItem_frame cb it acc]
    rw [ih (acc.1 || (stepItem cb (false, [], acc.2.2) it).1,
          acc.2.1 ++ (stepItem cb (false, [], acc.2.2) it).2.1,
          (stepItem cb (false, [], acc.2.2) it).2.2)]
    rw [ih (stepItem cb (false, [], acc.2.2) it)]
    dsimp only
    simp [Bool.or_assoc, List.append_assoc]

/-- `_matchTerminal` is the replay of its probe items. -/
theorem matchTerminalG_eq_runItems (nm : List CssSelector → Bool) (cb : Bool)
    (mapO : Option (List (String × List SelectorContext))) (nameO : Option String)
    (gs : GroupFlags) :
    matchTerminalG (finalizeF nm cb) mapO nameO gs =
      runItems cb (itemsTerminal nm mapO nameO) (false, [], gs) := by
  match mapO, nameO with
  | none, _ => rfl
  | some map, none => rfl
  | some map, some name =>
    rw [matchTerminalG, itemsTerminal]
    generalize ((alGet map name).getD [] ++ (alGet map "*").getD []) = sels
    show sels.foldl _ ((false : Bool), ([] : List SelectorContext), gs) =
      runItems cb (sels.map _) ((false : Bool), ([] : List SelectorContext), gs)
    generalize ((false : Bool), ([] : List SelectorContext), gs) = acc
    induction sels generalizing acc with
    | nil => rfl
    | cons sc rest ih =>
      rw [List.foldl_cons, List.map_cons, runItems_cons]
      rw [stepItem_probe_eq nm cb sc acc]
      exact ih _

/-- The partial-walk items, as a standalone function (definitionally the
local `itemsPartialN` of `itemsF`). -/
def itemsPartialF (n : Nat) (q : CssSelector)
    (mapO : Option (List (String × SelectorMatcher))) (nameO : Option String) :
    List MatchItem :=
  match mapO, nameO with
  | none, _ => []
  | some _, none => []
  | some map, some name =>
    match alGet map name with
    | none => []
    | some nested => itemsF n nested q

theorem itemsF_succ (n : Nat) (m : SelectorMatcher) (q : CssSelector) :
    itemsF (n + 1) m q =
      .resetI m.listContexts ::
      (itemsTerminal (fun ns => (matchF n (createNotMatcher ns) q false noFlags).1)
          (some m.elementMap) q.element ++
       itemsPartialF n q (some m.elementPartialMap) q.element ++
       (q.classNames.map (fun cn =>
          itemsTerminal (fun ns => (matchF n (createNotMatcher ns) q false noFlags).1)
            (some m.classMap) (some cn) ++
          itemsPartialF n q (some m.classPartialMap) (some cn))).flatten ++
       (q.attrs.map (fun p =>
          (if p.2 ≠ "" then
            itemsTerminal (fun ns => (matchF n (createNotMatcher ns) q false noFlags).1)
              (alGet m.attrValueMap p.1) (some "")
           else []) ++
          itemsTerminal (fun ns => (matchF n (createNotMatcher ns) q false noFlags).1)
            (alGet m.attrValueMap p.1) (some p.2) ++
          (if p.2 ≠ "" then
            itemsPartialF n q (alGet m.attrValuePartialMap p.1) (some "")
           else []) ++
          itemsPartialF n q (alGet m.attrValuePartialMap p.1) (some p.2))).flatten) :=
  rfl

theorem matchPartialG_eq_runItems (n : Nat) (q : CssSelector) (cb : Bool)
    (hres : ∀ (m : SelectorMatcher) (gs : GroupFlags),
      matchF n m q cb gs = runItems cb (itemsF n m q) (false, [], gs))
    (mapO : Option (List (String × SelectorMatcher))) (nameO : Option String)
    (gs : GroupFlags) :
    matchPartialG (fun nm g => matchF n nm q cb g) mapO nameO gs =
      runItems cb (itemsPartialF n q mapO nameO) (false, [], gs) := by
  match mapO, nameO with
  | none, _ => rfl
  | some map, none => rfl
  | some map, some name =>
    rw [matchPartialG, itemsPartialF]
    cases hg : alGet map name with
    | none => rfl
    | some nested =>
      exact hres nested gs

theorem classFold_eq_runItems (n : Nat) (q : CssSelector) (cb : Bool)
    (hres : ∀ (m : SelectorMatcher) (gs : GroupFlags),
      matchF n m q cb gs = runItems cb (itemsF n m q) (false, [], gs))
    (cm : List (String × List SelectorContext)) (cp : List (String × SelectorMatcher)) :
    ∀ (cls : List String) (acc : Bool × List SelectorContext × GroupFlags),
      cls.foldl (classStep
        (finalizeF (fun ns => (matchF n (createNotMatcher ns) q false noFlags).1) cb)
        (fun nm g => matchF n nm q cb g) cm cp) acc =
      runItems cb ((cls.map (fun cn =>
        itemsTerminal (fun ns => (matchF n (createNotMatcher ns) q false noFlags).1)
          (some cm) (some cn) ++
        itemsPartialF n q (some cp) (some cn))).flatten) acc := by
  intro cls
  induction cls with
  | nil => intro acc; rfl
  | cons cn rest ihc =>
    intro acc
    rw [List.foldl_cons, List.map_cons]
    rw [show ((itemsTerminal (fun ns =>
        (matchF n (createNotMatcher ns) q false noFlags).1) (some cm) (some cn) ++
        itemsPartialF n q (some cp) (some cn)) ::
        rest.map (fun cn =>
          itemsTerminal (fun ns => (matchF n (createNotMatcher ns) q false noFlags).1)
            (some cm) (some cn) ++
          itemsPartialF n q (some cp) (some cn))).flatten =
      (itemsTerminal (fun ns => (matchF n (createNotMatcher ns) q false noFlags).1)
          (some cm) (some cn) ++
        itemsPartialF n q (some cp) (some cn)) ++
      (rest.map (fun cn =>
        itemsTerminal (fun ns => (matchF n (createNotMatcher ns) q false noFlags).1)
          (some cm) (some cn) ++
        itemsPartialF n q (some cp) (some cn))).flatten from rfl]
    rw [runItems_append, runItems_append]
    have hstep : runItems cb (itemsPartialF n q (some cp) (some cn))
        (runItems cb (itemsTerminal (fun ns =>
          (matchF n (createNotMatcher ns) q false noFlags).1) (some cm) (some cn)) acc) =
        classStep
          (finalizeF (fun ns => (matchF n (createNotMatcher ns) q false noFlags).1) cb)
          (fun nm g => matchF n nm q cb g) cm cp acc cn := by
      rw [runItems_frame cb (itemsTerminal (fun ns =>
        (matchF n (createNotMatcher ns) q false noFlags).1) (some cm) (some cn)) acc]
      rw [← matchTerminalG_eq_runItems]
      rw [runItems_frame cb (itemsPartialF n q (some cp) (some cn))]
      dsimp only
      rw [← matchPartialG_eq_runItems n q cb hres]
      simp [classStep, Bool.or_assoc, List.append_assoc]
    rw [hstep]
    exact ihc _

theorem attrFold_eq_runItems (n : Nat) (q : CssSelector) (cb : Bool)
    (hres : ∀ (m : SelectorMatcher) (gs : GroupFlags),
      matchF n m q cb gs = runItems cb (itemsF n m q) (false, [], gs))
    (am : List (String × List (String × List SelectorContext)))
    (avp : List (String × List (String × SelectorMatcher))) :
    ∀ (attrs : List (String × String)) (acc : Bool × List SelectorContext × GroupFlags),
      attrs.foldl (attrStep
        (finalizeF (fun ns => (matchF n (createNotMatcher ns) q false noFlags).1) cb)
        (fun nm g => matchF n nm q cb g) am avp) acc =
      runItems cb ((attrs.map (fun p =>
        (if p.2 ≠ "" then
          itemsTerminal (fun ns => (matchF n (createNotMatcher ns) q false noFlags).1)
            (alGet am p.1) (some "")
         else []) ++
        itemsTerminal (fun ns => (matchF n (createNotMatcher ns) q false noFlags).1)
          (alGet am p.1) (some p.2) ++
        (if p.2 ≠ "" then itemsPartialF n q (alGet avp p.1) (some "") else []) ++
        itemsPartialF n q (alGet avp p.1) (some p.2))).flatten) acc := by
  intro attrs
  induction attrs with
  | nil => intro acc; rfl
  | cons p rest iha =>
    intro acc
    rw [List.foldl_cons, List.map_cons]
    rw [show (((if p.2 ≠ "" then
          itemsTerminal (fun ns => (matchF n (createNotMatcher ns) q false noFlags).1)
            (alGet am p.1) (some "")
         else []) ++
        itemsTerminal (fun ns => (matchF n (createNotMatcher ns) q false noFlags).1)
          (alGet am p.1) (some p.2) ++
        (if p.2 ≠ "" then itemsPartialF n q (alGet avp p.1) (some "") else []) ++
        itemsPartialF n q (alGet avp p.1) (some p.2)) ::
        rest.map (fun p =>
          (if p.2 ≠ "" then
            itemsTerminal (fun ns => (matchF n (createNotMatcher ns) q false noFlags).1)
              (alGet am p.1) (some "")
           else []) ++
          itemsTerminal (fun ns => (matchF n (createNotMatcher ns) q false noFlags).1)
            (alGet am p.1) (some p.2) ++
          (if p.2 ≠ "" then itemsPartialF n q (alGet avp p.1) (some "") else []) ++
          itemsPartialF n q (alGet avp p.1) (some p.2))).flatten =
      ((if p.2 ≠ "" then
          itemsTerminal (fun ns => (matchF n (createNotMatcher ns) q false noFlags).1)
            (alGet am p.1) (some "")
         else []) ++
        itemsTerminal (fun ns => (matchF n (createNotMatcher ns) q false noFlags).1)
          (alGet am p.1) (some p.2) ++
        (if p.2 ≠ "" then itemsPartialF n q (alGet avp p.1) (some "") else []) ++
        itemsPartialF n q (alGet avp p.1) (some p.2)) ++
      (rest.map (fun p =>
        (if p.2 ≠ "" then
          itemsTerminal (fun ns => (matchF n (createNotMatcher ns) q false noFlags).1)
            (alGet am p.1) (some "")
         else []) ++
        itemsTerminal (fun ns => (matchF n (createNotMatcher ns) q false noFlags).1)
          (alGet am p.1) (some p.2) ++
        (if p.2 ≠ "" then itemsPartialF n q (alGet avp p.1) (some "") else []) ++
        itemsPartialF n q (alGet avp p.1) (some p.2))).flatten from rfl]
    rw [runItems_append]
    have hstep : runItems cb
        ((if p.2 ≠ "" then
            itemsTerminal (fun ns => (matchF n (createNotMatcher ns) q false noFlags).1)
              (alGet am p.1) (some "")
          else []) ++
          itemsTerminal (fun ns => (matchF n (createNotMatcher ns) q false noFlags).1)
            (alGet am p.1) (some p.2) ++
          (if p.2 ≠ "" then itemsPartialF n q (alGet avp p.1) (some "") else []) ++
          itemsPartialF n q (alGet avp p.1) (some p.2)) acc =
        attrStep
          (finalizeF (fun ns => (matchF n (createNotMatcher ns) q false noFlags).1) cb)
          (fun nm g => matchF n nm q cb g) am avp acc p := by
      by_cases hp : p.2 = ""
      · simp only [hp, ne_eq, not_true_eq_false, if_false, List.nil_append]
        rw [runItems_append, runItems_append, runItems_nil]
        rw [runItems_frame cb (itemsTerminal (fun ns =>
          (matchF n (createNotMatcher ns) q false noFlags).1) (alGet am p.1) (some "")) acc]
        rw [← matchTerminalG_eq_runItems]
        rw [runItems_frame cb (itemsPartialF n q (alGet avp p.1) (some ""))]
        dsimp only
        rw [← matchPartialG_eq_runItems n q cb hres]
        simp [attrStep, hp, Bool.or_assoc, List.append_assoc]
      · simp only [ne_eq, hp, not_false_eq_true, if_true]
        rw [runItems_append, runItems_append, runItems_append]
        rw [runItems_frame cb (itemsTerminal (fun ns =>
          (matchF n (createNotMatcher ns) q false noFlags).1) (alGet am p.1) (some "")) acc]
        rw [← matchTerminalG_eq_runItems]
        rw [runItems_frame cb (itemsTerminal (fun ns =>
          (matchF n (createNotMatcher ns) q false noFlags).1) (alGet am p.1) (some p.2))]
        dsimp only
        rw [← matchTerminalG_eq_runItems]
        rw [runItems_frame cb (itemsPartialF n q (alGet avp p.1) (some ""))]
        dsimp only
        rw [← matchPartialG_eq_runItems n q cb hres]
        rw [runItems_frame cb (itemsPartialF n q (alGet avp p.1) (some p.2))]
        dsimp only
        rw [← matchPartialG_eq_runItems n q cb hres]
        simp [attrStep, hp, Bool.or_assoc, List.append_assoc]
    rw [hstep]
    exact iha _

/-- `match` is exactly the replay of its probe trace. -/
theorem matchF_eq_runItems (fuel : Nat) :
    ∀ (m : SelectorMatcher) (q : CssSelector) (cb : Bool) (gs : GroupFlags),
      matchF fuel m q cb gs = runItems cb (itemsF fuel m q) (false, [], gs) := by
  induction fuel with
  | zero => intro m q cb gs; rfl
  | succ n ih =>
    intro m q cb gs
    rw [itemsF_succ, runItems_cons]
    rw [show stepItem cb ((false : Bool), ([] : List SelectorContext), gs)
      (.resetI m.listContexts) = (false, [], resetFlags m.listContexts gs) from rfl]
    rw [runItems_append, runItems_append, runItems_append]
    rw [runItems_frame cb (itemsPartialF n q (some m.elementPartialMap) q.element)]
    simp only [← matchTerminalG_eq_runItems,
      ← matchPartialG_eq_runItems n q cb (fun m' gs' => ih m' q cb gs'),
      ← classFold_eq_runItems n q cb (fun m' gs' => ih m' q cb gs'),
      ← attrFold_eq_runItems n q cb (fun m' gs' => ih m' q cb gs')]
    rfl

/-! ## Claim C8 -/

theorem setFlag_apply (g : Nat) (b : Bool) (gs : GroupFlags) (n : Nat) :
    setFlag g b gs n = if n = g then b else gs n := rfl

theorem resetFlags_apply (ids : List Nat) : ∀ (gs : GroupFlags) (n : Nat),
    resetFlags ids gs n = if n ∈ ids then false else gs n := by
  induction ids with
  | nil => intro gs n; simp [resetFlags]
  | cons i ids ih =>
    intro gs n
    rw [show resetFlags (i :: ids) gs = resetFlags ids (setFlag i false gs) from rfl]
    rw [ih]
    by_cases h1 : n ∈ ids
    · simp [h1]
    · by_cases h2 : n = i <;> simp [h1, h2, setFlag]

/-- The `alreadyMatched` flag `finalize` reads for an entry. -/
def flagOf (sc : SelectorContext) (gs : GroupFlags) : Bool :=
  match sc.listContext with
  | none => false
  | some g => gs g

/-- The boolean a `finalize` call reports for an entry. -/
def probeResult (sc : SelectorContext) (nr : Bool) (gs : GroupFlags) : Bool :=
  if sc.selector.notSelectors.isEmpty = false ∧ flagOf sc gs = false then !nr else true

/-- The flag update of a firing `finalize` call. -/
def probeSet (sc : SelectorContext) (gs : GroupFlags) : GroupFlags :=
  match sc.listContext with
  | none => gs
  | some g => setFlag g true gs

theorem stepItem_probe_expand (cb : Bool) (sc : SelectorContext) (nr : Bool)
    (acc : Bool × List SelectorContext × GroupFlags) :
    stepItem cb acc (.probe sc nr) =
      (acc.1 || probeResult sc nr acc.2.2,
       acc.2.1 ++ (if probeResult sc nr acc.2.2 = true ∧ cb = true ∧
          flagOf sc acc.2.2 = false then [sc] else []),
       if probeResult sc nr acc.2.2 = true ∧ cb = true ∧ flagOf sc acc.2.2 = false then
         probeSet sc acc.2.2
       else acc.2.2) := by
  rw [stepItem]
  show (if probeResult sc nr acc.2.2 = true ∧ cb = true ∧ flagOf sc acc.2.2 = false then
      (acc.1 || probeResult sc nr acc.2.2, acc.2.1 ++ [sc], probeSet sc acc.2.2)
    else (acc.1 || probeResult sc nr acc.2.2, acc.2.1, acc.2.2)) = _
  split
  case isTrue h => simp [h]
  case isFalse h => simp [h]

/-- Without a callback a probe only contributes its boolean. -/
theorem stepItem_probe_nocb (sc : SelectorContext) (nr : Bool)
    (acc : Bool × List SelectorContext × GroupFlags) :
    stepItem false acc (.probe sc nr) =
      (acc.1 || probeResult sc nr acc.2.2, acc.2.1, acc.2.2) := by
  rw [stepItem_probe_expand]
  simp

/-- The relation between the run with a callback and the run without one:
same boolean so far, the callback run's flags dominate, and the runs
disagree only on flags set after the boolean already became true. -/
def cbRel (a1 a2 : Bool × List SelectorContext × GroupFlags) : Prop :=
  a1.1 = a2.1 ∧ (∀ n, a2.2.2 n = true → a1.2.2 n = true) ∧
  (∀ n, a1.2.2 n ≠ a2.2.2 n → a1.1 = true)

theorem flagOf_le (sc : SelectorContext)
    (a1 a2 : Bool × List SelectorContext × GroupFlags)
    (h2 : ∀ n, a2.2.2 n = true → a1.2.2 n = true)
    (hf2 : flagOf sc a2.2.2 = true) : flagOf sc a1.2.2 = true := by
  cases hlc : sc.listContext with
  | none => rw [flagOf, hlc] at hf2; exact absurd hf2 (by simp)
  | some g =>
    rw [flagOf, hlc] at hf2 ⊢
    exact h2 g hf2

theorem stepItem_cbRel (it : MatchItem)
    (a1 a2 : Bool × List SelectorContext × GroupFlags) (h : cbRel a1 a2) :
    cbRel (stepItem true a1 it) (stepItem false a2 it) := by
  obtain ⟨h1, h2, h3⟩ := h
  cases it with
  | resetI ids =>
    refine ⟨h1, ?_, ?_⟩
    · intro n hn
      show resetFlags ids a1.2.2 n = true
      rw [show (stepItem false a2 (.resetI ids)).2.2 n = resetFlags ids a2.2.2 n
        from rfl] at hn
      rw [resetFlags_apply] at hn ⊢
      split at hn
      · exact absurd hn (by simp)
      case isFalse hni =>
        rw [if_neg hni]
        exact h2 n hn
    · intro n hn
      show a1.1 = true
      rw [show (stepItem true a1 (.resetI ids)).2.2 n = resetFlags ids a1.2.2 n from rfl,
        show (stepItem false a2 (.resetI ids)).2.2 n = resetFlags ids a2.2.2 n from rfl,
        resetFlags_apply, resetFlags_apply] at hn
      by_cases hni : n ∈ ids
      · rw [if_pos hni, if_pos hni] at hn
        exact absurd rfl hn
      · rw [if_neg hni, if_neg hni] at hn
        exact h3 n hn
  | probe sc nr =>
    rw [stepItem_probe_nocb, stepItem_probe_expand]
    have hboole : (a1.1 || probeResult sc nr a1.2.2) =
        (a2.1 || probeResult sc nr a2.2.2) := by
      by_cases hfe : flagOf sc a1.2.2 = flagOf sc a2.2.2
      · rw [h1, probeResult, probeResult, hfe]
      · have hf2 : flagOf sc a2.2.2 = false := by
          cases hb2 : flagOf sc a2.2.2 with
          | false => rfl
          | true =>
            exfalso
            exact hfe ((flagOf_le sc a1 a2 h2 hb2).trans hb2.symm)
        have hf1 : flagOf sc a1.2.2 = true := by
          cases hb1 : flagOf sc a1.2.2 with
          | true => rfl
          | false => exact absurd (hb1.trans hf2.symm) hfe
        have hdiv : a1.1 = true := by
          cases hlc : sc.listContext with
          | none =>
            rw [flagOf, hlc] at hf1
            exact absurd hf1 (by simp)
          | some g =>
            rw [flagOf, hlc] at hf1 hf2
            dsimp only at hf1 hf2
            exact h3 g (by rw [hf1, hf2]; simp)
        rw [hdiv, ← h1, hdiv]
        simp
    refine ⟨hboole, ?_, ?_⟩
    · intro n hn
      dsimp only at hn ⊢
      split
      case isTrue hfire =>
        rw [probeSet]
        cases hlc : sc.listContext with
        | none => exact h2 n hn
        | some g =>
          dsimp only
          rw [setFlag_apply]
          by_cases hng : n = g
          · rw [if_pos hng]
          · rw [if_neg hng]
            exact h2 n hn
      case isFalse hfire => exact h2 n hn
    · intro n hn
      dsimp only at hn ⊢
      split at hn
      case isTrue hfire =>
        rw [hfire.1]
        simp
      case isFalse hfire =>
        rw [show (a1.1 || probeResult sc nr a1.2.2) = true ↔
          (a1.1 = true ∨ probeResult sc nr a1.2.2 = true) by simp]
        exact Or.inl (h3 n hn)

theorem runItems_cbRel (its : List MatchItem) :
    ∀ (a1 a2 : Bool × List SelectorContext × GroupFlags), cbRel a1 a2 →
      cbRel (runItems true its a1) (runItems false its a2) := by
  induction its with
  | nil => intro a1 a2 h; exact h
  | cons it rest ih =>
    intro a1 a2 h
    rw [runItems_cons, runItems_cons]
    exact ih _ _ (stepItem_cbRel it a1 a2 h)

/-- C8: the boolean returned by `match` is the same whether or not a
callback is supplied (the OR over all probes is callback-independent); a
negation-excluded entry contributes `false` from `finalize`, and an entry
whose shared group is already marked contributes `true` from `finalize`
without invoking the callback again. -/
theorem match_bool_callback_independent :
    (∀ (fuel : Nat) (m : SelectorMatcher) (q : CssSelector) (gs : GroupFlags) (cb : Bool),
      (matchF fuel m q cb gs).1 = (matchF fuel m q false gs).1) ∧
    (∀ (nm : List CssSelector → Bool) (cb : Bool) (sc : SelectorContext) (gs : GroupFlags),
      sc.selector.notSelectors.isEmpty = false →
      flagOf sc gs = false →
      nm sc.selector.notSelectors = true →
      finalizeF nm cb sc gs = (false, [], gs)) ∧
    (∀ (nm : List CssSelector → Bool) (cb : Bool) (sc : SelectorContext)
      (gs : GroupFlags) (g : Nat),
      sc.listContext = some g → gs g = true → finalizeF nm cb sc gs = (true, [], gs)) := by
  refine ⟨?_, ?_, ?_⟩
  · intro fuel m q gs cb
    cases cb with
    | false => rfl
    | true =>
      rw [matchF_eq_runItems, matchF_eq_runItems]
      exact (runItems_cbRel (itemsF fuel m q) (false, [], gs) (false, [], gs)
        ⟨rfl, fun n h => h, fun n h => absurd rfl h⟩).1
  · intro nm cb sc gs hne hfl hnm
    have hfl' : (match sc.listContext with | none => false | some g => gs g) = false := hfl
    simp [finalizeF, hne, hfl', hnm]
  · intro nm cb sc gs g hlc hg
    simp [finalizeF, hlc, hg]

theorem match_bool_callback_independent_witness :
    (matchF 7 inputNotDisabledM (CssSelector.mk (some "input") ["x"] [] []) true
        noFlags).1 =
      (matchF 7 inputNotDisabledM (CssSelector.mk (some "input") ["x"] [] []) false
        noFlags).1 ∧
    finalizeF (fun _ => true) true ⟨inputNotDisabledSel, none, none⟩ noFlags =
      (false, [], noFlags) ∧
    finalizeF (fun _ => true) true ⟨inputNotDisabledSel, none, some 0⟩
      (setFlag 0 true noFlags) = (true, [], setFlag 0 true noFlags) := by
  refine ⟨match_bool_callback_independent.1 7 inputNotDisabledM
    (CssSelector.mk (some "input") ["x"] [] []) noFlags true, ?_, ?_⟩
  · exact match_bool_callback_independent.2.1 (fun _ => true) true
      ⟨inputNotDisabledSel, none, none⟩ noFlags rfl rfl rfl
  · exact match_bool_callback_independent.2.2 (fun _ => true) true
      ⟨inputNotDisabledSel, none, some 0⟩ (setFlag 0 true noFlags) 0 rfl rfl

/-! ## Claim C9: purity of `match` up to the transient group flags

The embedding already makes the first half of the claim manifest: `matchF`
consumes and produces only the `GroupFlags` state, never a modified matcher.
The substantial half is the consequence: on a matcher built by a sequence of
`addSelectables` batches, every `alreadyMatched` flag a `match` call can
read belongs to one of the matcher's own list contexts, all of which the
call resets first, so the boolean result and the callback log do not depend
on the incoming flag state at all. -/

/-- The `SelectorContext` entries stored in the terminal maps of one matcher
level (element, class and attribute/value maps). -/
def termCtxs (m : SelectorMatcher) : List SelectorContext :=
  (m.elementMap.map (fun p => p.2)).flatten ++
  (m.classMap.map (fun p => p.2)).flatten ++
  (m.attrValueMap.map (fun p => (p.2.map (fun r => r.2)).flatten)).flatten

/-- The nested matchers stored in the partial maps of one matcher level. -/
def nestedMs (m : SelectorMatcher) : List SelectorMatcher :=
  m.elementPartialMap.map (fun p => p.2) ++
  m.classPartialMap.map (fun p => p.2) ++
  (m.attrValuePartialMap.map (fun p => p.2.map (fun r => r.2))).flatten

theorem mem_flatten_map_snd {α β : Type} (l : List (α × List β)) (x : β) :
    x ∈ (l.map (fun p => p.2)).flatten ↔ ∃ k v, (k, v) ∈ l ∧ x ∈ v := by
  constructor
  · intro hx
    rcases List.mem_flatten.mp hx with ⟨w, hw, hxw⟩
    rcases List.mem_map.mp hw with ⟨p, hp, he⟩
    refine ⟨p.1, p.2, by simpa using hp, ?_⟩
    rw [he]
    exact hxw
  · intro h
    rcases h with ⟨k, v, hkv, hxv⟩
    exact List.mem_flatten.mpr ⟨v, List.mem_map.mpr ⟨(k, v), hkv, rfl⟩, hxv⟩

theorem mem_map_snd {α β : Type} (l : List (α × β)) (x : β) :
    x ∈ l.map (fun p => p.2) ↔ ∃ k, (k, x) ∈ l := by
  constructor
  · intro hx
    rcases List.mem_map.mp hx with ⟨p, hp, he⟩
    refine ⟨p.1, ?_⟩
    rw [show (p.1, x) = p from by rw [← he]]
    exact hp
  · intro h
    rcases h with ⟨k, hk⟩
    exact List.mem_map.mpr ⟨(k, x), hk, rfl⟩

theorem mem_termCtxs (m : SelectorMatcher) (x : SelectorContext) :
    x ∈ termCtxs m ↔
      (∃ k v, (k, v) ∈ m.elementMap ∧ x ∈ v) ∨
      (∃ k v, (k, v) ∈ m.classMap ∧ x ∈ v) ∨
      (∃ a vm k v, (a, vm) ∈ m.attrValueMap ∧ (k, v) ∈ vm ∧ x ∈ v) := by
  rw [termCtxs]
  constructor
  · intro hx
    rcases List.mem_append.mp hx with hx | hx3
    · rcases List.mem_append.mp hx with hx1 | hx2
      · exact Or.inl ((mem_flatten_map_snd _ x).mp hx1)
      · exact Or.inr (Or.inl ((mem_flatten_map_snd _ x).mp hx2))
    · rcases List.mem_flatten.mp hx3 with ⟨w, hw, hxw⟩
      rcases List.mem_map.mp hw with ⟨p, hp, he⟩
      rw [← he] at hxw
      rcases (mem_flatten_map_snd p.2 x).mp hxw with ⟨k, v, hkv, hxv⟩
      exact Or.inr (Or.inr ⟨p.1, p.2, k, v,
        by rw [show (p.1, p.2) = p from rfl]; exact hp, hkv, hxv⟩)
  · rintro (⟨k, v, hkv, hxv⟩ | ⟨k, v, hkv, hxv⟩ | ⟨a, vm, k, v, havm, hkv, hxv⟩)
    · exact List.mem_append.mpr (Or.inl (List.mem_append.mpr (Or.inl
        ((mem_flatten_map_snd _ x).mpr ⟨k, v, hkv, hxv⟩))))
    · exact List.mem_append.mpr (Or.inl (List.mem_append.mpr (Or.inr
        ((mem_flatten_map_snd _ x).mpr ⟨k, v, hkv, hxv⟩))))
    · refine List.mem_append.mpr (Or.inr ?_)
      refine List.mem_flatten.mpr ⟨(vm.map (fun r => r.2)).flatten,
        List.mem_map.mpr ⟨(a, vm), havm, rfl⟩, ?_⟩
      exact (mem_flatten_map_snd vm x).mpr ⟨k, v, hkv, hxv⟩

theorem mem_nestedMs (m : SelectorMatcher) (x : SelectorMatcher) :
    x ∈ nestedMs m ↔
      (∃ k, (k, x) ∈ m.elementPartialMap) ∨
      (∃ k, (k, x) ∈ m.classPartialMap) ∨
      (∃ a vm k, (a, vm) ∈ m.attrValuePartialMap ∧ (k, x) ∈ vm) := by
  rw [nestedMs]
  constructor
  · intro hx
    rcases List.mem_append.mp hx with hx | hx3
    · rcases List.mem_append.mp hx with hx1 | hx2
      · exact Or.inl ((mem_map_snd _ x).mp hx1)
      · exact Or.inr (Or.inl ((mem_map_snd _ x).mp hx2))
    · rcases List.mem_flatten.mp hx3 with ⟨w, hw, hxw⟩
      rcases List.mem_map.mp hw with ⟨p, hp, he⟩
      rw [← he] at hxw
      rcases (mem_map_snd p.2 x).mp hxw with ⟨k, hk⟩
      exact Or.inr (Or.inr ⟨p.1, p.2, k,
        by rw [show (p.1, p.2) = p from rfl]; exact hp, hk⟩)
  · rintro (⟨k, hk⟩ | ⟨k, hk⟩ | ⟨a, vm, k, havm, hkv⟩)
    · exact List.mem_append.mpr (Or.inl (List.mem_append.mpr (Or.inl
        ((mem_map_snd _ x).mpr ⟨k, hk⟩))))
    · exact List.mem_append.mpr (Or.inl (List.mem_append.mpr (Or.inr
        ((mem_map_snd _ x).mpr ⟨k, hk⟩))))
    · refine List.mem_append.mpr (Or.inr ?_)
      refine List.mem_flatten.mpr ⟨vm.map (fun r => r.2),
        List.mem_map.mpr ⟨(a, vm), havm, rfl⟩, ?_⟩
      exact (mem_map_snd vm x).mpr ⟨k, hkv⟩

/-- Every stored entry's shared list context, at every nesting depth, is one
of the group ids in `L`. -/
inductive MScoped (L : List Nat) : SelectorMatcher → Prop where
  | intro (m : SelectorMatcher)
      (hterm : ∀ sc ∈ termCtxs m, ∀ g, sc.listContext = some g → g ∈ L)
      (hnest : ∀ n ∈ nestedMs m, MScoped L n) : MScoped L m

theorem MScoped.term {L : List Nat} {m : SelectorMatcher} (h : MScoped L m) :
    ∀ sc ∈ termCtxs m, ∀ g, sc.listContext = some g → g ∈ L := by
  cases h with
  | intro _ ht hn => exact ht

theorem MScoped.nest {L : List Nat} {m : SelectorMatcher} (h : MScoped L m) :
    ∀ n ∈ nestedMs m, MScoped L n := by
  cases h with
  | intro _ ht hn => exact hn

theorem MScoped_mono (L L' : List Nat) (hsub : ∀ i ∈ L, i ∈ L') :
    ∀ m, MScoped L m → MScoped L' m := by
  intro m hm
  induction hm with
  | intro m ht hn ih =>
    exact ⟨m, fun sc hsc g hg => hsub g (ht sc hsc g hg), fun n hn' => ih n hn'⟩

theorem termCtxs_emptyM : termCtxs SelectorMatcher.emptyM = [] := rfl

theorem nestedMs_emptyM : nestedMs SelectorMatcher.emptyM = [] := rfl

theorem MScoped_empty (L : List Nat) : MScoped L SelectorMatcher.emptyM :=
  ⟨_, by rw [termCtxs_emptyM]; intro sc hsc; exact absurd hsc (List.not_mem_nil sc),
      by rw [nestedMs_emptyM]; intro n hn; exact absurd hn (List.not_mem_nil n)⟩

theorem mem_alSet {α : Type} (k : String) (v : α) :
    ∀ (al : List (String × α)) (p : String × α), p ∈ alSet al k v →
      p = (k, v) ∨ p ∈ al := by
  intro al
  induction al with
  | nil =>
    intro p hp
    rw [alSet] at hp
    exact Or.inl (List.mem_singleton.mp hp)
  | cons q rest ih =>
    intro p hp
    rw [alSet] at hp
    split at hp
    · rcases List.mem_cons.mp hp with h | h
      · exact Or.inl h
      · exact Or.inr (List.mem_cons_of_mem q h)
    · rcases List.mem_cons.mp hp with h | h
      · exact Or.inr (h ▸ List.mem_cons_self q rest)
      · rcases ih p h with h' | h'
        · exact Or.inl h'
        · exact Or.inr (List.mem_cons_of_mem q h')

theorem alGet_some_mem {α : Type} (k : String) :
    ∀ (al : List (String × α)) (v : α), alGet al k = some v → ∃ kk, (kk, v) ∈ al := by
  intro al
  induction al with
  | nil => intro v hv; exact absurd hv (by simp [alGet])
  | cons q rest ih =>
    intro v hv
    by_cases hq : (q.1 == k) = true
    · have he : alGet (q :: rest) k = some q.2 := by
        simp [alGet, List.find?, hq]
      rw [he] at hv
      injection hv with h
      refine ⟨q.1, ?_⟩
      rw [← h, show (q.1, q.2) = q from rfl]
      exact List.mem_cons_self q rest
    · have he : alGet (q :: rest) k = alGet rest k := by
        simp [alGet, List.find?, hq]
      rw [he] at hv
      rcases ih v hv with ⟨kk, hm⟩
      exact ⟨kk, List.mem_cons_of_mem q hm⟩

theorem mem_alGet_getD {α : Type} (map : List (String × List α)) (k : String) (x : α)
    (hx : x ∈ (alGet map k).getD []) : ∃ kk v, (kk, v) ∈ map ∧ x ∈ v := by
  cases hg : alGet map k with
  | none =>
    rw [hg] at hx
    exact absurd hx (List.not_mem_nil x)
  | some v =>
    rw [hg] at hx
    rcases alGet_some_mem k map v hg with ⟨kk, hm⟩
    exact ⟨kk, v, hm, hx⟩

/-- A trace item cannot touch a group outside `L`: resets are always
harmless, probes only consult a listed group. -/
def itemOK (L : List Nat) : MatchItem → Prop
  | .resetI _ => True
  | .probe sc _ => ∀ g, sc.listContext = some g → g ∈ L

theorem itemsTerminal_scoped (L : List Nat) (nm : List CssSelector → Bool)
    (mapO : Option (List (String × List SelectorContext))) (nameO : Option String)
    (hm : ∀ map, mapO = some map → ∀ kk v, (kk, v) ∈ map → ∀ sc ∈ v,
      ∀ g, sc.listContext = some g → g ∈ L) :
    ∀ it ∈ itemsTerminal nm mapO nameO, itemOK L it := by
  intro it hit
  match mapO, nameO with
  | none, _ => exact absurd hit (List.not_mem_nil it)
  | some map, none => exact absurd hit (List.not_mem_nil it)
  | some map, some name =>
    rw [itemsTerminal] at hit
    rcases List.mem_map.mp hit with ⟨sc, hsc, he⟩
    rw [← he]
    intro g hg
    rcases List.mem_append.mp hsc with h | h
    · rcases mem_alGet_getD map name sc h with ⟨kk, v, hkv, hxv⟩
      exact hm map rfl kk v hkv sc hxv g hg
    · rcases mem_alGet_getD map "*" sc h with ⟨kk, v, hkv, hxv⟩
      exact hm map rfl kk v hkv sc hxv g hg

theorem itemsPartialF_scoped (L : List Nat) (n : Nat) (q : CssSelector)
    (mapO : Option (List (String × SelectorMatcher))) (nameO : Option String)
    (hm : ∀ map, mapO = some map → ∀ kk nested, (kk, nested) ∈ map → MScoped L nested)
    (ih : ∀ m', MScoped L m' → ∀ it ∈ itemsF n m' q, itemOK L it) :
    ∀ it ∈ itemsPartialF n q mapO nameO, itemOK L it := by
  intro it hit
  match mapO, nameO with
  | none, _ => exact absurd hit (List.not_mem_nil it)
  | some map, none => exact absurd hit (List.not_mem_nil it)
  | some map, some name =>
    rw [itemsPartialF] at hit
    cases hg : alGet map name with
    | none =>
      rw [hg] at hit
      exact absurd hit (List.not_mem_nil it)
    | some nested =>
      rw [hg] at hit
      rcases alGet_some_mem name map nested hg with ⟨kk, hmem⟩
      exact ih nested (hm map rfl kk nested hmem) it hit

theorem itemsF_scoped (L : List Nat) : ∀ (fuel : Nat) (m : SelectorMatcher)
    (q : CssSelector), MScoped L m → ∀ it ∈ itemsF fuel m q, itemOK L it := by
  intro fuel
  induction fuel with
  | zero =>
    intro m q hm it hit
    exact absurd hit (List.not_mem_nil it)
  | succ n ih =>
    intro m q hm it hit
    rw [itemsF_succ] at hit
    rcases List.mem_cons.mp hit with he | hit
    · rw [he]
      exact trivial
    · rcases List.mem_append.mp hit with hit | hitD
      · rcases List.mem_append.mp hit with hit | hitC
        · rcases List.mem_append.mp hit with hitA | hitB
          · refine itemsTerminal_scoped L _ (some m.elementMap) q.element ?_ it hitA
            intro map hmap kk v hkv sc hsc g hg
            injection hmap with hmap
            rw [← hmap] at hkv
            exact hm.term sc ((mem_termCtxs m sc).mpr (Or.inl ⟨kk, v, hkv, hsc⟩)) g hg
          · refine itemsPartialF_scoped L n q (some m.elementPartialMap) q.element ?_
              (fun m' hm' => ih m' q hm') it hitB
            intro map hmap kk nested hkv
            injection hmap with hmap
            rw [← hmap] at hkv
            exact hm.nest nested ((mem_nestedMs m nested).mpr (Or.inl ⟨kk, hkv⟩))
        · rcases List.mem_flatten.mp hitC with ⟨w, hw, hitw⟩
          rcases List.mem_map.mp hw with ⟨cn, hcn, he⟩
          rw [← he] at hitw
          rcases List.mem_append.mp hitw with hitT | hitP
          · refine itemsTerminal_scoped L _ (some m.classMap) (some cn) ?_ it hitT
            intro map hmap kk v hkv sc hsc g hg
            injection hmap with hmap
            rw [← hmap] at hkv
            exact hm.term sc ((mem_termCtxs m sc).mpr (Or.inr (Or.inl ⟨kk, v, hkv, hsc⟩))) g hg
          · refine itemsPartialF_scoped L n q (some m.classPartialMap) (some cn) ?_
              (fun m' hm' => ih m' q hm') it hitP
            intro map hmap kk nested hkv
            injection hmap with hmap
            rw [← hmap] at hkv
            exact hm.nest nested ((mem_nestedMs m nested).mpr (Or.inr (Or.inl ⟨kk, hkv⟩)))
      · rcases List.mem_flatten.mp hitD with ⟨w, hw, hitw⟩
        rcases List.mem_map.mp hw with ⟨p, hp, he⟩
        rw [← he] at hitw
        have hTm : ∀ (nameO : Option String),
            ∀ it ∈ itemsTerminal (fun ns => (matchF n (createNotMatcher ns) q false noFlags).1)
              (alGet m.attrValueMap p.1) nameO, itemOK L it := by
          intro nameO
          refine itemsTerminal_scoped L _ (alGet m.attrValueMap p.1) nameO ?_
          intro map hmap kk v hkv sc hsc g hg
          rcases alGet_some_mem p.1 m.attrValueMap map hmap with ⟨a, hamem⟩
          exact hm.term sc
            ((mem_termCtxs m sc).mpr (Or.inr (Or.inr ⟨a, map, kk, v, hamem, hkv, hsc⟩))) g hg
        have hPm : ∀ (nameO : Option String),
            ∀ it ∈ itemsPartialF n q (alGet m.attrValuePartialMap p.1) nameO, itemOK L it := by
          intro nameO
          refine itemsPartialF_scoped L n q (alGet m.attrValuePartialMap p.1) nameO ?_
            (fun m' hm' => ih m' q hm')
          intro map hmap kk nested hkv
          rcases alGet_some_mem p.1 m.attrValuePartialMap map hmap with ⟨a, hamem⟩
          exact hm.nest nested
            ((mem_nestedMs m nested).mpr (Or.inr (Or.inr ⟨a, map, kk, hamem, hkv⟩)))
        rcases List.mem_append.mp hitw with hitw | hit4
        · rcases List.mem_append.mp hitw with hitw | hit3
          · rcases List.mem_append.mp hitw with hit1 | hit2
            · by_cases hp2 : p.2 = ""
              · rw [if_neg (by simp [hp2])] at hit1
                exact absurd hit1 (List.not_mem_nil it)
              · rw [if_pos hp2] at hit1
                exact hTm (some "") it hit1
            · exact hTm (some p.2) it hit2
          · by_cases hp2 : p.2 = ""
            · rw [if_neg (by simp [hp2])] at hit3
              exact absurd hit3 (List.not_mem_nil it)
            · rw [if_pos hp2] at hit3
              exact hPm (some "") it hit3
        · exact hPm (some p.2) it hit4

def agreeOn (L : List Nat) (g1 g2 : GroupFlags) : Prop := ∀ i ∈ L, g1 i = g2 i

/-- Replaying one in-scope item from states that agree on `L` produces the
same boolean and log contribution and preserves the agreement. -/
theorem stepItem_agree (L : List Nat) (cb : Bool) (it : MatchItem) (hit : itemOK L it)
    (acc1 acc2 : Bool × List SelectorContext × GroupFlags)
    (hb : acc1.1 = acc2.1) (hl : acc1.2.1 = acc2.2.1)
    (hg : agreeOn L acc1.2.2 acc2.2.2) :
    (stepItem cb acc1 it).1 = (stepItem cb acc2 it).1 ∧
    (stepItem cb acc1 it).2.1 = (stepItem cb acc2 it).2.1 ∧
    agreeOn L (stepItem cb acc1 it).2.2 (stepItem cb acc2 it).2.2 := by
  cases it with
  | resetI ids =>
    refine ⟨hb, hl, ?_⟩
    intro i hi
    show resetFlags ids acc1.2.2 i = resetFlags ids acc2.2.2 i
    rw [resetFlags_apply, resetFlags_apply]
    by_cases hm : i ∈ ids
    · simp [hm]
    · simp [hm, hg i hi]
  | probe sc nr =>
    cases hlc : sc.listContext with
    | none =>
      simp only [stepItem, hlc]
      split_ifs <;> exact ⟨by simp [hb], by simp [hl], fun i hi => hg i hi⟩
    | some g =>
      have hgg : acc1.2.2 g = acc2.2.2 g := hg g (hit g hlc)
      simp only [stepItem, hlc]
      rw [hgg]
      split_ifs <;>
        refine ⟨by simp [hb], by simp [hl], ?_⟩ <;>
        intro i hi <;>
        first
        | exact hg i hi
        | (simp only [setFlag_apply]
           by_cases hig : i = g <;> simp [hig, hg i hi])

theorem runItems_agree (L : List Nat) (cb : Bool) :
    ∀ (its : List MatchItem), (∀ it ∈ its, itemOK L it) →
    ∀ (acc1 acc2 : Bool × List SelectorContext × GroupFlags),
      acc1.1 = acc2.1 → acc1.2.1 = acc2.2.1 → agreeOn L acc1.2.2 acc2.2.2 →
      (runItems cb its acc1).1 = (runItems cb its acc2).1 ∧
      (runItems cb its acc1).2.1 = (runItems cb its acc2).2.1 ∧
      agreeOn L (runItems cb its acc1).2.2 (runItems cb its acc2).2.2 := by
  intro its
  induction its with
  | nil => intro _ acc1 acc2 hb hl hg; exact ⟨hb, hl, hg⟩
  | cons it rest ih =>
    intro hits acc1 acc2 hb hl hg
    rw [runItems_cons, runItems_cons]
    obtain ⟨h1, h2, h3⟩ :=
      stepItem_agree L cb it (hits it (List.mem_cons_self it rest)) acc1 acc2 hb hl hg
    exact ih (fun x hx => hits x (List.mem_cons_of_mem it hx)) _ _ h1 h2 h3

/-- A replay that starts by resetting exactly the groups its probes may
consult has state-independent boolean result and log. -/
theorem runItems_resetHead (L : List Nat) (cb : Bool) (T : List MatchItem)
    (hT : ∀ it ∈ T, itemOK L it) (gs gs' : GroupFlags) :
    (runItems cb (.resetI L :: T) (false, [], gs)).1 =
      (runItems cb (.resetI L :: T) (false, [], gs')).1 ∧
    (runItems cb (.resetI L :: T) (false, [], gs)).2.1 =
      (runItems cb (.resetI L :: T) (false, [], gs')).2.1 := by
  rw [runItems_cons, runItems_cons]
  have hagree : agreeOn L (resetFlags L gs) (resetFlags L gs') := by
    intro i hi
    rw [resetFlags_apply, resetFlags_apply]
    simp [hi]
  obtain ⟨h1, h2, h3⟩ := runItems_agree L cb T hT
    (false, [], resetFlags L gs) (false, [], resetFlags L gs') rfl rfl hagree
  exact ⟨h1, h2⟩

/-- On a matcher whose stored entries are scoped by its own list contexts,
`match` does not depend on the incoming flag state at all. -/
theorem matchF_state_independent (m : SelectorMatcher)
    (hm : MScoped m.listContexts m) (fuel : Nat) (hf : 1 ≤ fuel)
    (q : CssSelector) (cb : Bool) (gs gs' : GroupFlags) :
    (matchF fuel m q cb gs).1 = (matchF fuel m q cb gs').1 ∧
    (matchF fuel m q cb gs).2.1 = (matchF fuel m q cb gs').2.1 := by
  obtain ⟨n, rfl⟩ : ∃ n, fuel = n + 1 := ⟨fuel - 1, by omega⟩
  obtain ⟨T, hT⟩ : ∃ T, itemsF (n + 1) m q = .resetI m.listContexts :: T :=
    ⟨_, itemsF_succ n m q⟩
  rw [matchF_eq_runItems, matchF_eq_runItems, hT]
  refine runItems_resetHead m.listContexts cb T ?_ gs gs'
  intro it hit
  exact itemsF_scoped m.listContexts (n + 1) m q hm it
    (by rw [hT]; exact List.mem_cons_of_mem _ hit)

theorem addTerminalC_scoped (L : List Nat) (m : SelectorMatcher) (c : SelConstraint)
    (sc : SelectorContext) (hm : MScoped L m)
    (hsc : ∀ g, sc.listContext = some g → g ∈ L) :
    MScoped L (addTerminalC m c sc) := by
  cases m with
  | mk em ep cm cp am avp lcs =>
    cases c with
    | elemC e =>
      refine ⟨_, ?_, ?_⟩
      · intro x hx g hgx
        rcases (mem_termCtxs _ x).mp hx with ⟨k, w, hkw, hxw⟩ | h | h
        · have hkw' : (k, w) ∈ alSet em e ((alGet em e).getD [] ++ [sc]) := hkw
          rcases mem_alSet e ((alGet em e).getD [] ++ [sc]) em (k, w) hkw' with he | hin
          · have hw : w = (alGet em e).getD [] ++ [sc] := congrArg Prod.snd he
            rw [hw] at hxw
            rcases List.mem_append.mp hxw with hxo | hxs
            · rcases mem_alGet_getD em e x hxo with ⟨k2, w2, hk2, hx2⟩
              exact hm.term x ((mem_termCtxs (.mk em ep cm cp am avp lcs) x).mpr
                (Or.inl ⟨k2, w2, hk2, hx2⟩)) g hgx
            · rw [List.mem_singleton.mp hxs] at hgx
              exact hsc g hgx
          · exact hm.term x ((mem_termCtxs (.mk em ep cm cp am avp lcs) x).mpr
              (Or.inl ⟨k, w, hin, hxw⟩)) g hgx
        · exact hm.term x ((mem_termCtxs (.mk em ep cm cp am avp lcs) x).mpr
            (Or.inr (Or.inl h))) g hgx
        · exact hm.term x ((mem_termCtxs (.mk em ep cm cp am avp lcs) x).mpr
            (Or.inr (Or.inr h))) g hgx
      · intro nmat hnm
        exact hm.nest nmat hnm
    | classC s =>
      refine ⟨_, ?_, ?_⟩
      · intro x hx g hgx
        rcases (mem_termCtxs _ x).mp hx with h | ⟨k, w, hkw, hxw⟩ | h
        · exact hm.term x ((mem_termCtxs (.mk em ep cm cp am avp lcs) x).mpr (Or.inl h)) g hgx
        · have hkw' : (k, w) ∈ alSet cm s ((alGet cm s).getD [] ++ [sc]) := hkw
          rcases mem_alSet s ((alGet cm s).getD [] ++ [sc]) cm (k, w) hkw' with he | hin
          · have hw : w = (alGet cm s).getD [] ++ [sc] := congrArg Prod.snd he
            rw [hw] at hxw
            rcases List.mem_append.mp hxw with hxo | hxs
            · rcases mem_alGet_getD cm s x hxo with ⟨k2, w2, hk2, hx2⟩
              exact hm.term x ((mem_termCtxs (.mk em ep cm cp am avp lcs) x).mpr
                (Or.inr (Or.inl ⟨k2, w2, hk2, hx2⟩))) g hgx
            · rw [List.mem_singleton.mp hxs] at hgx
              exact hsc g hgx
          · exact hm.term x ((mem_termCtxs (.mk em ep cm cp am avp lcs) x).mpr
              (Or.inr (Or.inl ⟨k, w, hin, hxw⟩))) g hgx
        · exact hm.term x ((mem_termCtxs (.mk em ep cm cp am avp lcs) x).mpr
            (Or.inr (Or.inr h))) g hgx
      · intro nmat hnm
        exact hm.nest nmat hnm
    | attrC nme vl =>
      refine ⟨_, ?_, ?_⟩
      · intro x hx g hgx
        rcases (mem_termCtxs _ x).mp hx with h | h | ⟨a, wm, k, w, hawm, hkw, hxw⟩
        · exact hm.term x ((mem_termCtxs (.mk em ep cm cp am avp lcs) x).mpr (Or.inl h)) g hgx
        · exact hm.term x ((mem_termCtxs (.mk em ep cm cp am avp lcs) x).mpr
            (Or.inr (Or.inl h))) g hgx
        · have hawm' : (a, wm) ∈ alSet am nme (alSet ((alGet am nme).getD []) vl
              ((alGet ((alGet am nme).getD []) vl).getD [] ++ [sc])) := hawm
          rcases mem_alSet nme _ am (a, wm) hawm' with he | hin
          · have hwm : wm = alSet ((alGet am nme).getD []) vl
                ((alGet ((alGet am nme).getD []) vl).getD [] ++ [sc]) :=
              congrArg Prod.snd he
            rw [hwm] at hkw
            rcases mem_alSet vl _ ((alGet am nme).getD []) (k, w) hkw with he2 | hin2
            · have hw : w = (alGet ((alGet am nme).getD []) vl).getD [] ++ [sc] :=
                congrArg Prod.snd he2
              rw [hw] at hxw
              rcases List.mem_append.mp hxw with hxo | hxs
              · rcases mem_alGet_getD ((alGet am nme).getD []) vl x hxo with ⟨k2, w2, hk2, hx2⟩
                cases hvm : alGet am nme with
                | none =>
                  rw [hvm] at hk2
                  exact absurd hk2 (List.not_mem_nil _)
                | some vmv =>
                  rw [hvm] at hk2
                  rcases alGet_some_mem nme am vmv hvm with ⟨a2, ha2⟩
                  exact hm.term x ((mem_termCtxs (.mk em ep cm cp am avp lcs) x).mpr
                    (Or.inr (Or.inr ⟨a2, vmv, k2, w2, ha2, hk2, hx2⟩))) g hgx
              · rw [List.mem_singleton.mp hxs] at hgx
                exact hsc g hgx
            · cases hvm : alGet am nme with
              | none =>
                rw [hvm] at hin2
                exact absurd hin2 (List.not_mem_nil _)
              | some vmv =>
                rw [hvm] at hin2
                rcases alGet_some_mem nme am vmv hvm with ⟨a2, ha2⟩
                exact hm.term x ((mem_termCtxs (.mk em ep cm cp am avp lcs) x).mpr
                  (Or.inr (Or.inr ⟨a2, vmv, k, w, ha2, hin2, hxw⟩))) g hgx
          · exact hm.term x ((mem_termCtxs (.mk em ep cm cp am avp lcs) x).mpr
              (Or.inr (Or.inr ⟨a, wm, k, w, hin, hkw, hxw⟩))) g hgx
      · intro nmat hnm
        exact hm.nest nmat hnm

theorem insertSelectable_listContexts (sc : SelectorContext) :
    ∀ (cs : List SelConstraint) (m : SelectorMatcher),
      (insertSelectable m cs sc).listContexts = m.listContexts := by
  intro cs
  induction cs with
  | nil =>
    intro m
    cases m with
    | mk em ep cm cp am avp lcs => rfl
  | cons c rest ih =>
    intro m
    cases rest with
    | nil =>
      cases m with
      | mk em ep cm cp am avp lcs => cases c <;> rfl
    | cons c2 cs2 =>
      cases m with
      | mk em ep cm cp am avp lcs => cases c <;> rfl

theorem insertSelectable_scoped (L : List Nat) (sc : SelectorContext)
    (hsc : ∀ g, sc.listContext = some g → g ∈ L) :
    ∀ (cs : List SelConstraint) (m : SelectorMatcher), MScoped L m →
      MScoped L (insertSelectable m cs sc) := by
  intro cs
  induction cs with
  | nil =>
    intro m hm
    cases m with
    | mk em ep cm cp am avp lcs => exact hm
  | cons c rest ih =>
    intro m hm
    cases rest with
    | nil =>
      cases m with
      | mk em ep cm cp am avp lcs =>
        cases c with
        | elemC e =>
          exact addTerminalC_scoped L (.mk em ep cm cp am avp lcs) (.elemC e) sc hm hsc
        | classC s =>
          exact addTerminalC_scoped L (.mk em ep cm cp am avp lcs) (.classC s) sc hm hsc
        | attrC nme vl =>
          exact addTerminalC_scoped L (.mk em ep cm cp am avp lcs) (.attrC nme vl) sc hm hsc
    | cons c2 cs2 =>
      cases m with
      | mk em ep cm cp am avp lcs =>
        cases c with
        | elemC e =>
          refine ⟨_, ?_, ?_⟩
          · intro x hx g hgx
            exact hm.term x hx g hgx
          · intro nmat hnm
            rcases (mem_nestedMs _ nmat).mp hnm with ⟨k, hk⟩ | h | h
            · have hk' : (k, nmat) ∈ alSet ep e (insertSelectable
                  ((alGet ep e).getD SelectorMatcher.emptyM) (c2 :: cs2) sc) := hk
              rcases mem_alSet e _ ep (k, nmat) hk' with he | hin
              · have hnmat : nmat = insertSelectable
                    ((alGet ep e).getD SelectorMatcher.emptyM) (c2 :: cs2) sc :=
                  congrArg Prod.snd he
                rw [hnmat]
                refine ih _ ?_
                cases hvm : alGet ep e with
                | none => exact MScoped_empty L
                | some n2 =>
                  rcases alGet_some_mem e ep n2 hvm with ⟨kk, hkk⟩
                  exact hm.nest n2
                    ((mem_nestedMs (.mk em ep cm cp am avp lcs) n2).mpr (Or.inl ⟨kk, hkk⟩))
              · exact hm.nest nmat
                  ((mem_nestedMs (.mk em ep cm cp am avp lcs) nmat).mpr (Or.inl ⟨k, hin⟩))
            · exact hm.nest nmat
                ((mem_nestedMs (.mk em ep cm cp am avp lcs) nmat).mpr (Or.inr (Or.inl h)))
            · exact hm.nest nmat
                ((mem_nestedMs (.mk em ep cm cp am avp lcs) nmat).mpr (Or.inr (Or.inr h)))
        | classC s =>
          refine ⟨_, ?_, ?_⟩
          · intro x hx g hgx
            exact hm.term x hx g hgx
          · intro nmat hnm
            rcases (mem_nestedMs _ nmat).mp hnm with h | ⟨k, hk⟩ | h
            · exact hm.nest nmat
                ((mem_nestedMs (.mk em ep cm cp am avp lcs) nmat).mpr (Or.inl h))
            · have hk' : (k, nmat) ∈ alSet cp s (insertSelectable
                  ((alGet cp s).getD SelectorMatcher.emptyM) (c2 :: cs2) sc) := hk
              rcases mem_alSet s _ cp (k, nmat) hk' with he | hin
              · have hnmat : nmat = insertSelectable
                    ((alGet cp s).getD SelectorMatcher.emptyM) (c2 :: cs2) sc :=
                  congrArg Prod.snd he
                rw [hnmat]
                refine ih _ ?_
                cases hvm : alGet cp s with
                | none => exact MScoped_empty L
                | some n2 =>
                  rcases alGet_some_mem s cp n2 hvm with ⟨kk, hkk⟩
                  exact hm.nest n2 ((mem_nestedMs (.mk em ep cm cp am avp lcs) n2).mpr
                    (Or.inr (Or.inl ⟨kk, hkk⟩)))
              · exact hm.nest nmat ((mem_nestedMs (.mk em ep cm cp am avp lcs) nmat).mpr
                  (Or.inr (Or.inl ⟨k, hin⟩)))
            · exact hm.nest nmat
                ((mem_nestedMs (.mk em ep cm cp am avp lcs) nmat).mpr (Or.inr (Or.inr h)))
        | attrC nme vl =>
          refine ⟨_, ?_, ?_⟩
          · intro x hx g hgx
            exact hm.term x hx g hgx
          · intro nmat hnm
            rcases (mem_nestedMs _ nmat).mp hnm with h | h | ⟨a, wm, k, hawm, hkw⟩
            · exact hm.nest nmat
                ((mem_nestedMs (.mk em ep cm cp am avp lcs) nmat).mpr (Or.inl h))
            · exact hm.nest nmat
                ((mem_nestedMs (.mk em ep cm cp am avp lcs) nmat).mpr (Or.inr (Or.inl h)))
            · have hawm' : (a, wm) ∈ alSet avp nme (alSet ((alGet avp nme).getD []) vl
                  (insertSelectable ((alGet ((alGet avp nme).getD []) vl).getD
                    SelectorMatcher.emptyM) (c2 :: cs2) sc)) := hawm
              rcases mem_alSet nme _ avp (a, wm) hawm' with he | hin
              · have hwm : wm = alSet ((alGet avp nme).getD []) vl
                    (insertSelectable ((alGet ((alGet avp nme).getD []) vl).getD
                      SelectorMatcher.emptyM) (c2 :: cs2) sc) :=
                  congrArg Prod.snd he
                rw [hwm] at hkw
                rcases mem_alSet vl _ ((alGet avp nme).getD []) (k, nmat) hkw with he2 | hin2
                · have hnmat : nmat = insertSelectable
                      ((alGet ((alGet avp nme).getD []) vl).getD SelectorMatcher.emptyM)
                      (c2 :: cs2) sc :=
                    congrArg Prod.snd he2
                  rw [hnmat]
                  refine ih _ ?_
                  cases hvv : alGet ((alGet avp nme).getD []) vl with
                  | none => exact MScoped_empty L
                  | some n2 =>
                    rcases alGet_some_mem vl ((alGet avp nme).getD []) n2 hvv with ⟨kk, hkk⟩
                    cases hvm : alGet avp nme with
                    | none =>
                      rw [hvm] at hkk
                      exact absurd hkk (List.not_mem_nil _)
                    | some vmv =>
                      rw [hvm] at hkk
                      rcases alGet_some_mem nme avp vmv hvm with ⟨a2, ha2⟩
                      exact hm.nest n2 ((mem_nestedMs (.mk em ep cm cp am avp lcs) n2).mpr
                        (Or.inr (Or.inr ⟨a2, vmv, kk, ha2, hkk⟩)))
                · cases hvm : alGet avp nme with
                  | none =>
                    rw [hvm] at hin2
                    exact absurd hin2 (List.not_mem_nil _)
                  | some vmv =>
                    rw [hvm] at hin2
                    rcases alGet_some_mem nme avp vmv hvm with ⟨a2, ha2⟩
                    exact hm.nest nmat ((mem_nestedMs (.mk em ep cm cp am avp lcs) nmat).mpr
                      (Or.inr (Or.inr ⟨a2, vmv, k, ha2, hin2⟩)))
              · exact hm.nest nmat ((mem_nestedMs (.mk em ep cm cp am avp lcs) nmat).mpr
                  (Or.inr (Or.inr ⟨a, wm, k, hin, hkw⟩)))

theorem foldl_addSelectable_scoped (cbCtx : Option Nat) (lc : Option Nat) (L : List Nat)
    (hlc : ∀ g, lc = some g → g ∈ L) :
    ∀ (sels : List CssSelector) (m : SelectorMatcher), MScoped L m →
      MScoped L (sels.foldl (fun acc s => addSelectable acc s cbCtx lc) m) ∧
      (sels.foldl (fun acc s => addSelectable acc s cbCtx lc) m).listContexts =
        m.listContexts := by
  intro sels
  induction sels with
  | nil => intro m hm; exact ⟨hm, rfl⟩
  | cons s rest ih =>
    intro m hm
    obtain ⟨h1, h2⟩ := ih (addSelectable m s cbCtx lc)
      (insertSelectable_scoped L ⟨s, cbCtx, lc⟩ hlc (constraintsOf s) m hm)
    refine ⟨h1, ?_⟩
    rw [List.foldl_cons, h2]
    exact insertSelectable_listContexts ⟨s, cbCtx, lc⟩ (constraintsOf s) m

theorem pushListContext_listContexts (m : SelectorMatcher) (g : Nat) :
    (m.pushListContext g).listContexts = m.listContexts ++ [g] := by
  cases m with
  | mk em ep cm cp am avp lcs => rfl

theorem pushListContext_scoped (L : List Nat) (m : SelectorMatcher) (g : Nat)
    (hm : MScoped L m) : MScoped L (m.pushListContext g) := by
  cases m with
  | mk em ep cm cp am avp lcs =>
    cases hm with
    | intro _ ht hn => exact ⟨_, ht, hn⟩

/-- `addSelectables` keeps the matcher scoped by its own list contexts: a
batch of more than one selector pushes the fresh group id before tagging the
batch's entries with it. -/
theorem addSelectables_scoped (m : SelectorMatcher) (sels : List CssSelector)
    (cbCtx : Option Nat) (hm : MScoped m.listContexts m) :
    MScoped (addSelectables m sels cbCtx).listContexts (addSelectables m sels cbCtx) := by
  rw [addSelectables]
  split
  · have hpush := pushListContext_listContexts m m.listContexts.length
    have hmono := MScoped_mono m.listContexts (m.listContexts ++ [m.listContexts.length])
      (fun i hi => List.mem_append.mpr (Or.inl hi)) m hm
    have hscoped : MScoped (m.listContexts ++ [m.listContexts.length])
        (m.pushListContext m.listContexts.length) :=
      pushListContext_scoped _ m m.listContexts.length hmono
    obtain ⟨h1, h2⟩ := foldl_addSelectable_scoped cbCtx (some m.listContexts.length)
      (m.listContexts ++ [m.listContexts.length])
      (fun g hg => by
        injection hg with h
        rw [← h]
        exact List.mem_append.mpr (Or.inr (List.mem_singleton.mpr rfl)))
      sels (m.pushListContext m.listContexts.length) hscoped
    rw [h2, hpush]
    exact h1
  · obtain ⟨h1, h2⟩ := foldl_addSelectable_scoped cbCtx none m.listContexts
      (fun g hg => Option.noConfusion hg) sels m hm
    rw [h2]
    exact h1

/-- A matcher built from scratch by a sequence of `addSelectables` calls
(each batch with its callback context). -/
def buildMatcher (batches : List (List CssSelector × Option Nat)) : SelectorMatcher :=
  batches.foldl (fun acc b => addSelectables acc b.1 b.2) SelectorMatcher.emptyM

theorem buildMatcher_scoped (bs : List (List CssSelector × Option Nat)) :
    MScoped (buildMatcher bs).listContexts (buildMatcher bs) := by
  rw [buildMatcher]
  have hfold : ∀ (l : List (List CssSelector × Option Nat)) (m : SelectorMatcher),
      MScoped m.listContexts m →
      MScoped ((l.foldl (fun acc b => addSelectables acc b.1 b.2) m).listContexts)
        (l.foldl (fun acc b => addSelectables acc b.1 b.2) m) := by
    intro l
    induction l with
    | nil => intro m hm; exact hm
    | cons b rest ih =>
      intro m hm
      rw [List.foldl_cons]
      exact ih (addSelectables m b.1 b.2) (addSelectables_scoped m b.1 b.2 hm)
  exact hfold bs SelectorMatcher.emptyM (MScoped_empty _)

/-- C9: a top-level `match` touches no state but the `alreadyMatched` flags
(the embedding threads exactly that state and returns the matcher
unchanged); the call acts on the flag state only through the initial reset
of the matcher's own list contexts; and consequently, on a matcher built by
any sequence of `addSelectables` batches, a `match(q2)` performed after a
`match(q1)` returns the same boolean and the same callback invocations as
`match(q2)` on the freshly built matcher. -/
theorem match_purity_and_reset :
    (∀ (fuel : Nat) (m : SelectorMatcher) (q : CssSelector) (cb : Bool) (gs : GroupFlags),
      matchF (fuel + 1) m q cb gs =
        matchF (fuel + 1) m q cb (resetFlags m.listContexts gs)) ∧
    (∀ (bs : List (List CssSelector × Option Nat)) (fuel : Nat) (q1 q2 : CssSelector)
      (cb cb' : Bool) (gs : GroupFlags), 1 ≤ fuel →
      (matchF fuel (buildMatcher bs) q2 cb
          (matchF fuel (buildMatcher bs) q1 cb' gs).2.2).1 =
        (matchF fuel (buildMatcher bs) q2 cb noFlags).1 ∧
      (matchF fuel (buildMatcher bs) q2 cb
          (matchF fuel (buildMatcher bs) q1 cb' gs).2.2).2.1 =
        (matchF fuel (buildMatcher bs) q2 cb noFlags).2.1) := by
  constructor
  · intro fuel m q cb gs
    have hreset : resetFlags m.listContexts gs =
        resetFlags m.listContexts (resetFlags m.listContexts gs) := by
      funext i
      rw [resetFlags_apply, resetFlags_apply, resetFlags_apply]
      by_cases hi : i ∈ m.listContexts <;> simp [hi]
    obtain ⟨T, hT⟩ : ∃ T, itemsF (fuel + 1) m q = .resetI m.listContexts :: T :=
      ⟨_, itemsF_succ fuel m q⟩
    rw [matchF_eq_runItems, matchF_eq_runItems, hT, runItems_cons, runItems_cons]
    show runItems cb T (false, [], resetFlags m.listContexts gs) =
      runItems cb T (false, [], resetFlags m.listContexts (resetFlags m.listContexts gs))
    rw [← hreset]
  · intro bs fuel q1 q2 cb cb' gs hf
    exact matchF_state_independent (buildMatcher bs) (buildMatcher_scoped bs) fuel hf
      q2 cb (matchF fuel (buildMatcher bs) q1 cb' gs).2.2 noFlags

theorem match_purity_and_reset_witness :
    1 ≤ 2 ∧
    ((matchF 2 (buildMatcher [([CssSelector.mk none ["a"] [] [],
          CssSelector.mk none ["b"] [] []], some 7)])
        (CssSelector.mk none ["b"] [] []) true
        (matchF 2 (buildMatcher [([CssSelector.mk none ["a"] [] [],
            CssSelector.mk none ["b"] [] []], some 7)])
          (CssSelector.mk none ["a"] [] []) true noFlags).2.2).1 =
      (matchF 2 (buildMatcher [([CssSelector.mk none ["a"] [] [],
          CssSelector.mk none ["b"] [] []], some 7)])
        (CssSelector.mk none ["b"] [] []) true noFlags).1 ∧
     (matchF 2 (buildMatcher [([CssSelector.mk none ["a"] [] [],
          CssSelector.mk none ["b"] [] []], some 7)])
        (CssSelector.mk none ["b"] [] []) true
        (matchF 2 (buildMatcher [([CssSelector.mk none ["a"] [] [],
            CssSelector.mk none ["b"] [] []], some 7)])
          (CssSelector.mk none ["a"] [] []) true noFlags).2.2).2.1 =
      (matchF 2 (buildMatcher [([CssSelector.mk none ["a"] [] [],
          CssSelector.mk none ["b"] [] []], some 7)])
        (CssSelector.mk none ["b"] [] []) true noFlags).2.1) :=
  ⟨by decide, match_purity_and_reset.2
    [([CssSelector.mk none ["a"] [] [], CssSelector.mk none ["b"] [] []], some 7)]
    2 (CssSelector.mk none ["a"] [] []) (CssSelector.mk none ["b"] [] [])
    true true noFlags (by decide)⟩

/-! ## Claim C1: one callback invocation per shared group

`finalize` fires the callback only when the entry's shared list context is
not yet marked, and marks it when it fires; within one top-level `match` the
mark can only be cleared by a flag reset, and on a matcher built by
`addSelectables` every nested matcher's `_listContexts` is empty, so no
reset occurs after the top-level one.  Counting the logged invocations that
carry a given group id therefore never exceeds one. -/

/-- Every nested matcher, at every depth, has an empty `_listContexts`
(shared contexts are only ever pushed on the matcher `addSelectables` is
called on). -/
inductive NestedLCEmpty : SelectorMatcher → Prop where
  | intro (m : SelectorMatcher)
      (hlcs : ∀ n ∈ nestedMs m, n.listContexts = [])
      (hrec : ∀ n ∈ nestedMs m, NestedLCEmpty n) : NestedLCEmpty m

theorem NestedLCEmpty.nestedOf {m : SelectorMatcher} (hm : NestedLCEmpty m) :
    ∀ n ∈ nestedMs m, n.listContexts = [] ∧ NestedLCEmpty n := by
  cases hm with
  | intro _ h1 h2 => exact fun n hn => ⟨h1 n hn, h2 n hn⟩

theorem NestedLCEmpty.ofNest {m : SelectorMatcher}
    (h : ∀ n ∈ nestedMs m, n.listContexts = [] ∧ NestedLCEmpty n) : NestedLCEmpty m :=
  ⟨m, fun n hn => (h n hn).1, fun n hn => (h n hn).2⟩

theorem nestedLCEmpty_empty : NestedLCEmpty SelectorMatcher.emptyM :=
  ⟨_, by rw [nestedMs_emptyM]; intro n hn; exact absurd hn (List.not_mem_nil n),
      by rw [nestedMs_emptyM]; intro n hn; exact absurd hn (List.not_mem_nil n)⟩

theorem addTerminalC_nestedLCEmpty (m : SelectorMatcher) (c : SelConstraint)
    (sc : SelectorContext) (hm : NestedLCEmpty m) :
    NestedLCEmpty (addTerminalC m c sc) := by
  cases m with
  | mk em ep cm cp am avp lcs =>
    cases c with
    | elemC e => exact NestedLCEmpty.ofNest (fun n hn => hm.nestedOf n hn)
    | classC s => exact NestedLCEmpty.ofNest (fun n hn => hm.nestedOf n hn)
    | attrC nme vl => exact NestedLCEmpty.ofNest (fun n hn => hm.nestedOf n hn)

theorem insertSelectable_nestedLCEmpty (sc : SelectorContext) :
    ∀ (cs : List SelConstraint) (m : SelectorMatcher), NestedLCEmpty m →
      NestedLCEmpty (insertSelectable m cs sc) := by
  intro cs
  induction cs with
  | nil =>
    intro m hm
    cases m with
    | mk em ep cm cp am avp lcs => exact hm
  | cons c rest ih =>
    intro m hm
    cases rest with
    | nil =>
      cases m with
      | mk em ep cm cp am avp lcs =>
        cases c with
        | elemC e =>
          exact addTerminalC_nestedLCEmpty (.mk em ep cm cp am avp lcs) (.elemC e) sc hm
        | classC s =>
          exact addTerminalC_nestedLCEmpty (.mk em ep cm cp am avp lcs) (.classC s) sc hm
        | attrC nme vl =>
          exact addTerminalC_nestedLCEmpty (.mk em ep cm cp am avp lcs) (.attrC nme vl) sc hm
    | cons c2 cs2 =>
      cases m with
      | mk em ep cm cp am avp lcs =>
        cases c with
        | elemC e =>
          refine NestedLCEmpty.ofNest ?_
          intro nmat hnm
          rcases (mem_nestedMs _ nmat).mp hnm with ⟨k, hk⟩ | h | h
          · have hk' : (k, nmat) ∈ alSet ep e (insertSelectable
                ((alGet ep e).getD SelectorMatcher.emptyM) (c2 :: cs2) sc) := hk
            rcases mem_alSet e _ ep (k, nmat) hk' with he | hin
            · have hnmat : nmat = insertSelectable
                  ((alGet ep e).getD SelectorMatcher.emptyM) (c2 :: cs2) sc :=
                congrArg Prod.snd he
              rw [hnmat]
              have hbase : ((alGet ep e).getD SelectorMatcher.emptyM).listContexts = [] ∧
                  NestedLCEmpty ((alGet ep e).getD SelectorMatcher.emptyM) := by
                cases hvm : alGet ep e with
                | none => exact ⟨rfl, nestedLCEmpty_empty⟩
                | some n2 =>
                  rcases alGet_some_mem e ep n2 hvm with ⟨kk, hkk⟩
                  exact hm.nestedOf n2 ((mem_nestedMs (.mk em ep cm cp am avp lcs) n2).mpr
                    (Or.inl ⟨kk, hkk⟩))
              refine ⟨?_, ih _ hbase.2⟩
              rw [insertSelectable_listContexts]
              exact hbase.1
            · exact hm.nestedOf nmat
                ((mem_nestedMs (.mk em ep cm cp am avp lcs) nmat).mpr (Or.inl ⟨k, hin⟩))
          · exact hm.nestedOf nmat
              ((mem_nestedMs (.mk em ep cm cp am avp lcs) nmat).mpr (Or.inr (Or.inl h)))
          · exact hm.nestedOf nmat
              ((mem_nestedMs (.mk em ep cm cp am avp lcs) nmat).mpr (Or.inr (Or.inr h)))
        | classC s =>
          refine NestedLCEmpty.ofNest ?_
          intro nmat hnm
          rcases (mem_nestedMs _ nmat).mp hnm with h | ⟨k, hk⟩ | h
          · exact hm.nestedOf nmat
              ((mem_nestedMs (.mk em ep cm cp am avp lcs) nmat).mpr (Or.inl h))
          · have hk' : (k, nmat) ∈ alSet cp s (insertSelectable
                ((alGet cp s).getD SelectorMatcher.emptyM) (c2 :: cs2) sc) := hk
            rcases mem_alSet s _ cp (k, nmat) hk' with he | hin
            · have hnmat : nmat = insertSelectable
                  ((alGet cp s).getD SelectorMatcher.emptyM) (c2 :: cs2) sc :=
                congrArg Prod.snd he
              rw [hnmat]
              have hbase : ((alGet cp s).getD SelectorMatcher.emptyM).listContexts = [] ∧
                  NestedLCEmpty ((alGet cp s).getD SelectorMatcher.emptyM) := by
                cases hvm : alGet cp s with
                | none => exact ⟨rfl, nestedLCEmpty_empty⟩
                | some n2 =>
                  rcases alGet_some_mem s cp n2 hvm with ⟨kk, hkk⟩
                  exact hm.nestedOf n2 ((mem_nestedMs (.mk em ep cm cp am avp lcs) n2).mpr
                    (Or.inr (Or.inl ⟨kk, hkk⟩)))
              refine ⟨?_, ih _ hbase.2⟩
              rw [insertSelectable_listContexts]
              exact hbase.1
            · exact hm.nestedOf nmat ((mem_nestedMs (.mk em ep cm cp am avp lcs) nmat).mpr
                (Or.inr (Or.inl ⟨k, hin⟩)))
          · exact hm.nestedOf nmat
              ((mem_nestedMs (.mk em ep cm cp am avp lcs) nmat).mpr (Or.inr (Or.inr h)))
        | attrC nme vl =>
          refine NestedLCEmpty.ofNest ?_
          intro nmat hnm
          rcases (mem_nestedMs _ nmat).mp hnm with h | h | ⟨a, wm, k, hawm, hkw⟩
          · exact hm.nestedOf nmat
              ((mem_nestedMs (.mk em ep cm cp am avp lcs) nmat).mpr (Or.inl h))
          · exact hm.nestedOf nmat
              ((mem_nestedMs (.mk em ep cm cp am avp lcs) nmat).mpr (Or.inr (Or.inl h)))
          · have hawm' : (a, wm) ∈ alSet avp nme (alSet ((alGet avp nme).getD []) vl
                (insertSelectable ((alGet ((alGet avp nme).getD []) vl).getD
                  SelectorMatcher.emptyM) (c2 :: cs2) sc)) := hawm
            rcases mem_alSet nme _ avp (a, wm) hawm' with he | hin
            · have hwm : wm = alSet ((alGet avp nme).getD []) vl
                  (insertSelectable ((alGet ((alGet avp nme).getD []) vl).getD
                    SelectorMatcher.emptyM) (c2 :: cs2) sc) :=
                congrArg Prod.snd he
              rw [hwm] at hkw
              rcases mem_alSet vl _ ((alGet avp nme).getD []) (k, nmat) hkw with he2 | hin2
              · have hnmat : nmat = insertSelectable
                    ((alGet ((alGet avp nme).getD []) vl).getD SelectorMatcher.emptyM)
                    (c2 :: cs2) sc :=
                  congrArg Prod.snd he2
                rw [hnmat]
                have hbase : ((alGet ((alGet avp nme).getD []) vl).getD
                      SelectorMatcher.emptyM).listContexts = [] ∧
                    NestedLCEmpty ((alGet ((alGet avp nme).getD []) vl).getD
                      SelectorMatcher.emptyM) := by
                  cases hvv : alGet ((alGet avp nme).getD []) vl with
                  | none => exact ⟨rfl, nestedLCEmpty_empty⟩
                  | some n2 =>
                    rcases alGet_some_mem vl ((alGet avp nme).getD []) n2 hvv with ⟨kk, hkk⟩
                    cases hvm : alGet avp nme with
                    | none =>
                      rw [hvm] at hkk
                      exact absurd hkk (List.not_mem_nil _)
                    | some vmv =>
                      rw [hvm] at hkk
                      rcases alGet_some_mem nme avp vmv hvm with ⟨a2, ha2⟩
                      exact hm.nestedOf n2 ((mem_nestedMs (.mk em ep cm cp am avp lcs) n2).mpr
                        (Or.inr (Or.inr ⟨a2, vmv, kk, ha2, hkk⟩)))
                refine ⟨?_, ih _ hbase.2⟩
                rw [insertSelectable_listContexts]
                exact hbase.1
              · cases hvm : alGet avp nme with
                | none =>
                  rw [hvm] at hin2
                  exact absurd hin2 (List.not_mem_nil _)
                | some vmv =>
                  rw [hvm] at hin2
                  rcases alGet_some_mem nme avp vmv hvm with ⟨a2, ha2⟩
                  exact hm.nestedOf nmat ((mem_nestedMs (.mk em ep cm cp am avp lcs) nmat).mpr
                    (Or.inr (Or.inr ⟨a2, vmv, k, ha2, hin2⟩)))
            · exact hm.nestedOf nmat ((mem_nestedMs (.mk em ep cm cp am avp lcs) nmat).mpr
                (Or.inr (Or.inr ⟨a, wm, k, hin, hkw⟩)))

theorem pushListContext_nestedLCEmpty (m : SelectorMatcher) (g : Nat)
    (hm : NestedLCEmpty m) : NestedLCEmpty (m.pushListContext g) := by
  cases m with
  | mk em ep cm cp am avp lcs =>
    cases hm with
    | intro _ h1 h2 => exact ⟨_, h1, h2⟩

theorem addSelectables_nestedLCEmpty (m : SelectorMatcher) (sels : List CssSelector)
    (cbCtx : Option Nat) (hm : NestedLCEmpty m) :
    NestedLCEmpty (addSelectables m sels cbCtx) := by
  have hfold : ∀ (lc : Option Nat) (l : List CssSelector) (m0 : SelectorMatcher),
      NestedLCEmpty m0 →
      NestedLCEmpty (l.foldl (fun acc s => addSelectable acc s cbCtx lc) m0) := by
    intro lc l
    induction l with
    | nil => intro m0 h; exact h
    | cons s rest ihl =>
      intro m0 h
      rw [List.foldl_cons]
      exact ihl _ (insertSelectable_nestedLCEmpty ⟨s, cbCtx, lc⟩ (constraintsOf s) m0 h)
  rw [addSelectables]
  split
  · exact hfold _ sels _ (pushListContext_nestedLCEmpty m _ hm)
  · exact hfold none sels m hm

theorem buildMatcher_nestedLCEmpty (bs : List (List CssSelector × Option Nat)) :
    NestedLCEmpty (buildMatcher bs) := by
  rw [buildMatcher]
  have hfold : ∀ (l : List (List CssSelector × Option Nat)) (m : SelectorMatcher),
      NestedLCEmpty m →
      NestedLCEmpty (l.foldl (fun acc b => addSelectables acc b.1 b.2) m) := by
    intro l
    induction l with
    | nil => intro m hm; exact hm
    | cons b rest ih =>
      intro m hm
      rw [List.foldl_cons]
      exact ih _ (addSelectables_nestedLCEmpty m b.1 b.2 hm)
  exact hfold bs SelectorMatcher.emptyM nestedLCEmpty_empty

/-- The item never clears group `g`'s flag. -/
def itemNoResetG (g : Nat) : MatchItem → Prop
  | .resetI ids => g ∉ ids
  | .probe _ _ => True

theorem itemsTerminal_noResetG (g : Nat) (nm : List CssSelector → Bool)
    (mapO : Option (List (String × List SelectorContext))) (nameO : Option String) :
    ∀ it ∈ itemsTerminal nm mapO nameO, itemNoResetG g it := by
  intro it hit
  match mapO, nameO with
  | none, _ => exact absurd hit (List.not_mem_nil it)
  | some map, none => exact absurd hit (List.not_mem_nil it)
  | some map, some name =>
    rw [itemsTerminal] at hit
    rcases List.mem_map.mp hit with ⟨sc, hsc, he⟩
    rw [← he]
    exact trivial

theorem itemsPartialF_noResetG (g : Nat) (n : Nat) (q : CssSelector)
    (mapO : Option (List (String × SelectorMatcher))) (nameO : Option String)
    (hm : ∀ map, mapO = some map → ∀ kk nested, (kk, nested) ∈ map →
      nested.listContexts = [] ∧ NestedLCEmpty nested)
    (ih : ∀ m', NestedLCEmpty m' → m'.listContexts = [] →
      ∀ it ∈ itemsF n m' q, itemNoResetG g it) :
    ∀ it ∈ itemsPartialF n q mapO nameO, itemNoResetG g it := by
  intro it hit
  match mapO, nameO with
  | none, _ => exact absurd hit (List.not_mem_nil it)
  | some map, none => exact absurd hit (List.not_mem_nil it)
  | some map, some name =>
    rw [itemsPartialF] at hit
    cases hg : alGet map name with
    | none =>
      rw [hg] at hit
      exact absurd hit (List.not_mem_nil it)
    | some nested =>
      rw [hg] at hit
      rcases alGet_some_mem name map nested hg with ⟨kk, hmem⟩
      obtain ⟨hlcs, hne⟩ := hm map rfl kk nested hmem
      exact ih nested hne hlcs it hit

/-- No item after the head reset of a built matcher's trace can clear a
group flag: nested traces only reset their own (empty) list contexts. -/
theorem itemsF_noResetG_aux (g : Nat) : ∀ (fuel : Nat),
    (∀ (m : SelectorMatcher) (q : CssSelector), NestedLCEmpty m →
      ∀ it ∈ (itemsF fuel m q).tail, itemNoResetG g it) ∧
    (∀ (m : SelectorMatcher) (q : CssSelector), NestedLCEmpty m → m.listContexts = [] →
      ∀ it ∈ itemsF fuel m q, itemNoResetG g it) := by
  intro fuel
  induction fuel with
  | zero =>
    constructor
    · intro m q hm it hit
      exact absurd hit (List.not_mem_nil it)
    · intro m q hm hlcs it hit
      exact absurd hit (List.not_mem_nil it)
  | succ n ih =>
    have htail : ∀ (m : SelectorMatcher) (q : CssSelector), NestedLCEmpty m →
        ∀ it ∈ (itemsF (n + 1) m q).tail, itemNoResetG g it := by
      intro m q hm it hit
      rw [itemsF_succ] at hit
      simp only [List.tail_cons] at hit
      have hnestfact : ∀ (nested : SelectorMatcher), nested ∈ nestedMs m →
          nested.listContexts = [] ∧ NestedLCEmpty nested := hm.nestedOf
      rcases List.mem_append.mp hit with hit | hitD
      · rcases List.mem_append.mp hit with hit | hitC
        · rcases List.mem_append.mp hit with hitA | hitB
          · exact itemsTerminal_noResetG g _ (some m.elementMap) q.element it hitA
          · refine itemsPartialF_noResetG g n q (some m.elementPartialMap) q.element ?_
              (fun m' hm' hl' => ih.2 m' q hm' hl') it hitB
            intro map hmap kk nested hkv
            injection hmap with hmap
            rw [← hmap] at hkv
            exact hnestfact nested ((mem_nestedMs m nested).mpr (Or.inl ⟨kk, hkv⟩))
        · rcases List.mem_flatten.mp hitC with ⟨w, hw, hitw⟩
          rcases List.mem_map.mp hw with ⟨cn, hcn, he⟩
          rw [← he] at hitw
          rcases List.mem_append.mp hitw with hitT | hitP
          · exact itemsTerminal_noResetG g _ (some m.classMap) (some cn) it hitT
          · refine itemsPartialF_noResetG g n q (some m.classPartialMap) (some cn) ?_
              (fun m' hm' hl' => ih.2 m' q hm' hl') it hitP
            intro map hmap kk nested hkv
            injection hmap with hmap
            rw [← hmap] at hkv
            exact hnestfact nested ((mem_nestedMs m nested).mpr (Or.inr (Or.inl ⟨kk, hkv⟩)))
      · rcases List.mem_flatten.mp hitD with ⟨w, hw, hitw⟩
        rcases List.mem_map.mp hw with ⟨p, hp, he⟩
        rw [← he] at hitw
        have hPm : ∀ (nameO : Option String),
            ∀ it ∈ itemsPartialF n q (alGet m.attrValuePartialMap p.1) nameO,
              itemNoResetG g it := by
          intro nameO
          refine itemsPartialF_noResetG g n q (alGet m.attrValuePartialMap p.1) nameO ?_
            (fun m' hm' hl' => ih.2 m' q hm' hl')
          intro map hmap kk nested hkv
          rcases alGet_some_mem p.1 m.attrValuePartialMap map hmap with ⟨a, hamem⟩
          exact hnestfact nested
            ((mem_nestedMs m nested).mpr (Or.inr (Or.inr ⟨a, map, kk, hamem, hkv⟩)))
        rcases List.mem_append.mp hitw with hitw | hit4
        · rcases List.mem_append.mp hitw with hitw | hit3
          · rcases List.mem_append.mp hitw with hit1 | hit2
            · by_cases hp2 : p.2 = ""
              · rw [if_neg (by simp [hp2])] at hit1
                exact absurd hit1 (List.not_mem_nil it)
              · rw [if_pos hp2] at hit1
                exact itemsTerminal_noResetG g _ (alGet m.attrValueMap p.1) (some "") it hit1
            · exact itemsTerminal_noResetG g _ (alGet m.attrValueMap p.1) (some p.2) it hit2
          · by_cases hp2 : p.2 = ""
            · rw [if_neg (by simp [hp2])] at hit3
              exact absurd hit3 (List.not_mem_nil it)
            · rw [if_pos hp2] at hit3
              exact hPm (some "") it hit3
        · exact hPm (some p.2) it hit4
    refine ⟨htail, ?_⟩
    intro m q hm hlcs it hit
    rw [itemsF_succ] at hit
    rcases List.mem_cons.mp hit with he | hit
    · rw [he, hlcs]
      exact List.not_mem_nil g
    · refine htail m q hm it ?_
      rw [itemsF_succ]
      simpa using hit

/-- Number of logged callback invocations that carry group id `g`. -/
def countG (g : Nat) (log : List SelectorContext) : Nat :=
  (log.filter (fun sc => sc.listContext == some g)).length

theorem countG_nil (g : Nat) : countG g [] = 0 := rfl

theorem countG_append_one (g : Nat) (l : List SelectorContext) (sc : SelectorContext) :
    countG g (l ++ [sc]) =
      countG g l + (if (sc.listContext == some g) = true then 1 else 0) := by
  cases hc : sc.listContext == some g <;>
    simp [countG, List.filter_append, List.filter_cons, hc]

theorem countG_append_miss (g : Nat) (l : List SelectorContext) (sc : SelectorContext)
    (h : ¬ sc.listContext = some g) : countG g (l ++ [sc]) = countG g l := by
  have hb : (sc.listContext == some g) = false := beq_eq_false_iff_ne.mpr h
  rw [countG_append_one, hb]
  simp

theorem countG_append_hit (g : Nat) (l : List SelectorContext) (sc : SelectorContext)
    (h : sc.listContext = some g) : countG g (l ++ [sc]) = countG g l + 1 := by
  have hb : (sc.listContext == some g) = true := beq_iff_eq.mpr h
  rw [countG_append_one, hb]
  simp

/-- One step of the replay keeps the per-group invariant: at most one logged
invocation for `g`, and none while `g`'s flag is still clear. -/
theorem stepItem_once (g : Nat) (cb : Bool) (it : MatchItem) (hit : itemNoResetG g it)
    (acc : Bool × List SelectorContext × GroupFlags)
    (h0 : acc.2.2 g = false → countG g acc.2.1 = 0) (h1 : countG g acc.2.1 ≤ 1) :
    countG g (stepItem cb acc it).2.1 ≤ 1 ∧
    ((stepItem cb acc it).2.2 g = false → countG g (stepItem cb acc it).2.1 = 0) := by
  cases it with
  | resetI ids =>
    refine ⟨h1, ?_⟩
    intro hgs
    have hgs' : resetFlags ids acc.2.2 g = false := hgs
    rw [resetFlags_apply] at hgs'
    have hni : g ∉ ids := hit
    rw [if_neg hni] at hgs'
    exact h0 hgs'
  | probe sc nr =>
    cases hlc : sc.listContext with
    | none =>
      have hmiss : ∀ l, countG g (l ++ [sc]) = countG g l :=
        fun l => countG_append_miss g l sc (by rw [hlc]; exact Option.noConfusion)
      simp only [stepItem, hlc]
      split_ifs <;>
        first
        | exact ⟨show countG g (acc.2.1 ++ [sc]) ≤ 1 by rw [hmiss]; exact h1,
            fun hgs => show countG g (acc.2.1 ++ [sc]) = 0 by rw [hmiss]; exact h0 hgs⟩
        | exact ⟨h1, h0⟩
    | some gp =>
      by_cases hgg : gp = g
      · rw [hgg] at hlc
        have hhit : ∀ l, countG g (l ++ [sc]) = countG g l + 1 :=
          fun l => countG_append_hit g l sc hlc
        cases hf : acc.2.2 g with
        | true =>
          simp only [stepItem, hlc, hgg, hf]
          split_ifs <;>
            first
            | exact ⟨h1, fun hgs => h0 hgs⟩
            | (exfalso; simp_all)
        | false =>
          have hcnt : countG g acc.2.1 = 0 := h0 hf
          simp only [stepItem, hlc, hgg, hf]
          split_ifs <;>
            first
            | exact ⟨show countG g (acc.2.1 ++ [sc]) ≤ 1 by rw [hhit, hcnt],
                fun hgs => absurd (show setFlag g true acc.2.2 g = false from hgs)
                  (by rw [setFlag_apply, if_pos rfl]
                      exact fun hcon => Bool.noConfusion hcon)⟩
            | exact ⟨h1, fun _ => hcnt⟩
      · have hmiss : ∀ l, countG g (l ++ [sc]) = countG g l :=
          fun l => countG_append_miss g l sc (by
            rw [hlc]
            intro hcon
            injection hcon with hcon
            exact hgg hcon)
        have hflag : setFlag gp true acc.2.2 g = acc.2.2 g := by
          rw [setFlag_apply, if_neg (fun h => hgg h.symm)]
        simp only [stepItem, hlc]
        split_ifs <;>
          first
          | exact ⟨show countG g (acc.2.1 ++ [sc]) ≤ 1 by rw [hmiss]; exact h1,
              fun hgs => show countG g (acc.2.1 ++ [sc]) = 0 by
                rw [hmiss]
                exact h0 (by rw [← hflag]; exact hgs)⟩
          | exact ⟨h1, h0⟩

theorem runItems_once (g : Nat) (cb : Bool) :
    ∀ (its : List MatchItem), (∀ it ∈ its, itemNoResetG g it) →
    ∀ (acc : Bool × List SelectorContext × GroupFlags),
      (acc.2.2 g = false → countG g acc.2.1 = 0) → countG g acc.2.1 ≤ 1 →
      countG g (runItems cb its acc).2.1 ≤ 1 ∧
      ((runItems cb its acc).2.2 g = false → countG g (runItems cb its acc).2.1 = 0) := by
  intro its
  induction its with
  | nil => intro _ acc h0 h1; exact ⟨h1, h0⟩
  | cons it rest ih =>
    intro hits acc h0 h1
    rw [runItems_cons]
    obtain ⟨k1, k0⟩ := stepItem_once g cb it (hits it (List.mem_cons_self it rest)) acc h0 h1
    exact ih (fun x hx => hits x (List.mem_cons_of_mem it hx)) _ k0 k1

/-- On a matcher whose nested matchers carry no list contexts, one `match`
logs at most one invocation per group. -/
theorem matchF_countG_le_one (m : SelectorMatcher) (hm : NestedLCEmpty m)
    (fuel : Nat) (q : CssSelector) (cb : Bool) (gs : GroupFlags) (g : Nat) :
    countG g (matchF fuel m q cb gs).2.1 ≤ 1 := by
  cases fuel with
  | zero => exact Nat.zero_le 1
  | succ n =>
    rw [matchF_eq_runItems]
    obtain ⟨T, hT⟩ : ∃ T, itemsF (n + 1) m q = .resetI m.listContexts :: T :=
      ⟨_, itemsF_succ n m q⟩
    rw [hT, runItems_cons]
    have hTok : ∀ it ∈ T, itemNoResetG g it := by
      intro it hit
      refine (itemsF_noResetG_aux g (n + 1)).1 m q hm it ?_
      rw [hT]
      simpa using hit
    obtain ⟨hle, _⟩ := runItems_once g cb T hTok
      (stepItem cb (false, [], gs) (.resetI m.listContexts))
      (fun _ => rfl) (Nat.zero_le 1)
    exact hle

/-- C1: on a matcher built by `addSelectables`, one top-level `match` logs
at most one callback invocation carrying any given shared group id; and in
the spec's exemplar — the batch parsed from `.a, .b` registered in one call,
queried with a selector whose classNames are `[a, b]` so that both members
are structurally satisfied — the callback log is exactly one invocation
(the `.a` entry, tagged with the batch's group id 0), while the match still
reports success. -/
theorem or_group_exactly_once :
    (∀ (bs : List (List CssSelector × Option Nat)) (fuel : Nat) (q : CssSelector)
       (cb : Bool) (gs : GroupFlags) (g : Nat),
      countG g (matchF fuel (buildMatcher bs) q cb gs).2.1 ≤ 1) ∧
    parse ".a, .b" = .ok [CssSelector.mk none ["a"] [] [], CssSelector.mk none ["b"] [] []] ∧
    (matchF 2 (buildMatcher [([CssSelector.mk none ["a"] [] [],
        CssSelector.mk none ["b"] [] []], some 0)])
      (CssSelector.mk none ["a", "b"] [] []) true noFlags).2.1 =
      [⟨CssSelector.mk none ["a"] [] [], some 0, some 0⟩] ∧
    (matchF 2 (buildMatcher [([CssSelector.mk none ["a"] [] [],
        CssSelector.mk none ["b"] [] []], some 0)])
      (CssSelector.mk none ["a", "b"] [] []) true noFlags).1 = true := by
  refine ⟨?_, rfl, rfl, rfl⟩
  intro bs fuel q cb gs g
  exact matchF_countG_le_one (buildMatcher bs) (buildMatcher_nestedLCEmpty bs) fuel q cb gs g

/-! ## Claim C3: the `toString` / `parse` round trip

Groundwork: character-class facts for the ASCII lowercasing model, the
escape/unescape pair, composition lemmas for the tokenizer on serialized
text, a reconstruction argument for the parser on canonical token streams,
and a well-formedness invariant for parse results. -/

theorem char_ofNat_toNat (n : Nat) (h : n < 55296) : (Char.ofNat n).toNat = n := by
  unfold Char.ofNat
  split
  · rfl
  · rename_i hn
    exact absurd (Or.inl h) hn

theorem isLower_of_toNat (c : Char) (h1 : 97 ≤ c.toNat) (h2 : c.toNat ≤ 122) :
    c.isLower = true := by
  simp only [Char.isLower, decide_eq_true_eq, Bool.and_eq_true]
  exact ⟨h1, h2⟩

theorem isAlpha_of_toNat (c : Char) (h1 : 97 ≤ c.toNat) (h2 : c.toNat ≤ 122) :
    c.isAlpha = true := by
  simp [Char.isAlpha, isLower_of_toNat c h1 h2]

theorem jsLowerChar_toNat_of_upper (c : Char) (h : 'A' ≤ c ∧ c ≤ 'Z') :
    (jsLowerChar c).toNat = c.toNat + 32 := by
  rw [jsLowerChar, if_pos h]
  have h2 : c.toNat ≤ 90 := h.2
  exact char_ofNat_toNat (c.toNat + 32) (by omega)

theorem jsLowerChar_idem (c : Char) : jsLowerChar (jsLowerChar c) = jsLowerChar c := by
  by_cases h : 'A' ≤ c ∧ c ≤ 'Z'
  · have ht := jsLowerChar_toNat_of_upper c h
    have h1 : 65 ≤ c.toNat := h.1
    rw [jsLowerChar, if_neg]
    intro hcon
    have : (jsLowerChar c).toNat ≤ 90 := hcon.2
    omega
  · have hc : jsLowerChar c = c := by rw [jsLowerChar, if_neg h]
    rw [hc, hc]

theorem jsLower_idem (s : String) : jsLower (jsLower s) = jsLower s := by
  rw [jsLower, jsLower]
  congr 1
  show (s.data.map jsLowerChar).map jsLowerChar = s.data.map jsLowerChar
  rw [List.map_map]
  exact List.map_congr_left (fun c _ => jsLowerChar_idem c)

theorem jsLowerChar_tagChar (c : Char) (h : tagChar c = true) :
    tagChar (jsLowerChar c) = true := by
  by_cases hu : 'A' ≤ c ∧ c ≤ 'Z'
  · have ht := jsLowerChar_toNat_of_upper c hu
    have h1 : 65 ≤ c.toNat := hu.1
    have h2 : c.toNat ≤ 90 := hu.2
    have : (jsLowerChar c).isAlpha = true := isAlpha_of_toNat _ (by omega) (by omega)
    simp [tagChar, wordChar, this]
  · rw [jsLowerChar, if_neg hu]
    exact h

theorem jsLowerChar_valueChar (c : Char) (h : valueChar c = true) :
    valueChar (jsLowerChar c) = true := by
  by_cases hu : 'A' ≤ c ∧ c ≤ 'Z'
  · have ht := jsLowerChar_toNat_of_upper c hu
    have h1 : 65 ≤ c.toNat := hu.1
    have h2 : c.toNat ≤ 90 := hu.2
    have h3 : ¬(jsLowerChar c = ']') := by
      intro hcon
      have hv : (']' : Char).toNat = 93 := rfl
      have := congrArg Char.toNat hcon
      rw [ht] at this
      omega
    have h4 : ¬(jsLowerChar c = '"') := by
      intro hcon
      have hv : ('"' : Char).toNat = 34 := rfl
      have := congrArg Char.toNat hcon
      rw [ht] at this
      omega
    have h5 : ¬(jsLowerChar c = '\'') := by
      intro hcon
      have hv : ('\'' : Char).toNat = 39 := rfl
      have := congrArg Char.toNat hcon
      rw [ht] at this
      omega
    simp [valueChar, h3, h4, h5]
  · rw [jsLowerChar, if_neg hu]
    exact h

theorem tagChar_valueChar (c : Char) (h : tagChar c = true) : valueChar c = true := by
  have h3 : ¬(c = ']') := fun hc => by rw [hc] at h; exact absurd h (by decide)
  have h4 : ¬(c = '"') := fun hc => by rw [hc] at h; exact absurd h (by decide)
  have h5 : ¬(c = '\'') := fun hc => by rw [hc] at h; exact absurd h (by decide)
  simp [valueChar, h3, h4, h5]

theorem unescape_escapeChar (c : Char) (hcb : ¬(c = '\\')) (cs : List Char) (esc : Bool) :
    unescapeChars (escapeChar c ++ cs) esc =
      (unescapeChars cs false).map (fun r => c :: r) := by
  rw [escapeChar, if_neg hcb]
  by_cases hd : c = '$'
  · rw [if_pos hd, hd]
    rw [show (['\\', '$'] ++ cs : List Char) = '\\' :: '$' :: cs from rfl]
    rw [unescapeChars, if_pos rfl, unescapeChars]
    rw [if_neg (show ¬(('$' : Char) = '\\') by decide)]
    rw [if_neg (by intro h; exact Bool.noConfusion h.2)]
  · rw [if_neg hd]
    rw [show ([c] ++ cs : List Char) = c :: cs from rfl]
    rw [unescapeChars, if_neg hcb]
    rw [if_neg (by intro h; exact hd h.1)]

/-- `unescapeAttribute (escapeAttribute x) = x` for backslash-free `x` — and
names stored by `parse` are backslash-free, since `unescapeAttribute` drops
every backslash. -/
theorem unescape_escape (l : List Char) (hl : ∀ c ∈ l, ¬(c = '\\')) :
    unescapeChars (escapeChars l) false = some l := by
  induction l with
  | nil => rfl
  | cons c cs ih =>
    rw [escapeChars, List.map_cons, List.flatten_cons]
    rw [show ((cs.map escapeChar).flatten : List Char) = escapeChars cs from rfl]
    rw [unescape_escapeChar c (hl c (List.mem_cons_self c cs)),
      ih (fun x hx => hl x (List.mem_cons_of_mem c hx))]
    rfl

theorem unescapeChars_subset (l : List Char) : ∀ (esc : Bool) (r : List Char),
    unescapeChars l esc = some r → (∀ c ∈ l, nameChar c = true) →
    ∀ c ∈ r, nameChar c = true ∧ ¬(c = '\\') := by
  induction l with
  | nil =>
    intro esc r hr _ c hc
    rw [unescapeChars] at hr
    injection hr with hr
    rw [← hr] at hc
    exact absurd hc (List.not_mem_nil c)
  | cons a cs ih =>
    intro esc r hr hl c hc
    rw [unescapeChars] at hr
    split at hr
    · exact ih true r hr (fun x hx => hl x (List.mem_cons_of_mem a hx)) c hc
    · split at hr
      · exact absurd hr (by simp)
      · rename_i hba hda
        cases hrec : unescapeChars cs false with
        | none => rw [hrec] at hr; exact absurd hr (by simp)
        | some r2 =>
          rw [hrec] at hr
          have hr2 : some (a :: r2) = some r := hr
          injection hr2 with hr
          rw [← hr] at hc
          rcases List.mem_cons.mp hc with hce | hcr
          · rw [hce]
            exact ⟨hl a (List.mem_cons_self a cs), hba⟩
          · exact ih false r2 hrec (fun x hx => hl x (List.mem_cons_of_mem a hx)) c hcr

theorem escapeChars_chars (l : List Char) (hl : ∀ c ∈ l, nameChar c = true) :
    ∀ c ∈ escapeChars l, nameChar c = true := by
  intro c hc
  rw [escapeChars] at hc
  rcases List.mem_flatten.mp hc with ⟨w, hw, hcw⟩
  rcases List.mem_map.mp hw with ⟨a, ha, he⟩
  rw [← he, escapeChar] at hcw
  split at hcw
  · rcases List.mem_cons.mp hcw with h | h
    · rw [h]; decide
    · rw [List.mem_singleton.mp h]; decide
  · split at hcw
    · rcases List.mem_cons.mp hcw with h | h
      · rw [h]; decide
      · rw [List.mem_singleton.mp h]; decide
    · rw [List.mem_singleton.mp hcw]
      exact hl a ha

theorem escapeChars_ne_nil (l : List Char) (h : l ≠ []) : escapeChars l ≠ [] := by
  cases l with
  | nil => exact absurd rfl h
  | cons c cs =>
    rw [escapeChars, List.map_cons, List.flatten_cons, escapeChar]
    split
    · rw [List.cons_append]
      exact List.cons_ne_nil _ _
    · split
      · rw [List.cons_append]
        exact List.cons_ne_nil _ _
      · rw [List.cons_append]
        exact List.cons_ne_nil _ _

theorem takeWhile_append_all (p : Char → Bool) (xs rest : List Char)
    (h : ∀ c ∈ xs, p c = true) :
    (xs ++ rest).takeWhile p = xs ++ rest.takeWhile p := by
  induction xs with
  | nil => rfl
  | cons c cs ih =>
    rw [List.cons_append, List.takeWhile_cons, if_pos (h c (List.mem_cons_self c cs))]
    rw [ih (fun x hx => h x (List.mem_cons_of_mem c hx))]
    rfl

theorem dropWhile_append_all (p : Char → Bool) (xs rest : List Char)
    (h : ∀ c ∈ xs, p c = true) :
    (xs ++ rest).dropWhile p = rest.dropWhile p := by
  induction xs with
  | nil => rfl
  | cons c cs ih =>
    rw [List.cons_append, List.dropWhile_cons, if_pos (h c (List.mem_cons_self c cs))]
    exact ih (fun x hx => h x (List.mem_cons_of_mem c hx))

theorem takeWhile_head_false (p : Char → Bool) (rest : List Char)
    (h : ∀ c cs, rest = c :: cs → p c = false) : rest.takeWhile p = [] := by
  cases rest with
  | nil => rfl
  | cons c cs => rw [List.takeWhile_cons, if_neg (by rw [h c cs rfl]; exact Bool.noConfusion)]

theorem dropWhile_head_false (p : Char → Bool) (rest : List Char)
    (h : ∀ c cs, rest = c :: cs → p c = false) : rest.dropWhile p = rest := by
  cases rest with
  | nil => rfl
  | cons c cs => rw [List.dropWhile_cons, if_neg (by rw [h c cs rfl]; exact Bool.noConfusion)]

theorem notOpenAt_none (c : Char) (cs : List Char) (h : ¬(c = ':')) :
    notOpenAt (c :: cs) = none := by
  rw [notOpenAt.eq_def]
  split
  · rename_i heq
    injection heq with h1 _
    exact absurd h1 h
  · rfl

theorem fragAt_none (c : Char) (cs : List Char) (h1 : ¬(c = '.')) (h2 : ¬(c = '#'))
    (h3 : tagChar c = false) : fragAt (c :: cs) = none := by
  rw [fragAt]
  rw [if_neg (by simp [h1, h2])]
  rw [if_pos]
  rw [List.takeWhile_cons, if_neg (by rw [h3]; exact Bool.noConfusion)]
  rfl

theorem attrAt_none (c : Char) (cs : List Char) (h : ¬(c = '[')) :
    attrAt (c :: cs) = none := by
  rw [attrAt.eq_def]
  split
  · rename_i heq
    injection heq with h1 _
    exact absurd h1 h
  · rfl

theorem notCloseAt_none (c : Char) (cs : List Char) (h : ¬(c = ')')) :
    notCloseAt (c :: cs) = none := by
  rw [notCloseAt.eq_def]
  split
  · rename_i heq
    injection heq with h1 _
    exact absurd h1 h
  · rfl

theorem sepAt_none (c : Char) (cs : List Char) (hs : spaceChar c = false)
    (h : ¬(c = ',')) : sepAt (c :: cs) = none := by
  rw [sepAt]
  rw [List.dropWhile_cons, if_neg (by rw [hs]; exact Bool.noConfusion)]
  split
  · rename_i heq
    injection heq with h1 _
    exact absurd h1 h
  · rfl

/-- The next serialized piece begins with a character that cannot extend a
word run (or the input ends). -/
def TagBoundary (rest : List Char) : Prop :=
  ∀ d ds, rest = d :: ds → tagChar d = false

theorem tokStep_notOpen (rest : List Char) :
    tokenize (':' :: 'n' :: 'o' :: 't' :: '(' :: rest) = .notOpen :: tokenize rest :=
  tokenize_cons_some rfl

theorem tokStep_notClose (rest : List Char) :
    tokenize (')' :: rest) = .notClose :: tokenize rest :=
  tokenize_cons_some rfl

theorem tokStep_star (rest : List Char) : tokenize ('*' :: rest) = tokenize rest :=
  tokenize_cons_none rfl

theorem tokStep_sep (rest : List Char)
    (hb : ∀ d ds, rest = d :: ds → spaceChar d = false) :
    tokenize (',' :: rest) = .separator :: tokenize rest := by
  have hm : matchAt (',' :: rest) = some (.separator, rest.dropWhile spaceChar) := rfl
  rw [dropWhile_head_false spaceChar rest hb] at hm
  exact tokenize_cons_some hm

theorem tokStep_frag_plain (c : Char) (cs rest : List Char) (hc : tagChar c = true)
    (hcs : ∀ x ∈ cs, tagChar x = true) (hb : TagBoundary rest) :
    tokenize ((c :: cs) ++ rest) = .fragment none (c :: cs) :: tokenize rest := by
  have hcolon : ¬(c = ':') := fun he => by rw [he] at hc; exact absurd hc (by decide)
  have hdot : ¬(c = '.') := fun he => by rw [he] at hc; exact absurd hc (by decide)
  have hhash : ¬(c = '#') := fun he => by rw [he] at hc; exact absurd hc (by decide)
  have htw : (cs ++ rest).takeWhile tagChar = cs := by
    rw [takeWhile_append_all tagChar cs rest hcs, takeWhile_head_false tagChar rest hb,
      List.append_nil]
  have hdw : (cs ++ rest).dropWhile tagChar = rest := by
    rw [dropWhile_append_all tagChar cs rest hcs, dropWhile_head_false tagChar rest hb]
  have hm : matchAt (c :: (cs ++ rest)) = some (.fragment none (c :: cs), rest) := by
    rw [matchAt, notOpenAt_none c _ hcolon]
    dsimp only
    rw [fragAt]
    rw [if_neg (by simp [hdot, hhash])]
    rw [List.takeWhile_cons, if_pos hc, htw]
    rw [List.dropWhile_cons, if_pos hc, hdw]
    rw [if_neg (by simp)]
  exact tokenize_cons_some hm

theorem tokStep_frag_dot (run rest : List Char) (hne : run ≠ [])
    (hrun : ∀ x ∈ run, tagChar x = true) (hb : TagBoundary rest) :
    tokenize ('.' :: (run ++ rest)) = .fragment (some '.') run :: tokenize rest := by
  have htw : (run ++ rest).takeWhile tagChar = run := by
    rw [takeWhile_append_all tagChar run rest hrun, takeWhile_head_false tagChar rest hb,
      List.append_nil]
  have hdw : (run ++ rest).dropWhile tagChar = rest := by
    rw [dropWhile_append_all tagChar run rest hrun, dropWhile_head_false tagChar rest hb]
  have hm : matchAt ('.' :: (run ++ rest)) = some (.fragment (some '.') run, rest) := by
    rw [matchAt, notOpenAt_none '.' _ (by decide)]
    dsimp only
    rw [fragAt]
    rw [if_pos (by simp)]
    rw [htw, hdw]
    rw [if_neg (by simp [List.isEmpty_iff, hne])]
  exact tokenize_cons_some hm

theorem tokStep_attr_noval (ename rest : List Char) (hne : ename ≠ [])
    (hch : ∀ c ∈ ename, nameChar c = true) :
    tokenize ('[' :: (ename ++ ']' :: rest)) = .attrTok ename none :: tokenize rest := by
  have hbr : ∀ d ds, (']' :: rest : List Char) = d :: ds → nameChar d = false := by
    intro d ds hd
    injection hd with h1 _
    rw [← h1]
    decide
  have htw : (ename ++ ']' :: rest).takeWhile nameChar = ename := by
    rw [takeWhile_append_all nameChar ename _ hch,
      takeWhile_head_false nameChar (']' :: rest) hbr, List.append_nil]
  have hdw : (ename ++ ']' :: rest).dropWhile nameChar = ']' :: rest := by
    rw [dropWhile_append_all nameChar ename _ hch,
      dropWhile_head_false nameChar (']' :: rest) hbr]
  have hneb : ename.isEmpty = false := by
    cases ename with
    | nil => exact absurd rfl hne
    | cons a as => rfl
  have hattr : attrAt ('[' :: (ename ++ ']' :: rest)) =
      some (.attrTok ename none, rest) := by
    simp only [attrAt, htw, hdw]
    rw [if_neg (by rw [hneb]; exact Bool.noConfusion)]
  have hm : matchAt ('[' :: (ename ++ ']' :: rest)) = some (.attrTok ename none, rest) := by
    rw [matchAt, notOpenAt_none '[' _ (by decide)]
    dsimp only
    rw [fragAt_none '[' _ (by decide) (by decide) (by decide)]
    dsimp only
    rw [hattr]
  exact tokenize_cons_some hm

theorem tokStep_attr_val (ename v rest : List Char) (hne : ename ≠ [])
    (hch : ∀ c ∈ ename, nameChar c = true) (hv : v ≠ [])
    (hvch : ∀ c ∈ v, valueChar c = true) :
    tokenize ('[' :: (ename ++ '=' :: (v ++ ']' :: rest))) =
      .attrTok ename (some v) :: tokenize rest := by
  have hbe : ∀ d ds, ('=' :: (v ++ ']' :: rest) : List Char) = d :: ds →
      nameChar d = false := by
    intro d ds hd
    injection hd with h1 _
    rw [← h1]
    decide
  have htw : (ename ++ '=' :: (v ++ ']' :: rest)).takeWhile nameChar = ename := by
    rw [takeWhile_append_all nameChar ename _ hch,
      takeWhile_head_false nameChar _ hbe, List.append_nil]
  have hdw : (ename ++ '=' :: (v ++ ']' :: rest)).dropWhile nameChar =
      '=' :: (v ++ ']' :: rest) := by
    rw [dropWhile_append_all nameChar ename _ hch,
      dropWhile_head_false nameChar _ hbe]
  have hbv : ∀ d ds, (']' :: rest : List Char) = d :: ds → valueChar d = false := by
    intro d ds hd
    injection hd with h1 _
    rw [← h1]
    decide
  have hvtw : (v ++ ']' :: rest).takeWhile valueChar = v := by
    rw [takeWhile_append_all valueChar v _ hvch,
      takeWhile_head_false valueChar (']' :: rest) hbv, List.append_nil]
  have hvdw : (v ++ ']' :: rest).dropWhile valueChar = ']' :: rest := by
    rw [dropWhile_append_all valueChar v _ hvch,
      dropWhile_head_false valueChar (']' :: rest) hbv]
  cases v with
  | nil => exact absurd rfl hv
  | cons vc vrest =>
    have hq1 : ¬(vc = '"') := by
      intro he
      have := hvch vc (List.mem_cons_self vc vrest)
      rw [he] at this
      exact absurd this (by decide)
    have hq2 : ¬(vc = '\'') := by
      intro he
      have := hvch vc (List.mem_cons_self vc vrest)
      rw [he] at this
      exact absurd this (by decide)
    have hneb : ename.isEmpty = false := by
      cases ename with
      | nil => exact absurd rfl hne
      | cons a as => rfl
    have hvtw2 : List.takeWhile valueChar (vc :: (vrest ++ ']' :: rest)) = vc :: vrest := hvtw
    have hvdw2 : List.dropWhile valueChar (vc :: (vrest ++ ']' :: rest)) = ']' :: rest := hvdw
    have htw2 : List.takeWhile nameChar (ename ++ '=' :: vc :: (vrest ++ ']' :: rest)) =
        ename := htw
    have hdw2 : List.dropWhile nameChar (ename ++ '=' :: vc :: (vrest ++ ']' :: rest)) =
        '=' :: vc :: (vrest ++ ']' :: rest) := hdw
    have hattr : attrAt ('[' :: (ename ++ '=' :: ((vc :: vrest) ++ ']' :: rest))) =
        some (.attrTok ename (some (vc :: vrest)), rest) := by
      simp only [attrAt, List.cons_append, htw2, hdw2, hneb, hq1, hq2, hvtw2, hvdw2,
        Bool.false_eq_true, if_false, Bool.or_self, decide_eq_true_eq]
    have hm : matchAt ('[' :: (ename ++ '=' :: ((vc :: vrest) ++ ']' :: rest))) =
        some (.attrTok ename (some (vc :: vrest)), rest) := by
      rw [matchAt, notOpenAt_none '[' _ (by decide)]
      dsimp only
      rw [fragAt_none '[' _ (by decide) (by decide) (by decide)]
      dsimp only
      rw [hattr]
    exact tokenize_cons_some hm

/-- A nonempty `[-\w]+` run. -/
def isTagRun (s : String) : Bool := !s.data.isEmpty && s.data.all tagChar

/-- Already in lowercase form (fixed by `toLowerCase`). -/
def lowerFixed (s : String) : Bool := jsLower s == s

/-- An unescaped attribute name as stored by `parse`: characters from
`[-.\w*$]` (no backslash survives unescaping). -/
def plainName (s : String) : Bool := s.data.all (fun c => nameChar c && !(c = '\\'))

def isValueStr (s : String) : Bool := s.data.all valueChar

/-- Shape of a negation member as stored by `parse` (nested `:not` is
rejected, so its own `notSelectors` is empty). -/
def WFInner (s : CssSelector) : Bool :=
  (match s.element with | none => true | some e => isTagRun e) &&
  s.classNames.all (fun k => isTagRun k && lowerFixed k) &&
  s.attrs.all (fun p => plainName p.1 && isValueStr p.2 && lowerFixed p.2) &&
  s.notSelectors.isEmpty

/-- Shape of a top-level parse result (after `_addResult` sealing). -/
def WFTop (s : CssSelector) : Bool :=
  (match s.element with
   | none => true
   | some e => isTagRun e ||
      (e == "*" && s.classNames.isEmpty && s.attrs.isEmpty && !s.notSelectors.isEmpty)) &&
  s.classNames.all (fun k => isTagRun k && lowerFixed k) &&
  s.attrs.all (fun p => plainName p.1 && isValueStr p.2 && lowerFixed p.2) &&
  s.notSelectors.all WFInner &&
  !(elementFalsy s.element && s.classNames.isEmpty && s.attrs.isEmpty &&
    !s.notSelectors.isEmpty)

/-- No attribute of the selector, nor of any of its negation members, has an
empty name (negation members carry no negations of their own in parse
output, so one level of recursion is exhaustive). -/
def noEmptyAttrNames (s : CssSelector) : Bool :=
  s.attrs.all (fun p => !(p.1 == "")) &&
  s.notSelectors.all (fun n => n.attrs.all (fun p => !(p.1 == "")))

/-- The tokens the serialized element contributes (`*` is not matched by any
alternative of the regexp and is skipped by the scanner). -/
def elementToks (e : Option String) : List SelToken :=
  match e with
  | none => []
  | some s => if s = "*" then [] else [.fragment none s.data]

def tokensOfInner (s : CssSelector) : List SelToken :=
  elementToks s.element ++
  s.classNames.map (fun k => .fragment (some '.') k.data) ++
  s.attrs.map (fun p => .attrTok (escapeChars p.1.data)
    (if p.2 = "" then none else some p.2.data))

def tokensOfTop (s : CssSelector) : List SelToken :=
  tokensOfInner s ++
  (s.notSelectors.map (fun n => .notOpen :: (tokensOfInner n ++ [.notClose]))).flatten

theorem tagBoundary_cons (c : Char) (X : List Char) (h : tagChar c = false) :
    TagBoundary (c :: X) := by
  intro d ds hd
  injection hd with h1 _
  rw [← h1]
  exact h

theorem tagBoundary_nil : TagBoundary [] := by
  intro d ds hd
  exact absurd hd (by simp)

theorem string_data_nil (s : String) (h : s.data = []) : s = "" := by
  cases s with
  | mk d =>
    simp only at h
    rw [h]

theorem tokenize_classParts (cls : List String)
    (h : ∀ k ∈ cls, isTagRun k = true) :
    ∀ (rest : List Char), TagBoundary rest →
    tokenize ((cls.map (fun k => '.' :: k.data)).flatten ++ rest) =
      cls.map (fun k => SelToken.fragment (some '.') k.data) ++ tokenize rest := by
  induction cls with
  | nil => intro rest _; rfl
  | cons k ks ih =>
    intro rest hb
    have hk := h k (List.mem_cons_self k ks)
    have hkne : k.data ≠ [] := by
      intro hd
      rw [isTagRun, hd] at hk
      exact absurd hk (by decide)
    have hkall : ∀ x ∈ k.data, tagChar x = true := by
      intro x hx
      rw [isTagRun, Bool.and_eq_true, List.all_eq_true] at hk
      exact hk.2 x hx
    have hb2 : TagBoundary ((ks.map (fun k => '.' :: k.data)).flatten ++ rest) := by
      cases ks with
      | nil => exact hb
      | cons k2 ks2 => exact tagBoundary_cons '.' _ (by decide)
    rw [List.map_cons, List.flatten_cons, List.append_assoc, List.cons_append]
    rw [tokStep_frag_dot k.data _ hkne hkall hb2]
    rw [ih (fun x hx => h x (List.mem_cons_of_mem k hx)) rest hb]
    rfl

theorem tokenize_attrParts (attrs : List (String × String))
    (h : ∀ p ∈ attrs, plainName p.1 = true ∧ ¬(p.1 = "") ∧ isValueStr p.2 = true) :
    ∀ (rest : List Char),
    tokenize ((attrs.map (fun p =>
        '[' :: (escapeChars p.1.data ++
          (if p.2 = "" then [] else '=' :: p.2.data) ++ [']']))).flatten ++ rest) =
      attrs.map (fun p => SelToken.attrTok (escapeChars p.1.data)
        (if p.2 = "" then none else some p.2.data)) ++ tokenize rest := by
  induction attrs with
  | nil => intro rest; rfl
  | cons p ps ih =>
    intro rest
    obtain ⟨hp1, hp1ne, hp2⟩ := h p (List.mem_cons_self p ps)
    have hename_ne : escapeChars p.1.data ≠ [] :=
      escapeChars_ne_nil _ (fun hd => hp1ne (string_data_nil p.1 hd))
    have hename_ch : ∀ c ∈ escapeChars p.1.data, nameChar c = true := by
      refine escapeChars_chars _ ?_
      intro c hc
      rw [plainName, List.all_eq_true] at hp1
      have := hp1 c hc
      rw [Bool.and_eq_true] at this
      exact this.1
    by_cases hval : p.2 = ""
    · simp only [List.map_cons, List.flatten_cons]
      rw [if_pos hval, if_pos hval]
      simp only [List.append_nil, List.nil_append, List.cons_append, List.append_assoc,
        List.singleton_append]
      rw [tokStep_attr_noval _ _ hename_ne hename_ch]
      have ih2 := ih (fun x hx => h x (List.mem_cons_of_mem p hx)) rest
      simp only [List.append_assoc] at ih2
      rw [ih2]
    · simp only [List.map_cons, List.flatten_cons]
      rw [if_neg hval, if_neg hval]
      have hvne : p.2.data ≠ [] := fun hd => hval (string_data_nil p.2 hd)
      have hvch : ∀ c ∈ p.2.data, valueChar c = true := by
        intro c hc
        rw [isValueStr, List.all_eq_true] at hp2
        exact hp2 c hc
      simp only [List.cons_append, List.append_assoc, List.singleton_append]
      rw [tokStep_attr_val _ _ _ hename_ne hename_ch hvne hvch]
      have ih2 := ih (fun x hx => h x (List.mem_cons_of_mem p hx)) rest
      simp only [List.append_assoc] at ih2
      rw [List.nil_append, ih2]

theorem tokenize_serialize_inner (s : CssSelector) (hwf : WFInner s = true)
    (hna : s.attrs.all (fun p => !(p.1 == "")) = true)
    (rest : List Char) (hb : TagBoundary rest) :
    tokenize (serializeSel s ++ rest) = tokensOfInner s ++ tokenize rest := by
  cases s with
  | mk e cls attrs nots =>
    rw [WFInner] at hwf
    simp only [CssSelector.element, CssSelector.classNames, CssSelector.attrs,
      CssSelector.notSelectors, Bool.and_eq_true, List.all_eq_true] at hwf
    obtain ⟨⟨⟨hel, hcls⟩, hattrs⟩, hnotsE⟩ := hwf
    have hnots : nots = [] := by
      cases nots with
      | nil => rfl
      | cons x xs => exact absurd hnotsE (by simp)
    simp only [CssSelector.attrs, List.all_eq_true] at hna
    have hattrOk : ∀ p ∈ attrs, plainName p.1 = true ∧ ¬(p.1 = "") ∧ isValueStr p.2 = true := by
      intro p hp
      have h1 := hattrs p hp
      have h2 := hna p hp
      refine ⟨h1.1.1, ?_, h1.1.2⟩
      intro he
      rw [he] at h2
      exact absurd h2 (by decide)
    have hclsOk : ∀ k ∈ cls, isTagRun k = true := fun k hk => (hcls k hk).1
    rw [serializeSel_eq, hnots]
    simp only [List.map_nil, List.flatten_nil, List.append_nil]
    rw [List.append_assoc, List.append_assoc]
    have hbnd : TagBoundary ((cls.map (fun k => '.' :: k.data)).flatten ++
        ((attrs.map (fun p =>
          '[' :: (escapeChars p.1.data ++
            (if p.2 = "" then [] else '=' :: p.2.data) ++ [']']))).flatten ++ rest)) := by
      cases cls with
      | cons k ks => exact tagBoundary_cons '.' _ (by decide)
      | nil =>
        cases attrs with
        | cons p psx => exact tagBoundary_cons '[' _ (by decide)
        | nil => exact hb
    have hbnd2 : TagBoundary ((attrs.map (fun p =>
        '[' :: (escapeChars p.1.data ++
          (if p.2 = "" then [] else '=' :: p.2.data) ++ [']']))).flatten ++ rest) := by
      cases attrs with
      | cons p psx => exact tagBoundary_cons '[' _ (by decide)
      | nil => exact hb
    cases e with
    | none =>
      rw [show (Option.getD (none : Option String) "").data = ([] : List Char) from rfl,
        List.nil_append]
      rw [tokenize_classParts cls hclsOk _ hbnd2]
      rw [tokenize_attrParts attrs hattrOk rest]
      rw [tokensOfInner]
      simp only [CssSelector.element, CssSelector.classNames, CssSelector.attrs,
        elementToks, List.nil_append, List.append_assoc]
    | some es =>
      have hesrun : isTagRun es = true := hel
      have hesne : es.data ≠ [] := by
        intro hd
        rw [isTagRun, hd] at hesrun
        exact absurd hesrun (by decide)
      have hesall : ∀ x ∈ es.data, tagChar x = true := by
        intro x hx
        rw [isTagRun, Bool.and_eq_true, List.all_eq_true] at hesrun
        exact hesrun.2 x hx
      cases hdata : es.data with
      | nil => exact absurd hdata hesne
      | cons c cs =>
        have hstar : ¬(es = "*") := by
          intro he
          have := hesall c (by rw [hdata]; exact List.mem_cons_self c cs)
          rw [he] at hdata
          have hc : c = '*' := by
            have : (['*'] : List Char) = c :: cs := hdata
            injection this with h1 _
            exact h1.symm
          rw [hc] at this
          exact absurd this (by decide)
        rw [show (Option.getD (some es) "").data = es.data from rfl, hdata]
        rw [tokStep_frag_plain c cs _
          (hesall c (by rw [hdata]; exact List.mem_cons_self c cs))
          (fun x hx => hesall x (by rw [hdata]; exact List.mem_cons_of_mem c hx)) hbnd]
        rw [tokenize_classParts cls hclsOk _ hbnd2]
        rw [tokenize_attrParts attrs hattrOk rest]
        rw [tokensOfInner]
        simp only [CssSelector.element, CssSelector.classNames, CssSelector.attrs,
          elementToks]
        rw [if_neg hstar, hdata]
        simp only [List.cons_append, List.nil_append, List.append_assoc]

theorem tokenize_notParts (nots : List CssSelector)
    (h : ∀ n ∈ nots, WFInner n = true)
    (hna : ∀ n ∈ nots, n.attrs.all (fun p => !(p.1 == "")) = true) :
    ∀ (rest : List Char),
    tokenize ((nots.map (fun n =>
        ':' :: 'n' :: 'o' :: 't' :: '(' :: (serializeSel n ++ [')']))).flatten ++ rest) =
      (nots.map (fun n =>
        SelToken.notOpen :: (tokensOfInner n ++ [SelToken.notClose]))).flatten ++
        tokenize rest := by
  induction nots with
  | nil => intro rest; rfl
  | cons n ns ih =>
    intro rest
    simp only [List.map_cons, List.flatten_cons, List.cons_append, List.append_assoc,
      List.singleton_append]
    rw [tokStep_notOpen]
    rw [tokenize_serialize_inner n (h n (List.mem_cons_self n ns))
      (hna n (List.mem_cons_self n ns)) _ (tagBoundary_cons ')' _ (by decide))]
    rw [tokStep_notClose]
    have ih2 := ih (fun x hx => h x (List.mem_cons_of_mem n hx))
      (fun x hx => hna x (List.mem_cons_of_mem n hx)) rest
    simp only [List.nil_append]
    rw [ih2]

/-- Tokenizing the serialization of a well-formed sealed selector yields its
canonical token stream, in front of whatever follows a word-run boundary. -/
theorem elementToks_star : elementToks (some "*") = [] := by
  rw [elementToks, if_pos rfl]

theorem tokenize_serialize_top (s : CssSelector) (hwf : WFTop s = true)
    (hna : noEmptyAttrNames s = true)
    (rest : List Char) (hb : TagBoundary rest) :
    tokenize (serializeSel s ++ rest) = tokensOfTop s ++ tokenize rest := by
  cases s with
  | mk e cls attrs nots =>
    rw [WFTop] at hwf
    simp only [CssSelector.element, CssSelector.classNames, CssSelector.attrs,
      CssSelector.notSelectors, Bool.and_eq_true, List.all_eq_true] at hwf
    obtain ⟨⟨⟨⟨hel, hcls⟩, hattrs⟩, hnotsWF⟩, hseal⟩ := hwf
    rw [noEmptyAttrNames] at hna
    simp only [CssSelector.attrs, CssSelector.notSelectors, Bool.and_eq_true,
      List.all_eq_true] at hna
    have hattrOk : ∀ p ∈ attrs, plainName p.1 = true ∧ ¬(p.1 = "") ∧ isValueStr p.2 = true := by
      intro p hp
      have h1 := hattrs p hp
      have h2 := hna.1 p hp
      refine ⟨h1.1.1, ?_, h1.1.2⟩
      intro he
      rw [he] at h2
      exact absurd h2 (by decide)
    have hclsOk : ∀ k ∈ cls, isTagRun k = true := fun k hk => (hcls k hk).1
    rw [serializeSel_eq]
    rw [List.append_assoc, List.append_assoc, List.append_assoc]
    have hbnot : ∀ (tl : List Char),
        tokenize ((nots.map (fun n =>
          ':' :: 'n' :: 'o' :: 't' :: '(' :: (serializeSel n ++ [')']))).flatten ++ tl) =
        (nots.map (fun n =>
          SelToken.notOpen :: (tokensOfInner n ++ [SelToken.notClose]))).flatten ++
          tokenize tl :=
      tokenize_notParts nots hnotsWF
        (fun n hn => List.all_eq_true.mpr (fun x hx => hna.2 n hn x hx))
    have hbnd3 : TagBoundary ((nots.map (fun n =>
        ':' :: 'n' :: 'o' :: 't' :: '(' :: (serializeSel n ++ [')']))).flatten ++ rest) := by
      cases nots with
      | cons x xs => exact tagBoundary_cons ':' _ (by decide)
      | nil => exact hb
    have hbnd2 : TagBoundary ((attrs.map (fun p =>
        '[' :: (escapeChars p.1.data ++
          (if p.2 = "" then [] else '=' :: p.2.data) ++ [']']))).flatten ++
        ((nots.map (fun n =>
          ':' :: 'n' :: 'o' :: 't' :: '(' :: (serializeSel n ++ [')']))).flatten ++ rest)) := by
      cases attrs with
      | cons p psx => exact tagBoundary_cons '[' _ (by decide)
      | nil => exact hbnd3
    have hbnd1 : TagBoundary ((cls.map (fun k => '.' :: k.data)).flatten ++
        ((attrs.map (fun p =>
          '[' :: (escapeChars p.1.data ++
            (if p.2 = "" then [] else '=' :: p.2.data) ++ [']']))).flatten ++
        ((nots.map (fun n =>
          ':' :: 'n' :: 'o' :: 't' :: '(' :: (serializeSel n ++ [')']))).flatten ++ rest))) := by
      cases cls with
      | cons k ks => exact tagBoundary_cons '.' _ (by decide)
      | nil => exact hbnd2
    cases e with
    | none =>
      rw [show (Option.getD (none : Option String) "").data = ([] : List Char) from rfl,
        List.nil_append]
      rw [tokenize_classParts cls hclsOk _ hbnd2]
      rw [tokenize_attrParts attrs hattrOk]
      rw [hbnot rest]
      rw [tokensOfTop, tokensOfInner]
      simp only [CssSelector.element, CssSelector.classNames, CssSelector.attrs,
        CssSelector.notSelectors, elementToks, List.nil_append, List.append_assoc]
    | some es =>
      by_cases hstar : es = "*"
      · have hcond := hseal
        rw [hstar] at hcond ⊢
        -- element "*": the char '*' is skipped by the scanner
        rw [show (Option.getD (some "*") "").data = ['*'] from rfl]
        rw [show ((['*'] : List Char) ++ ((cls.map (fun k => '.' :: k.data)).flatten ++ _)) =
          '*' :: ((cls.map (fun k => '.' :: k.data)).flatten ++ _) from rfl]
        rw [tokStep_star]
        rw [tokenize_classParts cls hclsOk _ hbnd2]
        rw [tokenize_attrParts attrs hattrOk]
        rw [hbnot rest]
        rw [tokensOfTop, tokensOfInner]
        simp only [CssSelector.element, CssSelector.classNames, CssSelector.attrs,
          CssSelector.notSelectors, elementToks_star, List.nil_append, List.append_assoc]
      · have hesrun : isTagRun es = true := by
          have hel2 : (isTagRun es ||
              (es == "*" && cls.isEmpty && attrs.isEmpty && !nots.isEmpty)) = true := hel
          rw [Bool.or_eq_true] at hel2
          rcases hel2 with hrun | hcond2
          · exact hrun
          · rw [Bool.and_eq_true, Bool.and_eq_true, Bool.and_eq_true] at hcond2
            exact absurd (beq_iff_eq.mp hcond2.1.1.1) hstar
        have hesne : es.data ≠ [] := by
          intro hd
          rw [isTagRun, hd] at hesrun
          exact absurd hesrun (by decide)
        have hesall : ∀ x ∈ es.data, tagChar x = true := by
          intro x hx
          rw [isTagRun, Bool.and_eq_true, List.all_eq_true] at hesrun
          exact hesrun.2 x hx
        cases hdata : es.data with
        | nil => exact absurd hdata hesne
        | cons c cs =>
          rw [show (Option.getD (some es) "").data = es.data from rfl, hdata]
          rw [tokStep_frag_plain c cs _
            (hesall c (by rw [hdata]; exact List.mem_cons_self c cs))
            (fun x hx => hesall x (by rw [hdata]; exact List.mem_cons_of_mem c hx)) hbnd1]
          rw [tokenize_classParts cls hclsOk _ hbnd2]
          rw [tokenize_attrParts attrs hattrOk]
          rw [hbnot rest]
          rw [tokensOfTop, tokensOfInner]
          simp only [CssSelector.element, CssSelector.classNames, CssSelector.attrs,
            CssSelector.notSelectors, elementToks]
          rw [if_neg hstar, hdata]
          simp only [List.cons_append, List.nil_append, List.append_assoc]

theorem intercalate_comma : ∀ (xs : List (List Char)) (x : List Char),
    List.intercalate [','] (x :: xs) = x ++ (xs.map (fun y => ',' :: y)).flatten := by
  intro xs
  induction xs with
  | nil => intro x; simp [List.intercalate, List.intersperse]
  | cons y ys ih =>
    intro x
    rw [List.intercalate, List.intersperse_cons_cons, List.flatten_cons, List.flatten_cons]
    have ihy := ih y
    rw [List.intercalate] at ihy
    rw [ihy]
    simp [List.append_assoc]

def tokensOfList : List CssSelector → List SelToken
  | [] => []
  | s :: rest => tokensOfTop s ++
      (rest.map (fun r => SelToken.separator :: tokensOfTop r)).flatten

theorem tagChar_not_space (c : Char) (h : tagChar c = true) : spaceChar c = false := by
  cases hs : spaceChar c
  · rfl
  · exfalso
    rw [spaceChar] at hs
    simp only [Bool.or_eq_true, decide_eq_true_eq] at hs
    rcases hs with ((((h1 | h1) | h1) | h1) | h1) | h1 <;>
      (subst h1; exact absurd h (by decide))

/-- `spaceChar`-freeness of the first character of a serialized selector. -/
theorem serialize_head_nospace (s : CssSelector) (hwf : WFTop s = true) :
    ∀ d ds, serializeSel s = d :: ds → spaceChar d = false := by
  cases s with
  | mk e cls attrs nots =>
    rw [WFTop] at hwf
    simp only [CssSelector.element, CssSelector.classNames, CssSelector.attrs,
      CssSelector.notSelectors, Bool.and_eq_true, List.all_eq_true] at hwf
    obtain ⟨⟨⟨⟨hel, hcls⟩, _⟩, _⟩, _⟩ := hwf
    intro d ds hd
    rw [serializeSel_eq] at hd
    have hsplit : ∀ (A B : List Char) (x : Char) (xs : List Char), A ++ B = x :: xs →
        (∀ a tl, A = a :: tl → spaceChar a = false) →
        (∀ a tl, B = a :: tl → spaceChar a = false) → spaceChar x = false := by
      intro A B x xs hab hA hB
      cases A with
      | nil => exact hB x xs hab
      | cons a tl =>
        rw [List.cons_append] at hab
        injection hab with h1 _
        exact h1 ▸ hA a tl rfl
    rw [List.append_assoc, List.append_assoc] at hd
    refine hsplit _ _ _ _ hd ?_ ?_
    · intro a tl ha
      cases e with
      | none => exact absurd ha (by simp)
      | some es =>
        by_cases hstar : es = "*"
        · rw [hstar] at ha
          have : (['*'] : List Char) = a :: tl := ha
          injection this with h1 _
          rw [← h1]
          decide
        · have hesrun : isTagRun es = true := by
            have hel2 : (isTagRun es ||
                (es == "*" && cls.isEmpty && attrs.isEmpty && !nots.isEmpty)) = true := hel
            rw [Bool.or_eq_true] at hel2
            rcases hel2 with hrun | hcond2
            · exact hrun
            · rw [Bool.and_eq_true, Bool.and_eq_true, Bool.and_eq_true] at hcond2
              exact absurd (beq_iff_eq.mp hcond2.1.1.1) hstar
          have ha2 : es.data = a :: tl := ha
          rw [isTagRun, Bool.and_eq_true, List.all_eq_true] at hesrun
          exact tagChar_not_space a (hesrun.2 a (by rw [ha2]; exact List.mem_cons_self a tl))
    · intro a tl ha
      refine hsplit _ _ _ _ ha ?_ ?_
      · intro b bl hbm
        cases cls with
        | nil => exact absurd hbm (by simp)
        | cons k ks =>
          have : '.' :: (k.data ++ ((ks.map (fun k => '.' :: k.data)).flatten)) = b :: bl := hbm
          injection this with h1 _
          rw [← h1]
          decide
      · intro b bl hbm
        refine hsplit _ _ _ _ hbm ?_ ?_
        · intro cch cl hcm
          cases attrs with
          | nil => exact absurd hcm (by simp)
          | cons p psx =>
            have : '[' :: ((escapeChars p.1.data ++
                (if p.2 = "" then [] else '=' :: p.2.data) ++ [']']) ++
                ((psx.map (fun p => '[' :: (escapeChars p.1.data ++
                  (if p.2 = "" then [] else '=' :: p.2.data) ++ [']']))).flatten)) =
                cch :: cl := hcm
            injection this with h1 _
            rw [← h1]
            decide
        · intro cch cl hcm
          cases nots with
          | nil => exact absurd hcm (by simp)
          | cons n ns =>
            have : ':' :: ('n' :: 'o' :: 't' :: '(' :: ((serializeSel n ++ [')']) ++
                ((ns.map (fun n => ':' :: 'n' :: 'o' :: 't' :: '(' ::
                  (serializeSel n ++ [')']))).flatten))) = cch :: cl := hcm
            injection this with h1 _
            rw [← h1]
            decide

/-- Tokenizing the comma-joined serialization of a list of well-formed
selectors yields the concatenated canonical token streams with separators. -/
theorem tokenize_serializeList (l : List CssSelector)
    (hl : ∀ s ∈ l, WFTop s = true ∧ noEmptyAttrNames s = true) (hne : l ≠ []) :
    tokenize (serializeList l) = tokensOfList l := by
  cases l with
  | nil => exact absurd rfl hne
  | cons s rest =>
    rw [serializeList, List.map_cons, intercalate_comma]
    have htail : ∀ (rs : List CssSelector),
        (∀ x ∈ rs, WFTop x = true ∧ noEmptyAttrNames x = true) →
        tokenize (((rs.map serializeSel).map (fun y => ',' :: y)).flatten) =
          (rs.map (fun r => SelToken.separator :: tokensOfTop r)).flatten := by
      intro rs
      induction rs with
      | nil => intro _; rfl
      | cons r rs2 ih2 =>
        intro hx
        obtain ⟨hwfr, hnar⟩ := hx r (List.mem_cons_self r rs2)
        simp only [List.map_cons, List.flatten_cons, List.cons_append]
        have hbF : ∀ d ds, (serializeSel r ++
            (((rs2.map serializeSel).map (fun y => ',' :: y)).flatten) : List Char) =
            d :: ds → spaceChar d = false := by
          intro d ds hd
          cases hsr : serializeSel r with
          | nil =>
            rw [hsr, List.nil_append] at hd
            cases rs2 with
            | nil => exact absurd hd (by simp)
            | cons r2 rs3 =>
              simp only [List.map_cons, List.flatten_cons, List.cons_append] at hd
              injection hd with h1 _
              rw [← h1]
              decide
          | cons a tl =>
            rw [hsr, List.cons_append] at hd
            injection hd with h1 _
            rw [← h1]
            exact serialize_head_nospace r hwfr a tl hsr
        rw [tokStep_sep _ hbF]
        have hbT : TagBoundary (((rs2.map serializeSel).map (fun y => ',' :: y)).flatten) := by
          cases rs2 with
          | nil => exact tagBoundary_nil
          | cons r2 rs3 => exact tagBoundary_cons ',' _ (by decide)
        rw [tokenize_serialize_top r hwfr hnar _ hbT]
        rw [ih2 (fun x hxm => hx x (List.mem_cons_of_mem r hxm))]
    have hbT0 : TagBoundary (((rest.map serializeSel).map (fun y => ',' :: y)).flatten) := by
      cases rest with
      | nil => exact tagBoundary_nil
      | cons r2 rs3 => exact tagBoundary_cons ',' _ (by decide)
    rw [show ((rest.map serializeSel).map (fun y => ',' :: y) :
      List (List Char)) = (rest.map serializeSel).map (fun y => ',' :: y) from rfl]
    rw [tokenize_serialize_top s (hl s (List.mem_cons_self s rest)).1
      (hl s (List.mem_cons_self s rest)).2 _ hbT0]
    rw [htail rest (fun x hxm => hl x (List.mem_cons_of_mem s hxm))]
    rfl

def elemF (e : Option String) (cur : CssSelector) : CssSelector :=
  match e with
  | none => cur
  | some es => if es = "*" then cur else cur.setElement es

def addClasses (cls : List String) (cur : CssSelector) : CssSelector :=
  match cur with
  | .mk ce cc ca cn => .mk ce (cc ++ cls) ca cn

def addAttrs (ats : List (String × String)) (cur : CssSelector) : CssSelector :=
  match cur with
  | .mk ce cc ca cn => .mk ce cc (ca ++ ats) cn

theorem updateLast_id : ∀ (l : List CssSelector), updateLast (fun x => x) l = l := by
  intro l
  induction l with
  | nil => rfl
  | cons x xs ih =>
    cases xs with
    | nil => rfl
    | cons y ys =>
      rw [updateLast]
      rw [show updateLast (fun x => x) (y :: ys) = y :: ys from ih]

theorem applyCurrent_id (b : Bool) (top : CssSelector) :
    applyCurrent b (fun x => x) top = top := by
  cases b with
  | false => rfl
  | true =>
    cases top with
    | mk e c a n =>
      rw [applyCurrent, if_pos rfl, updateLast_id]

theorem updateLast_comp (f g : CssSelector → CssSelector) : ∀ (l : List CssSelector),
    updateLast f (updateLast g l) = updateLast (fun x => f (g x)) l := by
  intro l
  induction l with
  | nil => rfl
  | cons x xs ih =>
    cases xs with
    | nil => rfl
    | cons y ys =>
      cases hud : updateLast g (y :: ys) with
      | nil =>
        exfalso
        cases ys with
        | nil => exact List.noConfusion hud
        | cons z zs => exact List.noConfusion hud
      | cons z zs =>
        show updateLast f (x :: updateLast g (y :: ys)) =
          x :: updateLast (fun v => f (g v)) (y :: ys)
        rw [hud]
        show x :: updateLast f (z :: zs) = x :: updateLast (fun v => f (g v)) (y :: ys)
        rw [← hud, ih]

theorem applyCurrent_comp (b : Bool) (f g : CssSelector → CssSelector)
    (top : CssSelector) :
    applyCurrent b f (applyCurrent b g top) = applyCurrent b (fun x => f (g x)) top := by
  cases b with
  | false => rfl
  | true =>
    cases top with
    | mk e c a n =>
      rw [applyCurrent, if_pos rfl, applyCurrent, if_pos rfl, applyCurrent, if_pos rfl]
      rw [updateLast_comp]

theorem updateLast_append_singleton (f : CssSelector → CssSelector) :
    ∀ (l : List CssSelector) (x : CssSelector),
      updateLast f (l ++ [x]) = l ++ [f x] := by
  intro l
  induction l with
  | nil => intro x; rfl
  | cons y ys ih =>
    intro x
    cases hys : ys ++ [x] with
    | nil => exact absurd hys (by simp)
    | cons z zs =>
      show updateLast f (y :: (ys ++ [x])) = y :: (ys ++ [f x])
      rw [hys]
      show y :: updateLast f (z :: zs) = y :: (ys ++ [f x])
      rw [← hys, ih x]

theorem fold_elemToks (e : Option String) :
    ∀ (res : List CssSelector) (top : CssSelector) (b : Bool),
      (elementToks e).foldlM applyTok ⟨res, top, b⟩ =
        .ok ⟨res, applyCurrent b (elemF e) top, b⟩ := by
  intro res top b
  cases e with
  | none =>
    rw [show elementToks none = [] from rfl, List.foldlM_nil]
    rw [show applyCurrent b (elemF none) top = top from applyCurrent_id b top]
    rfl
  | some es =>
    by_cases hstar : es = "*"
    · rw [elementToks, if_pos hstar]
      rw [List.foldlM_nil]
      have hid : elemF (some es) = fun x => x := by
        funext cur
        rw [elemF, if_pos hstar]
      rw [hid, applyCurrent_id]
      rfl
    · rw [elementToks, if_neg hstar]
      have hE : elemF (some es) = fun s => s.setElement es := by
        funext cur
        rw [elemF, if_neg hstar]
      rw [hE]
      rfl

theorem fold_classToks (cls : List String)
    (h : ∀ k ∈ cls, lowerFixed k = true) :
    ∀ (res : List CssSelector) (top : CssSelector) (b : Bool),
      (cls.map (fun k => SelToken.fragment (some '.') k.data)).foldlM applyTok
        ⟨res, top, b⟩ = .ok ⟨res, applyCurrent b (addClasses cls) top, b⟩ := by
  induction cls with
  | nil =>
    intro res top b
    rw [List.map_nil, List.foldlM_nil]
    have hid : addClasses [] = fun x => x := by
      funext cur
      cases cur with
      | mk ce cc ca cn => simp [addClasses]
    rw [hid, applyCurrent_id]
    rfl
  | cons k ks ih =>
    intro res top b
    rw [List.map_cons, List.foldlM_cons]
    have hstep : applyTok ⟨res, top, b⟩ (.fragment (some '.') k.data) =
        .ok ⟨res, applyCurrent b (fun s => s.addClassName k) top, b⟩ := rfl
    rw [hstep]
    show (ks.map (fun k => SelToken.fragment (some '.') k.data)).foldlM applyTok
        ⟨res, applyCurrent b (fun s => s.addClassName k) top, b⟩ = _
    rw [ih (fun x hx => h x (List.mem_cons_of_mem k hx)) res _ b]
    rw [applyCurrent_comp]
    have hk : jsLower k = k := by
      have := h k (List.mem_cons_self k ks)
      rw [lowerFixed] at this
      exact beq_iff_eq.mp this
    have hfun : (fun x => addClasses ks ((fun s => s.addClassName k) x)) =
        addClasses (k :: ks) := by
      funext cur
      cases cur with
      | mk ce cc ca cn =>
        simp [addClasses, CssSelector.addClassName, hk]
    rw [hfun]

theorem fold_attrToks (ats : List (String × String))
    (h : ∀ p ∈ ats, plainName p.1 = true ∧ lowerFixed p.2 = true) :
    ∀ (res : List CssSelector) (top : CssSelector) (b : Bool),
      (ats.map (fun p => SelToken.attrTok (escapeChars p.1.data)
        (if p.2 = "" then none else some p.2.data))).foldlM applyTok ⟨res, top, b⟩ =
      .ok ⟨res, applyCurrent b (addAttrs ats) top, b⟩ := by
  induction ats with
  | nil =>
    intro res top b
    rw [List.map_nil, List.foldlM_nil]
    have hid : addAttrs [] = fun x => x := by
      funext cur
      cases cur with
      | mk ce cc ca cn => simp [addAttrs]
    rw [hid, applyCurrent_id]
    rfl
  | cons p ps ih =>
    intro res top b
    obtain ⟨hp1, hp2⟩ := h p (List.mem_cons_self p ps)
    have hbs : ∀ c ∈ p.1.data, ¬(c = '\\') := by
      intro c hc
      rw [plainName, List.all_eq_true] at hp1
      have := hp1 c hc
      rw [Bool.and_eq_true] at this
      have h2 := this.2
      intro he
      rw [he] at h2
      exact absurd h2 (by decide)
    rw [List.map_cons, List.foldlM_cons]
    have hstep : applyTok ⟨res, top, b⟩ (.attrTok (escapeChars p.1.data)
        (if p.2 = "" then none else some p.2.data)) =
        .ok ⟨res, applyCurrent b
          (fun s => s.addAttribute p.1
            ((if p.2 = "" then none else some p.2.data).map String.mk)) top, b⟩ := by
      rw [applyTok]
      rw [unescape_escape p.1.data hbs]
    rw [hstep]
    show (ps.map (fun p => SelToken.attrTok (escapeChars p.1.data)
        (if p.2 = "" then none else some p.2.data))).foldlM applyTok
        ⟨res, applyCurrent b (fun s => s.addAttribute p.1
          ((if p.2 = "" then none else some p.2.data).map String.mk)) top, b⟩ = _
    rw [ih (fun x hx => h x (List.mem_cons_of_mem p hx)) res _ b]
    rw [applyCurrent_comp]
    have hval2 : jsLower (String.mk ((if p.2 = "" then none else
        some p.2.data).getD [])) = p.2 := by
      by_cases hv : p.2 = ""
      · rw [if_pos hv, hv]
        rfl
      · rw [if_neg hv]
        rw [show String.mk ((some p.2.data).getD []) = p.2 from rfl]
        rw [lowerFixed] at hp2
        exact beq_iff_eq.mp hp2
    have hfun : (fun x => addAttrs ps ((fun s => s.addAttribute p.1
        ((if p.2 = "" then none else some p.2.data).map String.mk)) x)) =
        addAttrs (p :: ps) := by
      funext cur
      cases cur with
      | mk ce cc ca cn =>
        simp [addAttrs, CssSelector.addAttribute, hval2]
    rw [hfun]

/-- Processing the inner token stream composes the element, class and
attribute updates on the current selector. -/
theorem except_bind_ok {α β : Type} (a : α) (f : α → Except ParseErr β) :
    ((Except.ok a : Except ParseErr α) >>= f) = f a := rfl

theorem except_bind_pure {α β : Type} (a : α) (f : α → Except ParseErr β) :
    ((pure a : Except ParseErr α) >>= f) = f a := rfl

/-- Processing the inner token stream composes the element, class and
attribute updates on the current selector. -/
theorem fold_tokensOfInner (n : CssSelector)
    (hcls : ∀ k ∈ n.classNames, lowerFixed k = true)
    (hattrs : ∀ p ∈ n.attrs, plainName p.1 = true ∧ lowerFixed p.2 = true) :
    ∀ (res : List CssSelector) (top : CssSelector) (b : Bool),
      (tokensOfInner n).foldlM applyTok ⟨res, top, b⟩ =
        .ok ⟨res, applyCurrent b
          (fun cur => addAttrs n.attrs (addClasses n.classNames (elemF n.element cur)))
          top, b⟩ := by
  intro res top b
  rw [tokensOfInner, List.foldlM_append, List.foldlM_append]
  rw [fold_elemToks n.element res top b, except_bind_ok]
  rw [fold_classToks n.classNames hcls res _ b, except_bind_ok]
  rw [fold_attrToks n.attrs hattrs res _ b]
  rw [applyCurrent_comp, applyCurrent_comp]

def pushNots (nots : List CssSelector) (top : CssSelector) : CssSelector :=
  match top with
  | .mk te tc ta tn => .mk te tc ta (tn ++ nots)

theorem innerF_empty (n : CssSelector) (hwf : WFInner n = true) :
    addAttrs n.attrs (addClasses n.classNames (elemF n.element CssSelector.empty)) = n := by
  cases n with
  | mk e cls attrs nn =>
    rw [WFInner] at hwf
    simp only [CssSelector.element, CssSelector.classNames, CssSelector.attrs,
      CssSelector.notSelectors, Bool.and_eq_true, List.all_eq_true] at hwf
    obtain ⟨⟨⟨hel, _⟩, _⟩, hnnE⟩ := hwf
    have hnn : nn = [] := by
      cases nn with
      | nil => rfl
      | cons x xs => exact absurd hnnE (by simp)
    subst hnn
    cases e with
    | none =>
      simp [elemF, addClasses, addAttrs, CssSelector.empty, CssSelector.element,
        CssSelector.classNames, CssSelector.attrs]
    | some es =>
      have hstar : ¬(es = "*") := by
        intro he
        rw [he] at hel
        exact absurd hel (by decide)
      simp [elemF, addClasses, addAttrs, CssSelector.empty, CssSelector.setElement,
        CssSelector.element, CssSelector.classNames, CssSelector.attrs, if_neg hstar]

theorem fold_notSegs (nots : List CssSelector)
    (h : ∀ n ∈ nots, WFInner n = true) :
    ∀ (res : List CssSelector) (top : CssSelector),
      ((nots.map (fun n => SelToken.notOpen :: (tokensOfInner n ++
        [SelToken.notClose]))).flatten).foldlM applyTok ⟨res, top, false⟩ =
      .ok ⟨res, pushNots nots top, false⟩ := by
  induction nots with
  | nil =>
    intro res top
    rw [List.map_nil, List.flatten_nil, List.foldlM_nil]
    have hp : pushNots [] top = top := by
      cases top with
      | mk te tc ta tn => simp [pushNots]
    rw [hp]
    rfl
  | cons n ns ih =>
    intro res top
    have hwfn := h n (List.mem_cons_self n ns)
    have hcls : ∀ k ∈ n.classNames, lowerFixed k = true := by
      intro k hk
      cases n with
      | mk e cls attrs nn =>
        rw [WFInner] at hwfn
        simp only [CssSelector.element, CssSelector.classNames, CssSelector.attrs,
          CssSelector.notSelectors, Bool.and_eq_true, List.all_eq_true] at hwfn
        have := hwfn.1.1.2 k hk
        exact this.2
    have hattrs : ∀ p ∈ n.attrs, plainName p.1 = true ∧ lowerFixed p.2 = true := by
      intro p hp
      cases n with
      | mk e cls attrs nn =>
        rw [WFInner] at hwfn
        simp only [CssSelector.element, CssSelector.classNames, CssSelector.attrs,
          CssSelector.notSelectors, Bool.and_eq_true, List.all_eq_true] at hwfn
        have h1 := hwfn.1.2 p hp
        rw [plainName] at h1 ⊢
        exact ⟨h1.1.1, h1.2⟩
    rw [List.map_cons, List.flatten_cons, List.foldlM_append, List.foldlM_cons]
    have hopen : applyTok ⟨res, top, false⟩ SelToken.notOpen =
        .ok ⟨res, top.pushNot CssSelector.empty, true⟩ := rfl
    rw [hopen, except_bind_ok, List.foldlM_append]
    rw [fold_tokensOfInner n hcls hattrs res _ true, except_bind_ok]
    rw [List.foldlM_cons]
    have hclose : ∀ (st : ParseState), applyTok st SelToken.notClose =
        .ok ⟨st.results, st.top, false⟩ := fun st => rfl
    rw [hclose, except_bind_ok, List.foldlM_nil, except_bind_pure]
    dsimp only
    cases top with
    | mk te tc ta tn =>
      have hupd : applyCurrent true
          (fun cur => addAttrs n.attrs (addClasses n.classNames (elemF n.element cur)))
          ((CssSelector.mk te tc ta tn).pushNot CssSelector.empty) =
          .mk te tc ta (tn ++ [n]) := by
        rw [show (CssSelector.mk te tc ta tn).pushNot CssSelector.empty =
          .mk te tc ta (tn ++ [CssSelector.empty]) from rfl]
        rw [applyCurrent, if_pos rfl]
        rw [updateLast_append_singleton]
        rw [innerF_empty n hwfn]
      rw [hupd]
      rw [ih (fun x hx => h x (List.mem_cons_of_mem n hx)) res (.mk te tc ta (tn ++ [n]))]
      have hpush : pushNots ns (CssSelector.mk te tc ta (tn ++ [n])) =
          pushNots (n :: ns) (.mk te tc ta tn) := by
        simp [pushNots]
      rw [hpush]

def presealOf (s : CssSelector) : CssSelector :=
  match s with
  | .mk e cls attrs nots =>
    .mk (match e with
         | none => none
         | some es => if es = "*" then none else some es)
      cls attrs nots

theorem fold_tokensOfTop (s : CssSelector) (hwf : WFTop s = true) :
    ∀ (res : List CssSelector),
      (tokensOfTop s).foldlM applyTok ⟨res, CssSelector.empty, false⟩ =
        .ok ⟨res, presealOf s, false⟩ := by
  intro res
  cases s with
  | mk e cls attrs nots =>
    rw [WFTop] at hwf
    simp only [CssSelector.element, CssSelector.classNames, CssSelector.attrs,
      CssSelector.notSelectors, Bool.and_eq_true, List.all_eq_true] at hwf
    obtain ⟨⟨⟨⟨hel, hcls⟩, hattrs⟩, hnotsWF⟩, hseal⟩ := hwf
    have hclsL : ∀ k ∈ (CssSelector.mk e cls attrs nots).classNames, lowerFixed k = true :=
      fun k hk => (hcls k hk).2
    have hattrsL : ∀ p ∈ (CssSelector.mk e cls attrs nots).attrs,
        plainName p.1 = true ∧ lowerFixed p.2 = true :=
      fun p hp => ⟨(hattrs p hp).1.1, (hattrs p hp).2⟩
    rw [tokensOfTop, List.foldlM_append]
    rw [fold_tokensOfInner (.mk e cls attrs nots) hclsL hattrsL res CssSelector.empty false]
    rw [except_bind_ok]
    rw [show CssSelector.notSelectors (.mk e cls attrs nots) = nots from rfl]
    cases e with
    | none =>
      have hbuild : applyCurrent false (fun cur =>
          addAttrs (CssSelector.mk none cls attrs nots).attrs
            (addClasses (CssSelector.mk none cls attrs nots).classNames
              (elemF (CssSelector.mk none cls attrs nots).element cur))) CssSelector.empty =
          .mk none cls attrs [] := by
        simp [applyCurrent, elemF, addClasses, addAttrs, CssSelector.empty,
          CssSelector.element, CssSelector.classNames, CssSelector.attrs]
      rw [hbuild]
      rw [fold_notSegs nots hnotsWF res _]
      have hpush : pushNots nots (CssSelector.mk none cls attrs []) =
          presealOf (.mk none cls attrs nots) := by
        simp [pushNots, presealOf]
      rw [hpush]
    | some es =>
      by_cases hstar : es = "*"
      · have hbuild : applyCurrent false (fun cur =>
            addAttrs (CssSelector.mk (some es) cls attrs nots).attrs
              (addClasses (CssSelector.mk (some es) cls attrs nots).classNames
                (elemF (CssSelector.mk (some es) cls attrs nots).element cur)))
              CssSelector.empty = .mk none cls attrs [] := by
          simp [applyCurrent, elemF, addClasses, addAttrs, CssSelector.empty,
            CssSelector.element, CssSelector.classNames, CssSelector.attrs, if_pos hstar]
        rw [hbuild]
        rw [fold_notSegs nots hnotsWF res _]
        have hpush : pushNots nots (CssSelector.mk none cls attrs []) =
            presealOf (.mk (some es) cls attrs nots) := by
          simp [pushNots, presealOf, if_pos hstar]
        rw [hpush]
      · have hbuild : applyCurrent false (fun cur =>
            addAttrs (CssSelector.mk (some es) cls attrs nots).attrs
              (addClasses (CssSelector.mk (some es) cls attrs nots).classNames
                (elemF (CssSelector.mk (some es) cls attrs nots).element cur)))
              CssSelector.empty = .mk (some es) cls attrs [] := by
          simp [applyCurrent, elemF, addClasses, addAttrs, CssSelector.empty,
            CssSelector.setElement, CssSelector.element, CssSelector.classNames,
            CssSelector.attrs, if_neg hstar]
        rw [hbuild]
        rw [fold_notSegs nots hnotsWF res _]
        have hpush : pushNots nots (CssSelector.mk (some es) cls attrs []) =
            presealOf (.mk (some es) cls attrs nots) := by
          simp [pushNots, presealOf, if_neg hstar]
        rw [hpush]

theorem seal_preseal (s : CssSelector) (hwf : WFTop s = true) :
    sealSelector (presealOf s) = s := by
  cases s with
  | mk e cls attrs nots =>
    rw [WFTop, Bool.and_eq_true, Bool.and_eq_true, Bool.and_eq_true, Bool.and_eq_true] at hwf
    obtain ⟨⟨⟨⟨hel0, _⟩, _⟩, _⟩, hseal0⟩ := hwf
    cases e with
    | none =>
      have hseal : (!(elementFalsy (none : Option String) && cls.isEmpty &&
          attrs.isEmpty && !nots.isEmpty)) = true := hseal0
      have hp : presealOf (.mk none cls attrs nots) = .mk none cls attrs nots := by
        simp [presealOf]
      have hnc : ¬((!(CssSelector.mk none cls attrs nots).notSelectors.isEmpty &&
          elementFalsy (CssSelector.mk none cls attrs nots).element &&
          (CssSelector.mk none cls attrs nots).classNames.isEmpty &&
          (CssSelector.mk none cls attrs nots).attrs.isEmpty) = true) := by
        intro hcon0
        have hcon : (!nots.isEmpty && elementFalsy none && cls.isEmpty &&
            attrs.isEmpty) = true := hcon0
        rw [Bool.and_eq_true, Bool.and_eq_true, Bool.and_eq_true] at hcon
        obtain ⟨⟨⟨hn, hf⟩, hc⟩, ha⟩ := hcon
        have hbuilt : (elementFalsy (none : Option String) && cls.isEmpty &&
            attrs.isEmpty && !nots.isEmpty) = true := by
          rw [Bool.and_eq_true, Bool.and_eq_true, Bool.and_eq_true]
          exact ⟨⟨⟨hf, hc⟩, ha⟩, hn⟩
        rw [hbuilt] at hseal
        exact absurd hseal (by decide)
      rw [hp, sealSelector, if_neg hnc]
    | some es =>
      have hel : (isTagRun es ||
          (es == "*" && cls.isEmpty && attrs.isEmpty && !nots.isEmpty)) = true := hel0
      by_cases hstar : es = "*"
      · have hp : presealOf (.mk (some es) cls attrs nots) = .mk none cls attrs nots := by
          simp [presealOf, if_pos hstar]
        have hcond : cls.isEmpty = true ∧ attrs.isEmpty = true ∧ (!nots.isEmpty) = true := by
          rw [Bool.or_eq_true] at hel
          rcases hel with hrun | hcond2
          · rw [hstar] at hrun
            exact absurd hrun (by decide)
          · rw [Bool.and_eq_true, Bool.and_eq_true, Bool.and_eq_true] at hcond2
            exact ⟨hcond2.1.1.2, hcond2.1.2, hcond2.2⟩
        have hclsE : cls = [] := by
          cases cls with
          | nil => rfl
          | cons x xs => exact absurd hcond.1 (by simp)
        have hattrsE : attrs = [] := by
          cases attrs with
          | nil => rfl
          | cons x xs => exact absurd hcond.2.1 (by simp)
        subst hclsE
        subst hattrsE
        have hc : ((!(CssSelector.mk none ([] : List String)
            ([] : List (String × String)) nots).notSelectors.isEmpty &&
            elementFalsy (CssSelector.mk none [] [] nots).element &&
            (CssSelector.mk none [] [] nots).classNames.isEmpty &&
            (CssSelector.mk none [] [] nots).attrs.isEmpty) = true) := by
          show (!nots.isEmpty && elementFalsy none && List.isEmpty [] &&
            List.isEmpty [] : Bool) = true
          rw [Bool.and_eq_true, Bool.and_eq_true, Bool.and_eq_true]
          exact ⟨⟨⟨hcond.2.2, rfl⟩, rfl⟩, rfl⟩
        rw [hp, sealSelector, if_pos hc]
        rw [hstar]
        rfl
      · have hp : presealOf (.mk (some es) cls attrs nots) =
            .mk (some es) cls attrs nots := by
          simp [presealOf, if_neg hstar]
        have hesrun : isTagRun es = true := by
          rw [Bool.or_eq_true] at hel
          rcases hel with hrun | hcond2
          · exact hrun
          · rw [Bool.and_eq_true, Bool.and_eq_true, Bool.and_eq_true] at hcond2
            exact absurd (beq_iff_eq.mp hcond2.1.1.1) hstar
        have hesne : ¬(es = "") := by
          intro he
          rw [he] at hesrun
          exact absurd hesrun (by decide)
        have hnc : ¬((!(CssSelector.mk (some es) cls attrs nots).notSelectors.isEmpty &&
            elementFalsy (CssSelector.mk (some es) cls attrs nots).element &&
            (CssSelector.mk (some es) cls attrs nots).classNames.isEmpty &&
            (CssSelector.mk (some es) cls attrs nots).attrs.isEmpty) = true) := by
          intro hcon0
          have hcon : (!nots.isEmpty && (es == "") && cls.isEmpty &&
              attrs.isEmpty) = true := hcon0
          rw [Bool.and_eq_true, Bool.and_eq_true, Bool.and_eq_true] at hcon
          exact hesne (beq_iff_eq.mp hcon.1.1.2)
        rw [hp, sealSelector, if_neg hnc]

theorem fold_sepSegs : ∀ (rs : List CssSelector), (∀ x ∈ rs, WFTop x = true) →
    ∀ (res : List CssSelector) (top : CssSelector),
    ∃ st : ParseState,
      ((rs.map (fun r => SelToken.separator :: tokensOfTop r)).flatten).foldlM
        applyTok ⟨res, top, false⟩ = .ok st ∧
      addResult st.results st.top =
        res ++ sealSelector top :: rs.map (fun r => sealSelector (presealOf r)) := by
  intro rs
  induction rs with
  | nil =>
    intro _ res top
    exact ⟨⟨res, top, false⟩, rfl, rfl⟩
  | cons r rs2 ih =>
    intro h res top
    obtain ⟨st, hf, ha⟩ := ih (fun x hx => h x (List.mem_cons_of_mem r hx))
      (addResult res top) (presealOf r)
    refine ⟨st, ?_, ?_⟩
    · rw [List.map_cons, List.flatten_cons, List.foldlM_append, List.foldlM_cons]
      have hsep : applyTok ⟨res, top, false⟩ SelToken.separator =
          .ok ⟨addResult res top, CssSelector.empty, false⟩ := rfl
      rw [hsep, except_bind_ok]
      rw [fold_tokensOfTop r (h r (List.mem_cons_self r rs2)) (addResult res top)]
      rw [except_bind_ok]
      exact hf
    · rw [ha, List.map_cons, addResult]
      simp [List.append_assoc]

/-- Replaying the canonical token stream of a list of well-formed sealed
selectors through the parser loop rebuilds exactly that list. -/
theorem parseTokens_tokensOfList (l : List CssSelector)
    (hl : ∀ s ∈ l, WFTop s = true) (hne : l ≠ []) :
    parseTokens (tokensOfList l) = .ok l := by
  cases l with
  | nil => exact absurd rfl hne
  | cons s rest =>
    obtain ⟨st, hf, ha⟩ := fold_sepSegs rest (fun x hx => hl x (List.mem_cons_of_mem s hx))
      [] (presealOf s)
    rw [parseTokens]
    rw [show tokensOfList (s :: rest) = tokensOfTop s ++
      (rest.map (fun r => SelToken.separator :: tokensOfTop r)).flatten from rfl]
    rw [List.foldlM_append]
    rw [show (initState : ParseState) = ⟨[], CssSelector.empty, false⟩ from rfl]
    rw [fold_tokensOfTop s (hl s (List.mem_cons_self s rest)) []]
    rw [except_bind_ok, hf]
    show Except.ok (addResult st.results st.top) = .ok (s :: rest)
    rw [ha]
    rw [seal_preseal s (hl s (List.mem_cons_self s rest))]
    have hmap : rest.map (fun r => sealSelector (presealOf r)) = rest := by
      have := List.map_congr_left (l := rest)
        (f := fun r => sealSelector (presealOf r)) (g := fun r => r)
        (fun r hr => seal_preseal r (hl r (List.mem_cons_of_mem s hr)))
      rw [this]
      exact List.map_id' rest
    rw [hmap]
    rfl

/-! ## Every parse result is well-formed

Tokens produced by the tokenizer carry nonempty `[-\w]+` runs, nonempty
`[-.\w*\\$]+` raw names and `[^\]"']*` values; the parser loop therefore only
ever builds selectors of the shapes `WFTop` describes. -/

/-- Well-formedness of one token as produced by the tokenizer. -/
def TokWF : SelToken → Bool
  | .fragment _ run => !run.isEmpty && run.all tagChar
  | .attrTok rawName value => (!rawName.isEmpty && rawName.all nameChar) &&
      (match value with | none => true | some v => v.all valueChar)
  | _ => true

theorem bnot_of_not_eq_true {b : Bool} (h : ¬(b = true)) : (!b) = true := by
  cases b
  · rfl
  · exact absurd rfl h

theorem takeWhile_all (p : Char → Bool) (l : List Char) :
    (l.takeWhile p).all p = true :=
  List.all_eq_true.mpr (fun _ hc => List.mem_takeWhile_imp hc)

theorem notOpenAt_tok {cs rest : List Char} {t : SelToken}
    (h : notOpenAt cs = some (t, rest)) : t = .notOpen := by
  rw [notOpenAt.eq_def] at h
  split at h
  · simp only [Option.some.injEq, Prod.mk.injEq] at h
    exact h.1.symm
  · exact absurd h (by simp)

theorem fragAt_TokWF {cs rest : List Char} {t : SelToken}
    (h : fragAt cs = some (t, rest)) : TokWF t = true := by
  rw [fragAt.eq_def] at h
  split at h
  · exact absurd h (by simp)
  · rename_i c cs'
    split at h
    · split at h
      · exact absurd h (by simp)
      · rename_i hne
        simp only [Option.some.injEq, Prod.mk.injEq] at h
        rw [← h.1, TokWF, Bool.and_eq_true]
        exact ⟨bnot_of_not_eq_true hne, takeWhile_all tagChar cs'⟩
    · split at h
      · exact absurd h (by simp)
      · rename_i hne
        simp only [Option.some.injEq, Prod.mk.injEq] at h
        rw [← h.1, TokWF, Bool.and_eq_true]
        exact ⟨bnot_of_not_eq_true hne, takeWhile_all tagChar (c :: cs')⟩

theorem attrAt_TokWF {cs rest : List Char} {t : SelToken}
    (h : attrAt cs = some (t, rest)) : TokWF t = true := by
  rw [attrAt.eq_def] at h
  split at h
  · rename_i cs'
    split at h
    · exact absurd h (by simp)
    · rename_i hne
      split at h
      · simp only [Option.some.injEq, Prod.mk.injEq] at h
        rw [← h.1, TokWF]
        simp only [Bool.and_eq_true]
        exact ⟨⟨bnot_of_not_eq_true hne, takeWhile_all nameChar cs'⟩, trivial⟩
      · split at h
        · exact absurd h (by simp)
        · rename_i q rest2
          split at h
          · split at h
            · split at h
              · simp only [Option.some.injEq, Prod.mk.injEq] at h
                rw [← h.1, TokWF]
                simp only [Bool.and_eq_true]
                exact ⟨⟨bnot_of_not_eq_true hne, takeWhile_all nameChar cs'⟩,
                  takeWhile_all valueChar _⟩
              · exact absurd h (by simp)
            · exact absurd h (by simp)
          · split at h
            · rename_i rest3 hdw
              simp only [Option.some.injEq, Prod.mk.injEq] at h
              rw [← h.1, TokWF]
              simp only [Bool.and_eq_true]
              exact ⟨⟨bnot_of_not_eq_true hne, takeWhile_all nameChar cs'⟩,
                takeWhile_all valueChar _⟩
            · exact absurd h (by simp)
      · exact absurd h (by simp)
  · exact absurd h (by simp)

theorem notCloseAt_tok {cs rest : List Char} {t : SelToken}
    (h : notCloseAt cs = some (t, rest)) : t = .notClose := by
  rw [notCloseAt.eq_def] at h
  split at h
  · simp only [Option.some.injEq, Prod.mk.injEq] at h
    exact h.1.symm
  · exact absurd h (by simp)

theorem sepAt_tok {cs rest : List Char} {t : SelToken}
    (h : sepAt cs = some (t, rest)) : t = .separator := by
  rw [sepAt] at h
  split at h
  · simp only [Option.some.injEq, Prod.mk.injEq] at h
    exact h.1.symm
  · exact absurd h (by simp)

theorem matchAt_TokWF {cs rest : List Char} {t : SelToken}
    (h : matchAt cs = some (t, rest)) : TokWF t = true := by
  rw [matchAt] at h
  cases h1 : notOpenAt cs with
  | some r =>
    rw [h1] at h
    have h' : some r = some (t, rest) := h
    injection h' with h'
    rw [h'] at h1
    rw [notOpenAt_tok h1]
    rfl
  | none =>
    rw [h1] at h
    have h2c : (match fragAt cs with
        | some r => some r
        | none => match attrAt cs with
          | some r => some r
          | none => match notCloseAt cs with
            | some r => some r
            | none => sepAt cs) = some (t, rest) := h
    cases h2 : fragAt cs with
    | some r =>
      rw [h2] at h2c
      have h' : some r = some (t, rest) := h2c
      injection h' with h'
      rw [h'] at h2
      exact fragAt_TokWF h2
    | none =>
      rw [h2] at h2c
      cases h3 : attrAt cs with
      | some r =>
        rw [h3] at h2c
        have h' : some r = some (t, rest) := h2c
        injection h' with h'
        rw [h'] at h3
        exact attrAt_TokWF h3
      | none =>
        rw [h3] at h2c
        cases h4 : notCloseAt cs with
        | some r =>
          rw [h4] at h2c
          have h' : some r = some (t, rest) := h2c
          injection h' with h'
          rw [h'] at h4
          rw [notCloseAt_tok h4]
          rfl
        | none =>
          rw [h4] at h2c
          have h' : sepAt cs = some (t, rest) := h2c
          rw [sepAt_tok h']
          rfl

theorem tokenizeF_TokWF : ∀ (fuel : Nat) (cs : List Char) (t : SelToken),
    t ∈ tokenizeF fuel cs → TokWF t = true := by
  intro fuel
  induction fuel with
  | zero =>
    intro cs t ht
    exact absurd ht (by rw [tokenizeF]; exact List.not_mem_nil t)
  | succ n ih =>
    intro cs t ht
    cases cs with
    | nil => exact absurd ht (by rw [tokenizeF.eq_def]; exact List.not_mem_nil t)
    | cons c cs' =>
      rw [tokenizeF] at ht
      cases hm : matchAt (c :: cs') with
      | some tr =>
        obtain ⟨t2, rest⟩ := tr
        rw [hm] at ht
        have ht' : t ∈ t2 :: tokenizeF n rest := ht
        rcases List.mem_cons.mp ht' with he | hmem
        · rw [he]
          exact matchAt_TokWF hm
        · exact ih rest t hmem
      | none =>
        rw [hm] at ht
        have ht' : t ∈ tokenizeF n cs' := ht
        exact ih cs' t ht'

theorem tokenize_TokWF (cs : List Char) (t : SelToken) (ht : t ∈ tokenize cs) :
    TokWF t = true :=
  tokenizeF_TokWF cs.length cs t ht

/-- Shape of the in-progress `current`/top selector during the parse loop:
like `WFTop` but before sealing, and with negation members of inner shape. -/
def WFPartial (s : CssSelector) : Bool :=
  (match s.element with | none => true | some e => isTagRun e) &&
  s.classNames.all (fun k => isTagRun k && lowerFixed k) &&
  s.attrs.all (fun p => plainName p.1 && isValueStr p.2 && lowerFixed p.2) &&
  s.notSelectors.all WFInner

theorem WFPartial_empty : WFPartial CssSelector.empty = true := rfl

theorem isTagRun_jsLower (k : String) (hk : isTagRun k = true) :
    isTagRun (jsLower k) = true := by
  rw [isTagRun] at hk
  rw [isTagRun, jsLower]
  simp only [Bool.and_eq_true] at hk ⊢
  constructor
  · cases hd : k.data with
    | nil =>
      rw [hd] at hk
      exact absurd hk.1 (by decide)
    | cons a l =>
      rfl
  · rw [List.all_map]
    rw [List.all_eq_true] at hk ⊢
    exact fun c hc => jsLowerChar_tagChar c (hk.2 c hc)

theorem lowerFixed_jsLower (s : String) : lowerFixed (jsLower s) = true := by
  rw [lowerFixed, jsLower_idem]
  exact beq_iff_eq.mpr rfl

theorem isValueStr_jsLower (s : String) (h : isValueStr s = true) :
    isValueStr (jsLower s) = true := by
  rw [isValueStr] at h
  rw [isValueStr, jsLower]
  rw [List.all_map]
  rw [List.all_eq_true] at h ⊢
  exact fun c hc => jsLowerChar_valueChar c (h c hc)

theorem isValueStr_of_tagRun (s : String) (h : s.data.all tagChar = true) :
    isValueStr s = true := by
  rw [isValueStr]
  rw [List.all_eq_true] at h ⊢
  exact fun c hc => tagChar_valueChar c (h c hc)

/-! Preservation of `WFPartial` and `WFInner` by the three selector
mutations the loop performs. -/

theorem WFPartial_setElement (s : CssSelector) (e : String)
    (hs : WFPartial s = true) (he : isTagRun e = true) :
    WFPartial (s.setElement e) = true := by
  cases s with
  | mk e0 c a n =>
    rw [WFPartial] at hs ⊢
    simp only [CssSelector.setElement, CssSelector.element, CssSelector.classNames,
      CssSelector.attrs, CssSelector.notSelectors, Bool.and_eq_true] at hs ⊢
    exact ⟨⟨⟨he, hs.1.1.2⟩, hs.1.2⟩, hs.2⟩

theorem WFInner_setElement (s : CssSelector) (e : String)
    (hs : WFInner s = true) (he : isTagRun e = true) :
    WFInner (s.setElement e) = true := by
  cases s with
  | mk e0 c a n =>
    rw [WFInner] at hs ⊢
    simp only [CssSelector.setElement, CssSelector.element, CssSelector.classNames,
      CssSelector.attrs, CssSelector.notSelectors, Bool.and_eq_true] at hs ⊢
    exact ⟨⟨⟨he, hs.1.1.2⟩, hs.1.2⟩, hs.2⟩

theorem WFPartial_addClassName (s : CssSelector) (k : String)
    (hs : WFPartial s = true) (hk : isTagRun k = true) :
    WFPartial (s.addClassName k) = true := by
  cases s with
  | mk e0 c a n =>
    rw [WFPartial] at hs ⊢
    simp only [CssSelector.addClassName, CssSelector.element, CssSelector.classNames,
      CssSelector.attrs, CssSelector.notSelectors, Bool.and_eq_true] at hs ⊢
    refine ⟨⟨⟨hs.1.1.1, ?_⟩, hs.1.2⟩, hs.2⟩
    rw [List.all_append, hs.1.1.2]
    show (true && ((isTagRun (jsLower k) && lowerFixed (jsLower k)) && true)) = true
    simp [isTagRun_jsLower k hk, lowerFixed_jsLower k]

theorem WFInner_addClassName (s : CssSelector) (k : String)
    (hs : WFInner s = true) (hk : isTagRun k = true) :
    WFInner (s.addClassName k) = true := by
  cases s with
  | mk e0 c a n =>
    rw [WFInner] at hs ⊢
    simp only [CssSelector.addClassName, CssSelector.element, CssSelector.classNames,
      CssSelector.attrs, CssSelector.notSelectors, Bool.and_eq_true] at hs ⊢
    refine ⟨⟨⟨hs.1.1.1, ?_⟩, hs.1.2⟩, hs.2⟩
    rw [List.all_append, hs.1.1.2]
    show (true && ((isTagRun (jsLower k) && lowerFixed (jsLower k)) && true)) = true
    simp [isTagRun_jsLower k hk, lowerFixed_jsLower k]

theorem WFPartial_addAttribute (s : CssSelector) (nm : String) (v : Option String)
    (hs : WFPartial s = true) (hnm : plainName nm = true)
    (hv : isValueStr (v.getD "") = true) :
    WFPartial (s.addAttribute nm v) = true := by
  cases s with
  | mk e0 c a n =>
    rw [WFPartial] at hs ⊢
    simp only [CssSelector.addAttribute, CssSelector.element, CssSelector.classNames,
      CssSelector.attrs, CssSelector.notSelectors, Bool.and_eq_true] at hs ⊢
    refine ⟨⟨⟨hs.1.1.1, hs.1.1.2⟩, ?_⟩, hs.2⟩
    rw [List.all_append, hs.1.2]
    show (true && ((plainName nm && isValueStr (jsLower (v.getD "")) &&
      lowerFixed (jsLower (v.getD ""))) && true)) = true
    simp [hnm, isValueStr_jsLower _ hv, lowerFixed_jsLower]

theorem WFInner_addAttribute (s : CssSelector) (nm : String) (v : Option String)
    (hs : WFInner s = true) (hnm : plainName nm = true)
    (hv : isValueStr (v.getD "") = true) :
    WFInner (s.addAttribute nm v) = true := by
  cases s with
  | mk e0 c a n =>
    rw [WFInner] at hs ⊢
    simp only [CssSelector.addAttribute, CssSelector.element, CssSelector.classNames,
      CssSelector.attrs, CssSelector.notSelectors, Bool.and_eq_true] at hs ⊢
    refine ⟨⟨⟨hs.1.1.1, hs.1.1.2⟩, ?_⟩, hs.2⟩
    rw [List.all_append, hs.1.2]
    show (true && ((plainName nm && isValueStr (jsLower (v.getD "")) &&
      lowerFixed (jsLower (v.getD ""))) && true)) = true
    simp [hnm, isValueStr_jsLower _ hv, lowerFixed_jsLower]

theorem WFPartial_pushNot (s : CssSelector) (hs : WFPartial s = true) :
    WFPartial (s.pushNot CssSelector.empty) = true := by
  cases s with
  | mk e0 c a n =>
    rw [WFPartial] at hs ⊢
    simp only [CssSelector.pushNot, CssSelector.element, CssSelector.classNames,
      CssSelector.attrs, CssSelector.notSelectors, Bool.and_eq_true] at hs ⊢
    refine ⟨hs.1, ?_⟩
    rw [List.all_append, hs.2]
    rfl

theorem updateLast_all (P : CssSelector → Bool) (f : CssSelector → CssSelector)
    (hf : ∀ x, P x = true → P (f x) = true) :
    ∀ l : List CssSelector, l.all P = true → (updateLast f l).all P = true := by
  intro l
  induction l with
  | nil => exact fun h => h
  | cons x xs ih =>
    intro h
    simp only [List.all_cons, Bool.and_eq_true] at h
    cases xs with
    | nil =>
      rw [show updateLast f [x] = [f x] from rfl]
      simp only [List.all_cons, List.all_nil, Bool.and_true]
      exact hf x h.1
    | cons y ys =>
      rw [show updateLast f (x :: y :: ys) = x :: updateLast f (y :: ys) from rfl]
      simp only [List.all_cons, Bool.and_eq_true]
      exact ⟨h.1, ih h.2⟩

/-- `applyCurrent` keeps the top selector well-formed when `f` preserves both
partial and inner shapes. -/
theorem applyCurrent_WFPartial (b : Bool) (f : CssSelector → CssSelector)
    (top : CssSelector) (htop : WFPartial top = true)
    (hfP : ∀ x, WFPartial x = true → WFPartial (f x) = true)
    (hfI : ∀ x, WFInner x = true → WFInner (f x) = true) :
    WFPartial (applyCurrent b f top) = true := by
  cases b with
  | false => exact hfP top htop
  | true =>
    cases top with
    | mk e0 c a n =>
      have hgoal : applyCurrent true f (CssSelector.mk e0 c a n) =
          CssSelector.mk e0 c a (updateLast f n) := rfl
      rw [hgoal]
      rw [WFPartial] at htop ⊢
      simp only [CssSelector.element, CssSelector.classNames,
        CssSelector.attrs, CssSelector.notSelectors, Bool.and_eq_true] at htop ⊢
      exact ⟨htop.1, updateLast_all WFInner f hfI n htop.2⟩

/-- Sealing a partially well-formed selector yields a `WFTop` one. -/
theorem WFTop_seal (s : CssSelector) (h : WFPartial s = true) :
    WFTop (sealSelector s) = true := by
  cases s with
  | mk e cls attrs nots =>
    rw [WFPartial] at h
    simp only [CssSelector.element, CssSelector.classNames, CssSelector.attrs,
      CssSelector.notSelectors, Bool.and_eq_true] at h
    obtain ⟨⟨⟨hel, hcls⟩, hattrs⟩, hnots⟩ := h
    rw [sealSelector]
    split
    · rename_i hcond
      simp only [CssSelector.notSelectors, CssSelector.element, CssSelector.classNames,
        CssSelector.attrs, Bool.and_eq_true] at hcond
      obtain ⟨⟨⟨hN, hE⟩, hC⟩, hA⟩ := hcond
      cases cls with
      | cons k ks => simp at hC
      | nil =>
        cases attrs with
        | cons p ps => simp at hA
        | nil =>
          cases nots with
          | nil => simp at hN
          | cons n ns =>
            rw [WFTop]
            simp only [CssSelector.setElement, CssSelector.element, CssSelector.classNames,
              CssSelector.attrs, CssSelector.notSelectors, Bool.and_eq_true]
            exact ⟨⟨⟨⟨rfl, rfl⟩, rfl⟩, hnots⟩, rfl⟩
    · rename_i hcond
      have hcond' : (!(CssSelector.mk e cls attrs nots).notSelectors.isEmpty &&
          elementFalsy (CssSelector.mk e cls attrs nots).element &&
          (CssSelector.mk e cls attrs nots).classNames.isEmpty &&
          (CssSelector.mk e cls attrs nots).attrs.isEmpty) = false :=
        Bool.eq_false_iff.mpr hcond
      simp only [CssSelector.element, CssSelector.classNames, CssSelector.attrs,
        CssSelector.notSelectors] at hcond'
      rw [WFTop]
      simp only [CssSelector.element, CssSelector.classNames, CssSelector.attrs,
        CssSelector.notSelectors, Bool.and_eq_true]
      refine ⟨⟨⟨⟨?_, hcls⟩, hattrs⟩, hnots⟩, ?_⟩
      · cases e with
        | none => rfl
        | some es =>
          have hel' : isTagRun es = true := hel
          simp [hel']
      · revert hcond'
        cases elementFalsy e <;> cases cls.isEmpty <;> cases attrs.isEmpty <;>
          cases nots.isEmpty <;> decide

/-- `_addResult` keeps the results list well-formed. -/
theorem addResult_WFTop (res : List CssSelector) (s : CssSelector)
    (hres : ∀ r ∈ res, WFTop r = true) (hs : WFPartial s = true) :
    ∀ r ∈ addResult res s, WFTop r = true := by
  intro r hr
  rw [addResult] at hr
  rcases List.mem_append.mp hr with h | h
  · exact hres r h
  · rw [List.mem_singleton.mp h]
    exact WFTop_seal s hs

theorem TokWF_attr_name (rawName : List Char) (value : Option (List Char))
    (h : TokWF (.attrTok rawName value) = true) : rawName.all nameChar = true := by
  cases value with
  | none =>
    have h' : ((!rawName.isEmpty && rawName.all nameChar) && true) = true := h
    rw [Bool.and_true, Bool.and_eq_true] at h'
    exact h'.2
  | some v =>
    have h' : ((!rawName.isEmpty && rawName.all nameChar) && v.all valueChar) = true := h
    rw [Bool.and_eq_true, Bool.and_eq_true] at h'
    exact h'.1.2

theorem TokWF_attr_value (rawName : List Char) (v : List Char)
    (h : TokWF (.attrTok rawName (some v)) = true) : v.all valueChar = true := by
  have h' : ((!rawName.isEmpty && rawName.all nameChar) && v.all valueChar) = true := h
  rw [Bool.and_eq_true] at h'
  exact h'.2

/-- One loop iteration preserves the state invariant. -/
theorem applyTok_StWF (st : ParseState) (t : SelToken) (st2 : ParseState)
    (htok : TokWF t = true)
    (hst : (∀ r ∈ st.results, WFTop r = true) ∧ WFPartial st.top = true)
    (h : applyTok st t = .ok st2) :
    (∀ r ∈ st2.results, WFTop r = true) ∧ WFPartial st2.top = true := by
  cases t with
  | notOpen =>
    rw [applyTok] at h
    split at h
    · exact absurd h (by simp)
    · have h' : Except.ok (⟨st.results, st.top.pushNot CssSelector.empty, true⟩ : ParseState) =
          .ok st2 := h
      injection h' with h'
      rw [← h']
      exact ⟨hst.1, WFPartial_pushNot st.top hst.2⟩
  | fragment mark run =>
    have htok' : (!run.isEmpty && run.all tagChar) = true := htok
    rw [Bool.and_eq_true] at htok'
    have hrun : isTagRun (String.mk run) = true := htok
    rw [applyTok] at h
    have h' : Except.ok (⟨st.results,
        applyCurrent st.inNot
          (if mark = some '#' then fun s => s.addAttribute "id" (some (String.mk run))
           else if mark = some '.' then fun s => s.addClassName (String.mk run)
           else fun s => s.setElement (String.mk run)) st.top, st.inNot⟩ : ParseState) =
        .ok st2 := h
    injection h' with h'
    rw [← h']
    refine ⟨hst.1, ?_⟩
    split
    · exact applyCurrent_WFPartial st.inNot _ st.top hst.2
        (fun x hx => WFPartial_addAttribute x "id" (some (String.mk run)) hx (by decide)
          (isValueStr_of_tagRun (String.mk run) htok'.2))
        (fun x hx => WFInner_addAttribute x "id" (some (String.mk run)) hx (by decide)
          (isValueStr_of_tagRun (String.mk run) htok'.2))
    · split
      · exact applyCurrent_WFPartial st.inNot _ st.top hst.2
          (fun x hx => WFPartial_addClassName x (String.mk run) hx hrun)
          (fun x hx => WFInner_addClassName x (String.mk run) hx hrun)
      · exact applyCurrent_WFPartial st.inNot _ st.top hst.2
          (fun x hx => WFPartial_setElement x (String.mk run) hx hrun)
          (fun x hx => WFInner_setElement x (String.mk run) hx hrun)
  | attrTok rawName value =>
    rw [applyTok] at h
    cases hu : unescapeChars rawName false with
    | none =>
      rw [hu] at h
      exact absurd h (by simp)
    | some nmChars =>
      rw [hu] at h
      have h' : Except.ok (⟨st.results,
          applyCurrent st.inNot
            (fun s => s.addAttribute (String.mk nmChars) (value.map String.mk)) st.top,
          st.inNot⟩ : ParseState) = .ok st2 := h
      injection h' with h'
      rw [← h']
      refine ⟨hst.1, ?_⟩
      have hnm : plainName (String.mk nmChars) = true := by
        rw [plainName]
        rw [List.all_eq_true]
        intro c hc
        have hsub := unescapeChars_subset rawName false nmChars hu
          (List.all_eq_true.mp (TokWF_attr_name rawName value htok)) c hc
        simp only [Bool.and_eq_true]
        refine ⟨hsub.1, ?_⟩
        rw [bnot_of_not_eq_true (b := decide (c = '\\'))]
        intro hd
        exact hsub.2 (of_decide_eq_true hd)
      have hv : isValueStr ((value.map String.mk).getD "") = true := by
        cases value with
        | none => rfl
        | some v => exact TokWF_attr_value rawName v htok
      exact applyCurrent_WFPartial st.inNot _ st.top hst.2
        (fun x hx => WFPartial_addAttribute x (String.mk nmChars) (value.map String.mk) hx hnm hv)
        (fun x hx => WFInner_addAttribute x (String.mk nmChars) (value.map String.mk) hx hnm hv)
  | notClose =>
    rw [applyTok] at h
    have h' : Except.ok (⟨st.results, st.top, false⟩ : ParseState) = .ok st2 := h
    injection h' with h'
    rw [← h']
    exact hst
  | separator =>
    rw [applyTok] at h
    split at h
    · exact absurd h (by simp)
    · have h' : Except.ok (⟨addResult st.results st.top, CssSelector.empty, false⟩ :
          ParseState) = .ok st2 := h
      injection h' with h'
      rw [← h']
      exact ⟨addResult_WFTop st.results st.top hst.1 hst.2, WFPartial_empty⟩

theorem foldlM_applyTok_StWF : ∀ (ts : List SelToken) (st st2 : ParseState),
    (∀ t ∈ ts, TokWF t = true) →
    ((∀ r ∈ st.results, WFTop r = true) ∧ WFPartial st.top = true) →
    ts.foldlM applyTok st = .ok st2 →
    ((∀ r ∈ st2.results, WFTop r = true) ∧ WFPartial st2.top = true) := by
  intro ts
  induction ts with
  | nil =>
    intro st st2 _ hst h
    rw [List.foldlM_nil] at h
    have h' : Except.ok st = .ok st2 := h
    injection h' with h'
    rw [← h']
    exact hst
  | cons t ts2 ih =>
    intro st st2 htoks hst h
    rw [List.foldlM_cons] at h
    cases ha : applyTok st t with
    | error e =>
      rw [ha] at h
      have h' : (Except.error e : Except ParseErr ParseState) = .ok st2 := h
      exact absurd h' (by simp)
    | ok st1 =>
      rw [ha] at h
      have h' : ts2.foldlM applyTok st1 = .ok st2 := h
      exact ih st1 st2 (fun x hx => htoks x (List.mem_cons_of_mem t hx))
        (applyTok_StWF st t st1 (htoks t (List.mem_cons_self t ts2)) hst ha) h'

/-- Every selector in a successful parse result has the sealed top-level
shape. -/
theorem parse_WFTop (s : String) (l : List CssSelector) (h : parse s = .ok l) :
    ∀ sel ∈ l, WFTop sel = true := by
  rw [parse, parseTokens] at h
  cases hf : (tokenize s.data).foldlM applyTok initState with
  | error e =>
    rw [hf] at h
    exact absurd h (by simp)
  | ok st =>
    rw [hf] at h
    have h' : Except.ok (addResult st.results st.top) = Except.ok l := h
    injection h' with h'
    rw [← h']
    have hI := foldlM_applyTok_StWF (tokenize s.data) initState st
      (fun t ht => tokenize_TokWF s.data t ht)
      ⟨fun r hr => absurd hr (List.not_mem_nil r), rfl⟩ hf
    exact addResult_WFTop st.results st.top hI.1 hI.2

/-- A successful parse never returns an empty list (the trailing
`_addResult` always appends one selector). -/
theorem parse_result_ne_nil (s : String) (l : List CssSelector)
    (h : parse s = .ok l) : l ≠ [] := by
  rw [parse, parseTokens] at h
  cases hf : (tokenize s.data).foldlM applyTok initState with
  | error e =>
    rw [hf] at h
    exact absurd h (by simp)
  | ok st =>
    rw [hf] at h
    have h' : Except.ok (addResult st.results st.top) = Except.ok l := h
    injection h' with h'
    rw [← h', addResult]
    intro hnil
    exact List.cons_ne_nil _ _ (List.append_eq_nil.mp hnil).2

/-! ## C3: the `toString`/`parse` round trip -/

/-- C3 counterexample: the accepted input `[\]` parses to one selector whose
single attribute has the empty name (`unescapeAttribute` drops the lone
backslash); `toString` serializes that selector as `[]`, which re-parses to a
selector with no attributes at all, so the re-parsed sequence is not
structurally equal to the original parse result (the attribute pair
`("", "")` is lost). -/
theorem toString_roundtrip_cex :
    parse "[\\]" = .ok [CssSelector.mk none [] [("", "")] []] ∧
    String.mk (serializeList [CssSelector.mk none [] [("", "")] []]) = "[]" ∧
    parse "[]" = .ok [CssSelector.mk none [] [] []] ∧
    ("", "") ∈ (CssSelector.mk none [] [("", "")] []).attrs ∧
    ("", "") ∉ (CssSelector.mk none [] [] []).attrs := by
  refine ⟨rfl, ?_, rfl, by decide, by decide⟩
  rw [show String.mk (serializeList [CssSelector.mk none [] [("", "")] []]) =
    String.mk (serializeSel (CssSelector.mk none [] [("", "")] [])) from by
      rw [serializeList, List.map_cons, List.map_nil, intercalate_comma]
      rw [List.map_nil, List.flatten_nil, List.append_nil]]
  rw [serializeSel_eq]
  rfl

/-- C3 (corrected): for every selector text that `parse` accepts without
raising an error and whose parse results store no empty attribute name (no
selector, nor any of its negation members, holds an attribute whose name is
the empty string), serializing the resulting selectors with `toString`
(joined as a comma-separated list) and parsing that output again yields
exactly the original sequence of selectors - in particular one of the same
length with equal element, classNames, attributes and notGroups,
recursively. -/
theorem toString_roundtrip_no_empty_names (s : String) (l : List CssSelector)
    (h : parse s = .ok l) (hna : ∀ sel ∈ l, noEmptyAttrNames sel = true) :
    parse (String.mk (serializeList l)) = .ok l := by
  have hwf := parse_WFTop s l h
  have hne : l ≠ [] := parse_result_ne_nil s l h
  rw [parse]
  rw [show (String.mk (serializeList l)).data = serializeList l from rfl]
  rw [tokenize_serializeList l (fun x hx => ⟨hwf x hx, hna x hx⟩) hne]
  exact parseTokens_tokensOfList l (fun x hx => hwf x hx) hne

theorem toString_roundtrip_no_empty_names_witness :
    parse "input[name=go]:not(.disabled)" =
      .ok [CssSelector.mk (some "input") [] [("name", "go")]
        [CssSelector.mk none ["disabled"] [] []]] ∧
    parse (String.mk (serializeList [CssSelector.mk (some "input") [] [("name", "go")]
        [CssSelector.mk none ["disabled"] [] []]])) =
      .ok [CssSelector.mk (some "input") [] [("name", "go")]
        [CssSelector.mk none ["disabled"] [] []]] :=
  ⟨rfl, toString_roundtrip_no_empty_names "input[name=go]:not(.disabled)"
    [CssSelector.mk (some "input") [] [("name", "go")]
      [CssSelector.mk none ["disabled"] [] []]] rfl (by decide)⟩
